import Mathlib

/-!
# Earley recognizer and shared-packed parse forest (src/earley.cpp)

A shallow embedding of the class `earley`: the grammar encoding done by the
constructor, the chart construction of `recognize` (`add`, `complete`,
`predict`, `scan`) and the forest construction (`find_all`, `sbl_chd_forest`,
`forest`). Further down: the persistent union-find, its iterator and the
poset of src/poset.h, and the inputs, raw terms, formula trees, rules and
productions of src/input.h.

Conventions.
* `std::set<T>` is a duplicate-free list kept in the order of the comparison,
  `std::map` a list of key/value pairs kept in key order.
* A loop whose number of iterations is not syntactically bounded carries a
  fuel argument; running out of fuel is the separate outcome `diverge`. The
  fuel handed out is never used up: `recognize_ne_diverge` for `recognize`,
  `nullables_fixed` for the loop of the constructor.
* The fields `from` and `to` of the source are written `from_` and `to_`, the
  parameter `end` of `find_all` is written `xend` (reserved words here).
-/

/-- What can stop a call early: `std::string::at` out of range, and reading
`back()` of an empty vector (undefined behaviour in the source). -/
inductive exn where
  | out_of_range
  | undefined_back
deriving DecidableEq, Repr

/-- Result of a call: a normal return, a thrown exception, or no result
within the fuel. -/
inductive outcome (α : Type) where
  | ret (a : α)
  | throws (e : exn)
  | diverge
deriving DecidableEq, Repr

namespace outcome

/-- Sequencing of calls: the first abnormal outcome wins. -/
def bind {α β : Type} (x : outcome α) (f : α → outcome β) : outcome β :=
  match x with
  | ret a => f a
  | throws e => throws e
  | diverge => diverge

/-- A `for` loop over `l` with loop state `b`. -/
def foldl {α β : Type} (f : β → α → outcome β) : β → List α → outcome β
  | b, [] => ret b
  | b, a :: l => bind (f b a) (fun b1 => foldl f b1 l)

end outcome

/-- Insertion into a `std::set` ordered by `lt`: nothing happens when the
element is present, otherwise it is placed at its position in the order. -/
def set_insert {α : Type} [DecidableEq α] (lt : α → α → Bool) (x : α) (l : List α) : List α :=
  if x ∈ l then l else l.orderedInsert (fun a b => lt a b = true) x

/-- Lookup `m.find(k)` on a `std::map`. -/
def map_find {α β : Type} [DecidableEq α] (k : α) : List (α × β) → Option β
  | [] => none
  | (k1, v1) :: m => if k = k1 then some v1 else map_find k m

/-- Assignment `m[k] = v` on a `std::map` ordered by `lt`: the value of an
existing key is replaced, a new key is placed at its position in the order. -/
def map_assign {α β : Type} [DecidableEq α] (lt : α → α → Bool) (k : α) (v : β)
    (m : List (α × β)) : List (α × β) :=
  if (map_find k m).isSome then m.map (fun kv => if kv.1 = k then (k, v) else kv)
  else m.orderedInsert (fun a b => lt a.1 b.1 = true) (k, v)

namespace earley

/-- The alternatives of `std::variant<size_t, char_t>`: a non-terminal id or a
character. -/
inductive sym where
  | n (k : Nat)
  | c (ch : Char)
deriving DecidableEq, Repr

/-- Modelled from the spec: `earley::lit` (also used as `nidx_t`), declared in
earley.h which is not part of the sources: a symbol together with the span
`from`/`to` of a forest node, both 0 for the literals stored in the grammar. -/
structure lit where
  v : sym
  from_ : Nat := 0
  to_ : Nat := 0
deriving DecidableEq, Repr

/-- Test `lit::nt()`: the literal holds a non-terminal. -/
def lit.nt (l : lit) : Bool :=
  match l.v with
  | sym.n _ => true
  | sym.c _ => false

/-- Accessor `lit::n()`; only called on non-terminals. -/
def lit.n (l : lit) : Nat :=
  match l.v with
  | sym.n k => k
  | sym.c _ => 0

/-- Accessor `lit::c()`; only called on terminals. -/
def lit.c (l : lit) : Char :=
  match l.v with
  | sym.n _ => Char.ofNat 0
  | sym.c ch => ch

/-- The ε-terminal as stored in the grammar, the character 0. -/
def lit.eps : lit := { v := sym.c (Char.ofNat 0), from_ := 0, to_ := 0 }

/-- A grammar literal for the non-terminal `k`, as built by `lit(size_t)`. -/
def lit.of_n (k : Nat) : lit := { v := sym.n k, from_ := 0, to_ := 0 }

/-- A grammar literal for the character `ch`, as built by `lit(char_t)`. -/
def lit.of_c (ch : Char) : lit := { v := sym.c ch, from_ := 0, to_ := 0 }

/-- Order of the variant: the non-terminal alternative comes first. -/
def sym.lt : sym → sym → Bool
  | sym.n a, sym.n b => decide (a < b)
  | sym.n _, sym.c _ => true
  | sym.c _, sym.n _ => false
  | sym.c a, sym.c b => decide (a.toNat < b.toNat)

/-- Modelled from the spec: the order of node keys `(symbol, from, to)`. -/
def lit.lt (a b : lit) : Bool :=
  if a.v ≠ b.v then sym.lt a.v b.v
  else if a.from_ ≠ b.from_ then decide (a.from_ < b.from_)
  else decide (a.to_ < b.to_)

/-- Lexicographic order of `std::vector<nidx_t>`. -/
def vec_lt : List lit → List lit → Bool
  | [], [] => false
  | [], _ :: _ => true
  | _ :: _, [] => false
  | a :: as, b :: bs => if lit.lt a b then true else if lit.lt b a then false else vec_lt as bs

/-- Modelled from the spec: `earley::item`, the chart item `(set, prod, from,
dot)`. The `mutable` side sets `advancers` and `completers` of an item are
kept as edge lists of the chart (`cstate.advancers`, `cstate.completers`). -/
structure item where
  set : Nat
  prod : Nat
  from_ : Nat
  dot : Nat
deriving DecidableEq, Repr

/-- Modelled from the spec: order of items, by `(set, prod, from, dot)`. -/
def item.lt (a b : item) : Bool :=
  if a.set ≠ b.set then decide (a.set < b.set)
  else if a.prod ≠ b.prod then decide (a.prod < b.prod)
  else if a.from_ ≠ b.from_ then decide (a.from_ < b.from_)
  else decide (a.dot < b.dot)

/-- The interning dictionary `d`: the vector `v`; the map `m` is its inverse. -/
abbrev dict := List String

/-- Interning `d.get(s)`: the index of `s`, appended when new. -/
def dict.get (d : dict) (s : String) : Nat × dict :=
  if d.indexOf s < d.length then (d.indexOf s, d) else (d.length, d ++ [s])

/-- One production: the row `G[p]`, empty when out of range. -/
def P (G : List (List lit)) (p : Nat) : List lit := G.getD p []

/-- Entry `G[p][k]`. -/
def sym_at (G : List (List lit)) (p k : Nat) : lit := (P G p).getD k lit.eps

/-- Modelled from the spec: `get_lit`, the symbol at the dot. -/
def get_lit (G : List (List lit)) (i : item) : lit := sym_at G i.prod i.dot

/-- Modelled from the spec: `get_nt`, the left-hand side of the production. -/
def get_nt (G : List (List lit)) (i : item) : lit := sym_at G i.prod 0

/-- Modelled from the spec: `completed`, the dot is at the end. -/
def completed (G : List (List lit)) (i : item) : Bool := decide ((P G i.prod).length = i.dot)

/-- Modelled from the spec: `nullable(item)` of earley.h, the test of the
nullable advance in `add`: the symbol at the dot exists and is a nullable
non-terminal or the ε-terminal. The ε-terminal has to be stepped over here:
no character of the input equals it in `scan`, and the completed items of
ε-productions that scenario E3 shows as packings `[ε]` arise no other way. -/
def nullable (G : List (List lit)) (nullables : List Nat) (i : item) : Bool :=
  decide (i.dot < (P G i.prod).length) &&
    (((get_lit G i).nt && decide ((get_lit G i).n ∈ nullables)) ||
     (!(get_lit G i).nt && decide ((get_lit G i).c = Char.ofNat 0)))

/-- The map `nts`: the productions whose left-hand side is `l`, increasing. -/
def nts (G : List (List lit)) (l : lit) : List Nat :=
  (List.range G.length).filter (fun n => decide ((P G n).head? = some l))

/-- Function `all_nulls`: every right-hand-side symbol is the ε-terminal or a
non-terminal of `nullables`. -/
def all_nulls (nullables : List Nat) (p : List lit) : Bool :=
  p.tail.all (fun l => !((!l.nt && decide (l.c ≠ Char.ofNat 0)) ||
    (l.nt && decide (l.n ∉ nullables))))

/-- One sweep of the constructor over `G`, inserting the left-hand side of
every production that is all nulls. -/
def nullables_sweep : List (List lit) → List Nat → List Nat
  | [], N => N
  | p :: G, N =>
    nullables_sweep G
      (if all_nulls N p then set_insert (fun a b => decide (a < b)) (p.headD lit.eps).n N else N)

/-- The `do ... while (k != nullables.size())` loop of the constructor. -/
def nullables_loop (G : List (List lit)) : Nat → List Nat → List Nat
  | 0, N => N
  | fuel + 1, N =>
    if (nullables_sweep G N).length = N.length then nullables_sweep G N
    else nullables_loop G fuel (nullables_sweep G N)

/-- The inner loop of the constructor over the strings of one alternative. -/
def mk_rhs (nt : List String) : List String → List lit → dict → List lit × dict
  | [], p, d => (p, d)
  | s :: y, p, d =>
    if s ∈ nt then mk_rhs nt y (p ++ [lit.of_n (dict.get d s).1]) (dict.get d s).2
    else if s.data = [] then mk_rhs nt y (p ++ [lit.eps]) d
    else mk_rhs nt y (p ++ s.data.map lit.of_c) d

/-- The loop of the constructor over the alternatives of one non-terminal. -/
def mk_alts (nt : List String) (lhs : String) :
    List (List String) → List (List lit) → dict → List (List lit) × dict
  | [], G, d => (G, d)
  | y :: ys, G, d =>
    mk_alts nt lhs ys
      (G ++ [(mk_rhs nt y [lit.of_n (dict.get d lhs).1] (dict.get d lhs).2).1])
      (mk_rhs nt y [lit.of_n (dict.get d lhs).1] (dict.get d lhs).2).2

/-- The outer loop of the constructor over the grammar. -/
def mk_G (nt : List String) :
    List (String × List (List String)) → List (List lit) → dict → List (List lit) × dict
  | [], G, d => (G, d)
  | x :: g, G, d => mk_G nt g (mk_alts nt x.1 x.2 G d).1 (mk_alts nt x.1 x.2 G d).2

/-- The chart while `recognize` runs: the member `S`, the local pending set
`t`, and the side sets of the items as lists of edges `(item, advancer)` and
`(item, completer)`. -/
structure cstate where
  S : List item
  t : List item
  advancers : List (item × item)
  completers : List (item × item)
deriving DecidableEq, Repr

/-- Order used for the edge lists: by item, then by the registered item. -/
def edge_lt (a b : item × item) : Bool :=
  if a.1 ≠ b.1 then item.lt a.1 b.1 else item.lt a.2 b.2

/-- Function `add` with the recursion depth `m = G[i.prod].size() - i.dot`
made explicit: at `m = 0` the dot is at the end and `nullable` is false. The
iterator the source returns always points at an item equal to `i`. -/
def add_aux (G : List (List lit)) (nullables : List Nat) : Nat → cstate → item → cstate
  | 0, c, i =>
    if i ∈ c.S then c else if i ∈ c.t then c else { c with t := set_insert item.lt i c.t }
  | m + 1, c, i =>
    if i ∈ c.S then c else if i ∈ c.t then c else
    if nullable G nullables i then
      { add_aux G nullables m { c with t := set_insert item.lt i c.t }
          ⟨i.set, i.prod, i.from_, i.dot + 1⟩ with
        advancers := set_insert edge_lt (⟨i.set, i.prod, i.from_, i.dot + 1⟩, i)
          (add_aux G nullables m { c with t := set_insert item.lt i c.t }
            ⟨i.set, i.prod, i.from_, i.dot + 1⟩).advancers }
    else { c with t := set_insert item.lt i c.t }

/-- Function `add(t, i)`. -/
def add (G : List (List lit)) (nullables : List Nat) (c : cstate) (i : item) : cstate :=
  add_aux G nullables ((P G i.prod).length - i.dot) c i

/-- Function `complete(i, t)`: the loop runs over the items of `S` in set
`i.from`. -/
def complete (G : List (List lit)) (nullables : List Nat) (i : item) (c : cstate) : cstate :=
  (c.S.filter (fun it => decide (it.set = i.from_))).foldl
    (fun c1 it =>
      if (P G it.prod).length > it.dot ∧ get_lit G it = get_nt G i then
        { add G nullables c1 ⟨i.set, it.prod, it.from_, it.dot + 1⟩ with
          completers := set_insert edge_lt (⟨i.set, it.prod, it.from_, it.dot + 1⟩, i)
            (add G nullables c1 ⟨i.set, it.prod, it.from_, it.dot + 1⟩).completers }
      else c1) c

/-- Function `predict(i, t)`. -/
def predict (G : List (List lit)) (nullables : List Nat) (i : item) (c : cstate) : cstate :=
  (nts G (get_lit G i)).foldl
    (fun c1 p =>
      { add G nullables c1 ⟨i.set, p, i.set, 1⟩ with
        advancers := set_insert edge_lt (⟨i.set, p, i.set, 1⟩, i)
          (add G nullables c1 ⟨i.set, p, i.set, 1⟩).advancers }) c

/-- Function `scan(i, n, ch)`. -/
def scan (G : List (List lit)) (i : item) (n : Nat) (ch : Char) (c : cstate) : cstate :=
  if ch ≠ (get_lit G i).c then c
  else
    { c with
      S := set_insert item.lt ⟨n + 1, i.prod, i.from_, i.dot + 1⟩ c.S
      advancers := set_insert edge_lt (⟨n + 1, i.prod, i.from_, i.dot + 1⟩, i) c.advancers }

/-- The body of the inner `for` loop of `recognize` for one item. -/
def process (G : List (List lit)) (nullables : List Nat) (s : List Char) (n : Nat)
    (c : cstate) (it : item) : cstate :=
  if completed G it then complete G nullables it c
  else if (get_lit G it).nt then predict G nullables it c
  else if n < s.length then scan G it n (s.getD n (Char.ofNat 0)) c
  else c

/-- One round of the `do ... while` loop of `recognize` at position `n`: `t`
is moved into `S`, then every item of set `n` is processed. The items the
round adds to `S` are in set `n + 1`, behind the range the loop runs over. -/
def round (G : List (List lit)) (nullables : List Nat) (s : List Char) (n : Nat)
    (c : cstate) : cstate :=
  ((c.t.foldl (fun S i => set_insert item.lt i S) c.S).filter (fun it => decide (it.set = n))).foldl
    (process G nullables s n)
    { c with S := c.t.foldl (fun S i => set_insert item.lt i S) c.S, t := [] }

/-- The `do ... while (!t.empty())` loop of `recognize` at position `n`. -/
def closure (G : List (List lit)) (nullables : List Nat) (s : List Char) (n : Nat) :
    Nat → cstate → outcome cstate
  | 0, _ => outcome.diverge
  | fuel + 1, c =>
    if (round G nullables s n c).t = [] then outcome.ret (round G nullables s n c)
    else closure G nullables s n fuel (round G nullables s n c)

/-- Number of quadruples `(set, prod, from, dot)` with `set, from ≤ len`,
`prod < G.size()` and `dot` at most the total length of the productions. -/
def item_bound (G : List (List lit)) (len : Nat) : Nat :=
  (len + 1) * (G.length * ((len + 1) * ((G.map List.length).sum + 1)))

/-- The chart construction of `recognize`: the seed, then the closure at
every position `0 .. len`. -/
def chart (G : List (List lit)) (start : lit) (nullables : List Nat) (s : List Char) :
    outcome cstate :=
  outcome.foldl (fun c n => closure G nullables s n (item_bound G s.length + 1) c)
    { S := (nts G start).foldl (fun S n => set_insert item.lt ⟨0, n, 0, 1⟩ S) []
      t := [], advancers := [], completers := [] }
    (List.range (s.length + 1))

/-- Function `find_all(xfrom, nt, end)`; `xend = -1` stands for any end. -/
def find_all (G : List (List lit)) (citem : List item) (xfrom nt : Nat) (xend : Int) :
    List item :=
  citem.filter (fun it => decide (it.from_ = xfrom) && decide (it.prod ∈ nts G (lit.of_n nt)) &&
    ((decide (xend ≠ -1) && decide ((it.set : Int) = xend)) || decide (xend = -1)))

/-- Function `sbl_chd_forest` with the number `m = G[prod].size() -
(curchd.size() + 1)` of symbols still to walk made explicit: `m = 0` is the
test `G[eitem.prod].size() <= curchd.size() + 1`. -/
def sbl_chd_forest_aux (G : List (List lit)) (citem : List item) (inputstr : List Char)
    (eitem : item) : Nat → List lit → Nat → List (List lit) → outcome (List (List lit))
  | 0, curchd, _, ambset =>
    match curchd.getLast? with
    | none => outcome.throws exn.undefined_back
    | some b =>
      if b.to_ = eitem.set then outcome.ret (set_insert vec_lt curchd ambset)
      else outcome.ret ambset
  | m + 1, curchd, xfrom, ambset =>
    if !(sym_at G eitem.prod (curchd.length + 1)).nt then
      if (sym_at G eitem.prod (curchd.length + 1)).c = Char.ofNat 0 then
        sbl_chd_forest_aux G citem inputstr eitem m
          (curchd ++ [{ sym_at G eitem.prod (curchd.length + 1) with from_ := xfrom, to_ := xfrom }])
          xfrom ambset
      else
        match inputstr.get? xfrom with
        | none => outcome.throws exn.out_of_range
        | some ch =>
          if ch = (sym_at G eitem.prod (curchd.length + 1)).c then
            sbl_chd_forest_aux G citem inputstr eitem m
              (curchd ++ [{ sym_at G eitem.prod (curchd.length + 1) with
                            from_ := xfrom, to_ := xfrom + 1 }])
              (xfrom + 1) ambset
          else outcome.ret ambset
    else
      outcome.foldl
        (fun amb v =>
          if v.set > eitem.set then outcome.ret amb
          else
            sbl_chd_forest_aux G citem inputstr eitem m
              (curchd ++ [{ sym_at G eitem.prod (curchd.length + 1) with
                            from_ := xfrom, to_ := v.set }])
              v.set amb)
        ambset (find_all G citem xfrom (sym_at G eitem.prod (curchd.length + 1)).n (-1))

/-- Function `sbl_chd_forest(eitem, curchd, xfrom, ambset)`. -/
def sbl_chd_forest (G : List (List lit)) (citem : List item) (inputstr : List Char)
    (eitem : item) (curchd : List lit) (xfrom : Nat) (ambset : List (List lit)) :
    outcome (List (List lit)) :=
  sbl_chd_forest_aux G citem inputstr eitem ((P G eitem.prod).length - (curchd.length + 1))
    curchd xfrom ambset

/-- The node `cnode` of `forest`: the left-hand side of the item's production
with the span of the item. -/
def node_of (G : List (List lit)) (cur : item) : lit :=
  { sym_at G cur.prod 0 with from_ := cur.from_, to_ := cur.set }

/-- The type `ptree_t` of `pfgraph`. -/
abbrev ptree_t := List (lit × List (List lit))

/-- The two inner `for` loops of `forest`: the call `forest(nxt)` for every
node `nxt` of every packing of `ambset`; `call` is the recursive call. -/
def forest_children (call : ptree_t → lit → outcome (Bool × ptree_t)) (pfgraph : ptree_t)
    (ambset : List (List lit)) : outcome ptree_t :=
  outcome.foldl
    (fun pf aset =>
      outcome.foldl (fun pf1 nxt => outcome.bind (call pf1 nxt) (fun r => outcome.ret r.2))
        pf aset)
    pfgraph ambset

/-- The body of the `for` loop of `forest` over `nxtset` for the item `cur`;
the loop state is `pfgraph` and the local `ambset`. -/
def forest_item (G : List (List lit)) (citem : List item) (inputstr : List Char)
    (call : ptree_t → lit → outcome (Bool × ptree_t)) (st : ptree_t × List (List lit))
    (cur : item) : outcome (ptree_t × List (List lit)) :=
  outcome.bind (sbl_chd_forest G citem inputstr cur [] cur.from_ st.2) (fun ambset =>
    outcome.bind (forest_children call (map_assign lit.lt (node_of G cur) ambset st.1) ambset)
      (fun pf => outcome.ret (pf, ambset)))

/-- Function `forest(root)`; the fuel bounds the depth of the recursion. -/
def forest (G : List (List lit)) (citem : List item) (inputstr : List Char) :
    Nat → ptree_t → lit → outcome (Bool × ptree_t)
  | 0, _, _ => outcome.diverge
  | fuel + 1, pfgraph, root =>
    if !root.nt then outcome.ret (false, pfgraph)
    else if (map_find root pfgraph).isSome then outcome.ret (false, pfgraph)
    else
      outcome.bind
        (outcome.foldl (forest_item G citem inputstr (forest G citem inputstr fuel))
          (pfgraph, []) (find_all G citem root.from_ root.n root.to_))
        (fun st => outcome.ret (true, st.1))

/-- Relation between `pfgraph` before and after a step of the forest
construction: keys are kept, and keys stay distinct. -/
def keeps (pf pf1 : ptree_t) : Prop :=
  (∀ k, k ∈ pf.map Prod.fst → k ∈ pf1.map Prod.fst) ∧
  ((pf.map Prod.fst).Nodup → (pf1.map Prod.fst).Nodup)

end earley

/-- The recognizer object: the members of class `earley`. -/
structure earley where
  G : List (List earley.lit)
  start : earley.lit
  nullables : List Nat
  d : earley.dict
  inputstr : List Char
  S : List earley.item
  advancers : List (earley.item × earley.item)
  completers : List (earley.item × earley.item)
  citem : List earley.item
  pfgraph : List (earley.lit × List (List earley.lit))
deriving DecidableEq, Repr

namespace earley

/-- The constructor `earley::earley(g)`. -/
def new (g : List (String × List (List String))) : earley :=
  { G := (mk_G (g.map Prod.fst) g [] []).1
    start := lit.of_n (dict.get (mk_G (g.map Prod.fst) g [] []).2 "S").1
    nullables := nullables_loop (mk_G (g.map Prod.fst) g [] []).1
      ((mk_G (g.map Prod.fst) g [] []).1.length + 1) []
    d := (dict.get (mk_G (g.map Prod.fst) g [] []).2 "S").2
    inputstr := []
    S := []
    advancers := []
    completers := []
    citem := []
    pfgraph := [] }

/-- The input of `recognize`: the characters of the C string, up to the
terminating 0. -/
def cstr (s : String) : List Char := s.data.takeWhile (fun ch => decide (ch ≠ Char.ofNat 0))

/-- The set `citem` after `recognize` has added the completed items of `S`. -/
def citem_of (e : earley) (S : List item) : List item :=
  (S.filter (completed e.G)).foldl (fun ci i => set_insert item.lt i ci) e.citem

/-- The verdict `found` of `recognize`. -/
def found (G : List (List lit)) (start : lit) (len : Nat) (S : List item) : Bool :=
  (nts G start).any (fun n => decide ((⟨len, n, 0, (P G n).length⟩ : item) ∈ S))

/-- The root node `(start, 0, len)` handed to `forest`. -/
def root_of (e : earley) (len : Nat) : lit := { e.start with from_ := 0, to_ := len }

/-- Function `recognize(s)`: the verdict and the recognizer after the call.
Writing the dot file in `to_dot` changes no member. -/
def recognize (e : earley) (s : String) : outcome (Bool × earley) :=
  outcome.bind (chart e.G e.start e.nullables (cstr s)) (fun c =>
    outcome.bind
      (forest e.G (citem_of e c.S) (cstr s) ((citem_of e c.S).length + 1) []
        (root_of e (cstr s).length))
      (fun r =>
        outcome.ret (found e.G e.start (cstr s).length c.S,
          { e with
            inputstr := cstr s
            S := c.S
            advancers := c.advancers
            completers := c.completers
            citem := citem_of e c.S
            pfgraph := r.2 })))

/-- The chart `S` the chart construction ends with; empty when it does not
return. -/
def chart_items (r : outcome cstate) : List item :=
  match r with
  | outcome.ret c => c.S
  | _ => []

/-- The verdict of a call of `recognize`. -/
def verdict (r : outcome (Bool × earley)) : outcome Bool :=
  outcome.bind r (fun x => outcome.ret x.1)

/-- The packings `pfgraph[k]` after a call of `recognize` that returned. -/
def packings (r : outcome (Bool × earley)) (k : lit) : Option (List (List lit)) :=
  match r with
  | outcome.ret x => map_find k x.2.pfgraph
  | _ => none

/-- The forest node `(A, from, to)` of the non-terminal with id `k`. -/
def nd (k from_ to_ : Nat) : lit := { v := sym.n k, from_ := from_, to_ := to_ }

/-- The forest node of the terminal `ch` with span `(from, to)`. -/
def tm (ch : Char) (from_ to_ : Nat) : lit := { v := sym.c ch, from_ := from_, to_ := to_ }

/-- The language of the grammar: `derives G α w` when the sentential form `α`
(literals as stored in `G`) derives the string `w`; the ε-terminal derives the
empty string. -/
inductive derives (G : List (List lit)) : List lit → List Char → Prop where
  | nil : derives G [] []
  | eps (l : lit) (rest : List lit) (w : List Char) :
      l.nt = false → l.c = Char.ofNat 0 → derives G rest w → derives G (l :: rest) w
  | chr (l : lit) (rest : List lit) (w : List Char) :
      l.nt = false → l.c ≠ Char.ofNat 0 → derives G rest w → derives G (l :: rest) (l.c :: w)
  | rule (l : lit) (p rest : List lit) (u w : List Char) :
      l.nt = true → p ∈ G → p.head? = some l → derives G p.tail u → derives G rest w →
      derives G (l :: rest) (u ++ w)

/-- The grammars the constructor builds: every production starts with a
non-terminal, and the literals stored in `G` carry the span `(0, 0)`. -/
def wf_grammar (G : List (List lit)) : Prop :=
  ∀ p, p ∈ G → (∃ k, p.head? = some (lit.of_n k)) ∧ ∀ l, l ∈ p → l.from_ = 0 ∧ l.to_ = 0

/-- Every member of `N` derives the empty string. -/
def sound_nullables (G : List (List lit)) (N : List Nat) : Prop :=
  ∀ k, k ∈ N → derives G [lit.of_n k] []

/-- The substring `s[f..n)`. -/
def span (s : List Char) (f n : Nat) : List Char := (s.drop f).take (n - f)

/-- The meaning of a chart item `(set, prod, from, dot)`: it lies within the
input, and the symbols of the production before the dot derive
`s[from..set)`. -/
def good (G : List (List lit)) (s : List Char) (i : item) : Prop :=
  i.from_ ≤ i.set ∧ i.set ≤ s.length ∧ i.prod < G.length ∧ 1 ≤ i.dot ∧
    i.dot ≤ (P G i.prod).length ∧
    derives G ((P G i.prod).tail.take (i.dot - 1)) (span s i.from_ i.set)

/-- Every item of the chart, in `S` or pending in `t`, is `good`. -/
def cgood (G : List (List lit)) (s : List Char) (c : cstate) : Prop :=
  (∀ i, i ∈ c.S → good G s i) ∧ (∀ i, i ∈ c.t → good G s i)

/-- All quadruples counted by `item_bound`. -/
def all_items (G : List (List lit)) (len : Nat) : List item :=
  ((List.range (len + 1)).product ((List.range G.length).product
    ((List.range (len + 1)).product (List.range ((G.map List.length).sum + 1))))).map
    (fun q => ⟨q.1, q.2.1, q.2.2.1, q.2.2.2⟩)

/-- Number of quadruples that are neither in `S` nor pending in `t`; the
measure that bounds the rounds of `closure`. -/
def pending (G : List (List lit)) (len : Nat) (c : cstate) : Nat :=
  (all_items G len).countP (fun u => decide (u ∉ c.S ∧ u ∉ c.t))

/-- During a round that started with the chart `S0`: `S` still contains `S0`
and no pending item is in `S0`. -/
def fresh (S0 : List item) (c : cstate) : Prop :=
  (∀ j, j ∈ S0 → j ∈ c.S) ∧ (∀ j, j ∈ c.t → j ∉ S0)

/-- Membership `s ∈ L(G)` for the start symbol of the recognizer. -/
def in_language (e : earley) (s : List Char) : Prop := derives e.G [e.start] s

/-- Number of nodes of completed items that are not yet keys of `pf`; the
measure that bounds the depth of `forest`. -/
def unvisited (G : List (List lit)) (citem : List item) (pf : ptree_t) : Nat :=
  (citem.map (node_of G)).countP (fun k => decide (k ∉ pf.map Prod.fst))

/-- The grammar of scenario E1, `S → b | S S`. -/
def g_E1 : List (String × List (List String)) := [("S", [["b"], ["S", "S"]])]

/-- The grammar of scenario E2, `S → b | S`. -/
def g_E2 : List (String × List (List String)) := [("S", [["b"], ["S"]])]

/-- The grammar of scenario E3, `S → a X X c`, `X → X b | ε`. -/
def g_E3 : List (String × List (List String)) :=
  [("S", [["a", "X", "X", "c"]]), ("X", [["X", "b"], [""]])]

/-- The grammar `S → ε`. -/
def g_eps : List (String × List (List String)) := [("S", [[""]])]

/-- The grammar `S → X b`, `X → a | a b`. -/
def g_at : List (String × List (List String)) := [("S", [["X", "b"]]), ("X", [["a"], ["a", "b"]])]

end earley

/-! ## Grammar preprocessing: specification side -/

namespace earley

/-- A symbol that counts as nullable with respect to the set `N`: the
ε-terminal, or a non-terminal of `N`. -/
def null_sym (N : List Nat) (l : lit) : Prop :=
  (l.nt = false ∧ l.c = Char.ofNat 0) ∨ (l.nt = true ∧ l.n ∈ N)

/-- The set `N` is closed under the rule "the left-hand side of a production
all of whose right-hand-side symbols are nullable is nullable". -/
def null_closed (G : List (List lit)) (N : List Nat) : Prop :=
  ∀ A p, p ∈ G → p.head? = some (lit.of_n A) → (∀ l, l ∈ p.tail → null_sym N l) → A ∈ N

/-- The encoding of one right-hand-side string as the spec words it: one
non-terminal literal for the name of a left-hand side, one ε-terminal for the
empty string, one terminal literal per character otherwise. The id of a name
is its index in the dictionary `d`. -/
def enc_sym (names : List String) (d : dict) (s : String) : List lit :=
  if s ∈ names then [lit.of_n (d.indexOf s)]
  else if s.data = [] then [lit.eps]
  else s.data.map lit.of_c

/-- The encoding of the strings of one alternative, in order. -/
def enc_rhs (names : List String) (d : dict) : List String → List lit
  | [] => []
  | s :: y => enc_sym names d s ++ enc_rhs names d y

/-- The encoding of one alternative of `lhs`: the literal of `lhs`, then the
right-hand side. -/
def enc_alt (names : List String) (d : dict) (lhs : String) (y : List String) : List lit :=
  lit.of_n (d.indexOf lhs) :: enc_rhs names d y

/-- The encoding of a grammar as the spec words it: one production per
alternative, in input order. -/
def encode_spec (names : List String) (d : dict) :
    List (String × List (List String)) → List (List lit)
  | [] => []
  | x :: g => x.2.map (enc_alt names d x.1) ++ encode_spec names d g

/-- The name of the left-hand side of every alternative, in input order. -/
def lhs_names : List (String × List (List String)) → List String
  | [] => []
  | x :: g => x.2.map (fun _ => x.1) ++ lhs_names g

end earley

/-! ## Persistent union-find, iterator and poset (src/poset.h) -/

/-- Modelled from the spec: `int_t` is declared in defs.h, which is not part of
the sources; the spec speaks of integers, and the values of an `int_t` are
taken as integers. Arithmetic written with `+` and `*` on them is exact; where
the machine result matters, the width `w` of `int_t` is a parameter and the
result is `int_t.wrap w` of the exact one (`hash_set_w`, `merged_w`,
`merge_w`). -/
abbrev int_t := Int

/-- A `std::shared_ptr<PersistentArray>`: null, or a node holding `p`, `v` and
the pointer `diff`. -/
inductive sppa where
  | null
  | node (p v : int_t) (diff : sppa)
deriving DecidableEq, Repr

/-- The members of class `PersistentUnionFind`. -/
structure PersistentUnionFind where
  arr_pt : sppa
  link_pt : sppa
  hash_pt : sppa
  hash : int_t
deriving DecidableEq, Repr

namespace PersistentUnionFind

/-- Function `hash_set(x, y, x_hash, y_hash)` in exact integer arithmetic: what
the function returns when neither square and not the sum overflows
(`hash_set_w_exact`); `hash_set_w` is the function on an `int_t` of `w` bits. -/
def hash_set (x y x_hash y_hash : int_t) : int_t :=
  (if x_hash = 0 then x * x else x_hash) + (if y_hash = 0 then y * y else y_hash)

/-- The constructor `PersistentUnionFind(a_ptr, l_ptr, h_ptr, h_old, x, y,
hash_x, hash_y)` that builds the union-find after a merge, with `hash_set` in
exact integer arithmetic; `merged_w` is the constructor on an `int_t` of `w`
bits. -/
def merged (a_ptr l_ptr h_ptr : sppa) (h_old x y hash_x hash_y : int_t) :
    PersistentUnionFind :=
  { arr_pt := a_ptr
    link_pt := l_ptr
    hash_pt := h_ptr
    hash := Int.xor (Int.xor (Int.xor h_old hash_x) hash_y) (hash_set x y hash_x hash_y) }

end PersistentUnionFind

/-- Modelled from the spec: the state of a union-find as `merge` and the
hashing see it (`merge` itself is in poset.cpp, which is not part of the
sources). `find i` is the root of the class of `i`, `hashes r` the hash stored
for the root `r`, `hash` the global hash. -/
structure uf_model where
  find : Nat → Nat
  hashes : Nat → int_t
  hash : int_t

namespace uf_model

/-- Modelled from the spec: the all-singletons state, every stored hash and the
global hash 0. -/
def init : uf_model := { find := fun i => i, hashes := fun _ => 0, hash := 0 }

/-- Modelled from the spec: `merge(t, a, b)` in exact integer arithmetic. The
roots `x`, `y` of the two elements are found; when they differ the smaller one
becomes the root of the united class, the hash `hash_set(x, y, hx, hy)` is
stored at it, and the global hash is the one the merge constructor computes.
`merge_w` is the same step on an `int_t` of `w` bits. -/
def merge (t : uf_model) (a b : Nat) : uf_model :=
  if t.find a = t.find b then t
  else
    { find := fun i => if t.find i = max (t.find a) (t.find b) then min (t.find a) (t.find b)
        else t.find i
      hashes := fun i =>
        if i = min (t.find a) (t.find b) then
          PersistentUnionFind.hash_set (t.find a) (t.find b) (t.hashes (t.find a))
            (t.hashes (t.find b))
        else t.hashes i
      hash := (PersistentUnionFind.merged sppa.null sppa.null sppa.null t.hash (t.find a)
        (t.find b) (t.hashes (t.find a)) (t.hashes (t.find b))).hash }

/-- A sequence of merges in exact integer arithmetic, started from the
all-singletons state. -/
def run (ms : List (Nat × Nat)) : uf_model :=
  ms.foldl (fun t m => merge t m.1 m.2) init

/-- The members below `n` of the class with root `r`. -/
def cls (t : uf_model) (n r : Nat) : List Nat :=
  (List.range n).filter (fun b => decide (t.find b = r))

/-- Sum of the squares of the members of a list. -/
def sumsq (l : List Nat) : Nat := (l.map (fun b => b * b)).sum

/-- The hash a class carries in normal form: 0 for a singleton, the sum of the
squares of its members otherwise. -/
def class_hash (t : uf_model) (n r : Nat) : Nat :=
  if (cls t n r).length ≤ 1 then 0 else sumsq (cls t n r)

/-- The contribution of the element `i` to the global hash: the hash of its
class when `i` is a root. -/
def root_hash (t : uf_model) (n i : Nat) : Nat :=
  if t.find i = i then class_hash t n i else 0

/-- The exclusive or of `g` over a list. -/
def xor_list (g : Nat → Nat) (l : List Nat) : Nat :=
  l.foldr (fun i acc => g i ^^^ acc) 0

/-- The invariant of the reachable states over the elements `0 .. n-1`: roots
are the least members of their classes, the stored hash of a root is the hash
of its class, the global hash is the exclusive or of the class hashes. -/
def inv (n : Nat) (t : uf_model) : Prop :=
  (∀ i, t.find i ≤ i) ∧ (∀ i, t.find (t.find i) = t.find i) ∧
  (∀ r, r < n → t.find r = r → t.hashes r = (class_hash t n r : Int)) ∧
  t.hash = (xor_list (root_hash t n) (List.range n) : Int)

end uf_model

/-- The members of class `pu_iterator`; the reference `uf` is represented by
the contents `link` of the link array of its version, handed to `incr`. -/
structure pu_iterator where
  val : int_t
  end_val : int_t
  negate : Bool
  looped : Bool
deriving DecidableEq, Repr

namespace pu_iterator

/-- The constructor `pu_iterator(puf, val_)`. -/
def new (val_ : int_t) : pu_iterator :=
  { val := val_, end_val := val_, negate := decide (val_ < 0), looped := false }

/-- The operator `++`; `link i` is `pa::get(pu::link_s, uf.link_pt, i)`. -/
def incr (link : Nat → int_t) (it : pu_iterator) : pu_iterator :=
  { val := if it.negate then -(link it.val.natAbs) else link it.val.natAbs
    end_val := it.end_val
    negate :=
      if (if it.negate then -(if it.negate then -(link it.val.natAbs) else link it.val.natAbs)
          else (if it.negate then -(link it.val.natAbs) else link it.val.natAbs)) < 0
      then !it.negate else it.negate
    looped := if !it.looped then true else it.looped }

/-- The operator `*`. -/
def deref (it : pu_iterator) : int_t := it.val

/-- The operator `==`. -/
def eq (it other : pu_iterator) : Bool :=
  decide (it.val.natAbs = other.val.natAbs) && decide (it.looped = other.looped)

/-- The operator `!=`. -/
def ne (it other : pu_iterator) : Bool :=
  decide (it.val.natAbs ≠ other.val.natAbs) || decide (it.looped ≠ other.looped)

/-- Function `update_pos(v)`. -/
def update_pos (it : pu_iterator) (v : int_t) : pu_iterator :=
  { it with
    negate := if (v < 0 ∧ it.val > 0) ∨ (v > 0 ∧ it.val < 0) then !it.negate else it.negate
    val := v }

/-- Function `begin()`. -/
def begin_ (it : pu_iterator) : pu_iterator := new it.end_val

/-- Function `end()`. -/
def end_ (it : pu_iterator) : pu_iterator := { new it.end_val with looped := true }

/-- The index the link array sends `i` to. -/
def next_index (link : Nat → int_t) (i : Nat) : Nat := (link i).natAbs

end pu_iterator

/-- The members of class `poset`: the identities `eqs`, `imps`, `vars`, the
flag `pure` and the smallest variable `v`. -/
structure poset where
  eqs : int_t := 0
  imps : int_t := 0
  vars : int_t := 0
  pure : Bool := false
  v : int_t := 0
deriving DecidableEq, Repr

namespace poset

/-- Function `is_empty(p)`. -/
def is_empty (p : poset) : Bool := decide (p.eqs + p.imps + p.vars = 0)

/-- Function `only_vars(p)`. -/
def only_vars (p : poset) : Bool := decide (p.eqs + p.imps = 0) && decide (p.vars > 0)

end poset

/-! ## Inputs and raw terms (src/input.h) -/

/-- A `ccs`, a pointer into the input data, as its address. -/
abbrev ccs := Nat

/-- A `lexeme`, the pair of pointers to the begin and the end of a piece of
input. -/
abbrev lexeme := ccs × ccs

/-- A `lexeme_range`, a pair of `size_t` offsets. -/
abbrev lexeme_range := Nat × Nat

/-- Conversion of an integer to a `size_t` of `w` bits. -/
def to_size_t (w : Nat) (x : Int) : Nat := (x % (2 : Int) ^ w).toNat

/-- The members of `input` that `lexeme_pos` reads: the pointer `beg_` to the
data and its size `size_`. -/
structure input where
  beg_ : ccs
  size_ : Nat
deriving DecidableEq, Repr

namespace input

/-- Function `lexeme_pos(beg, l, lr)`: the returned flag and `lr` after the
call. The differences of pointers are signed, and adding the `size_t` `beg`
converts the sum to a `size_t` of `w` bits. -/
def lexeme_pos (w : Nat) (inp : input) (beg : Nat) (l : lexeme) (lr : lexeme_range) :
    Bool × lexeme_range :=
  if (l.1 ≥ inp.beg_ ∧ l.1 < inp.beg_ + inp.size_) ∨ (l.2 ≥ inp.beg_ ∧ l.2 < inp.beg_ + inp.size_)
  then (true, (to_size_t w ((l.1 : Int) - inp.beg_ + beg), to_size_t w ((l.2 : Int) - inp.beg_ + beg)))
  else (false, lr)

end input

/-- Modelled from the spec: `t_arith_op`, an enumeration declared in defs.h,
which is not part of the sources; kept as the number of the enumerator, `NOP`
being 0. -/
abbrev t_arith_op := Nat

/-- The enumeration `elem::etype`. -/
inductive etype where
  | NONE | SYM | NUM | CHR | VAR | OPENP | CLOSEP | ALT | STR
  | EQ | NEQ | LEQ | GT | LT | GEQ | BLTIN | NOT | AND | OR
  | FORALL | EXISTS | UNIQUE | IMPLIES | COIMPLIES | ARITH
  | OPENB | CLOSEB | OPENSB | CLOSESB | UTYPE | BLTINMOD
deriving DecidableEq, Repr

/-- The members of `elem`. -/
structure elem where
  type : etype := etype.NONE
  arith_op : t_arith_op := 0
  num : int_t := 0
  e : lexeme := (0, 0)
  ch : Nat := 0
deriving DecidableEq, Repr

/-- The constructor `elem(etype type)` for `type = NOT`; `str2lexeme` is
declared outside the sources and is a parameter. -/
def elem.of_NOT (str2lexeme : String → lexeme) : elem :=
  { type := etype.NOT, e := str2lexeme "~" }

/-- The enumeration `raw_term::rtextype`. -/
inductive rtextype where
  | REL | EQ | LEQ | BLTIN | ARITH | CONSTRAINT | VAR | FORM1 | FORM2
deriving DecidableEq, Repr

/-- The members of `raw_term` (without the member `s` that exists only under
`TML_NATIVES`). -/
structure raw_term where
  neg : Bool := false
  extype : rtextype := rtextype.REL
  arith_op : t_arith_op := 0
  e : List elem := []
  arity : List int_t := []
deriving DecidableEq, Repr

/-- Function `raw_term::negate()`. -/
def raw_term.negate (t : raw_term) : raw_term := { t with neg := !t.neg }

/-- A `sprawformtree`: the null pointer, or a pointer to a `raw_form_tree`
with its members. -/
inductive raw_form_tree where
  | null
  | node (type : etype) (rt : Option raw_term) (el : Option elem) (l r : raw_form_tree)
      (neg : Bool) (guard_lx : lexeme)
deriving DecidableEq, Repr

namespace raw_form_tree

/-- The constructor `raw_form_tree(const raw_term&)`. -/
def of_term (str2lexeme : String → lexeme) (_rt : raw_term) : raw_form_tree :=
  if _rt.neg = true then
    node etype.NOT none (some (elem.of_NOT str2lexeme)) (of_term str2lexeme _rt.negate) null
      false (0, 0)
  else node etype.NONE (some _rt) none null null false (0, 0)
termination_by (if _rt.neg = true then 1 else 0)
decreasing_by
  rename_i h
  simp [raw_term.negate, h]

/-- Some node of the tree holds a term with `neg` set. -/
def holds_negated : raw_form_tree → Prop
  | null => False
  | node _ rt _ l r _ _ =>
    (∃ t, rt = some t ∧ t.neg = true) ∨ holds_negated l ∨ holds_negated r

end raw_form_tree

/-! ## Closure of the chart: proof-side notions -/

namespace earley

/-- The grammar `S → S | ε`. -/
def g_SS : List (String × List (List String)) := [("S", [["S"], [""]])]

/-- The grammar `S → a A`, `A → ε`. -/
def g_aA : List (String × List (List String)) := [("S", [["a", "A"]]), ("A", [[""]])]

/-- What processing the item `it` asks for, with the partners of a completion
taken from `S0` and every item asked for found in `S` or pending in `T`. -/
def closed_in (G : List (List lit)) (s : List Char) (S0 S T : List item) (it : item) : Prop :=
  (completed G it = true → ∀ j, j ∈ S0 → j.set = it.from_ → (P G j.prod).length > j.dot →
    get_lit G j = get_nt G it →
    (⟨it.set, j.prod, j.from_, j.dot + 1⟩ : item) ∈ S ∨
      (⟨it.set, j.prod, j.from_, j.dot + 1⟩ : item) ∈ T) ∧
  (completed G it = false → (get_lit G it).nt = true → ∀ p, p ∈ nts G (get_lit G it) →
    (⟨it.set, p, it.set, 1⟩ : item) ∈ S ∨ (⟨it.set, p, it.set, 1⟩ : item) ∈ T) ∧
  (completed G it = false → (get_lit G it).nt = false → it.set < s.length →
    s.getD it.set (Char.ofNat 0) = (get_lit G it).c →
    (⟨it.set + 1, it.prod, it.from_, it.dot + 1⟩ : item) ∈ S ∨
      (⟨it.set + 1, it.prod, it.from_, it.dot + 1⟩ : item) ∈ T)

/-- The chart `c1` holds every item of `c`, in `S` and in `t`. -/
def grows (c c1 : cstate) : Prop :=
  (∀ j, j ∈ c.S → j ∈ c1.S) ∧ (∀ j, j ∈ c.t → j ∈ c1.t)

/-- The state of the chart between two positions: nothing is pending, no item
lies beyond position `n`, and the items before position `n` have been
processed to the end. -/
def settled (G : List (List lit)) (s : List Char) (n : Nat) (c : cstate) : Prop :=
  c.t = [] ∧ (∀ j, j ∈ c.S → j.set ≤ n) ∧
  (∀ it, it ∈ c.S → it.set < n → it.from_ ≤ it.set → closed_in G s c.S c.S [] it)

end earley

/-! ## Packings of the forest: proof-side notions -/

namespace earley

/-- The child `ch` of a packing stands for the symbol `sym` of the production
of an item that ends at `xset`: the same symbol; an ε-terminal spans nothing; a
terminal spans the one character of the input it equals; a non-terminal spans
a completed item of `citem` for it that ends at or before `xset`. -/
def child_ok (G : List (List lit)) (citem : List item) (inputstr : List Char) (xset : Nat)
    (sym ch : lit) : Prop :=
  ch.v = sym.v ∧
  (sym.nt = false → sym.c = Char.ofNat 0 → ch.to_ = ch.from_) ∧
  (sym.nt = false → sym.c ≠ Char.ofNat 0 →
    ch.to_ = ch.from_ + 1 ∧ inputstr.get? ch.from_ = some sym.c) ∧
  (sym.nt = true → ∃ v, v ∈ citem ∧ v.from_ = ch.from_ ∧ v.set = ch.to_ ∧
    v.prod ∈ nts G (lit.of_n sym.n) ∧ v.set ≤ xset)

/-- The children `chs` stand for the symbols `syms`, one child per symbol in
order, the first child starting at `x`, every child starting where the one
before it ends, the last one ending at `e`. -/
def walk (G : List (List lit)) (citem : List item) (inputstr : List Char) (xset : Nat) :
    List lit → Nat → List lit → Nat → Prop
  | [], x, [], e => x = e
  | sym :: syms, x, ch :: chs, e =>
    ch.from_ = x ∧ child_ok G citem inputstr xset sym ch ∧
      walk G citem inputstr xset syms ch.to_ chs e
  | [], _, _ :: _, _ => False
  | _ :: _, _, [], _ => False

/-- The children of a packing tile the span from `f` to `t`. -/
def tiles : Nat → List lit → Nat → Prop
  | f, [], t => f = t
  | f, ch :: chs, t => ch.from_ = f ∧ tiles ch.to_ chs t

/-- The list `pack` is a packing of the completed item `cur`. -/
def packing_of (G : List (List lit)) (citem : List item) (inputstr : List Char) (cur : item)
    (pack : List lit) : Prop :=
  pack ≠ [] ∧ walk G citem inputstr cur.set (P G cur.prod).tail cur.from_ pack cur.set

/-- Every packing stored in `pf` is a packing of a completed item of the node
it is stored for. -/
def packs_ok (G : List (List lit)) (citem : List item) (inputstr : List Char) (pf : ptree_t) :
    Prop :=
  ∀ k ps, (k, ps) ∈ pf → ∀ pack, pack ∈ ps →
    k.nt = true ∧ ∃ cur, cur ∈ find_all G citem k.from_ k.n k.to_ ∧
      packing_of G citem inputstr cur pack

/-- The packing set `forest` stores for the node `k`: the calls of
`sbl_chd_forest` for the completed items of the node, one after the other on
the same `ambset`. -/
def all_packings (G : List (List lit)) (citem : List item) (inputstr : List Char) (k : lit) :
    outcome (List (List lit)) :=
  outcome.foldl (fun amb cur => sbl_chd_forest G citem inputstr cur [] cur.from_ amb) []
    (find_all G citem k.from_ k.n k.to_)

/-- Relation between `pfgraph` before and after a step of the forest
construction: the entries are kept as they are, and a new entry holds all the
packings of its node. -/
def extends_full (G : List (List lit)) (citem : List item) (inputstr : List Char)
    (pf pf1 : ptree_t) : Prop :=
  (∀ k ps, map_find k pf = some ps → map_find k pf1 = some ps) ∧
  (∀ k ps, map_find k pf1 = some ps → map_find k pf = some ps ∨
    (k.nt = true ∧ all_packings G citem inputstr k = outcome.ret ps))

end earley

/-! ## Registered advancers of the chart -/

namespace earley

/-- The advancer edges `(item, advancer)` of the chart the chart construction
ends with; empty when it does not return. -/
def chart_advancers (r : outcome cstate) : List (item × item) :=
  match r with
  | outcome.ret c => c.advancers
  | _ => []

end earley

/-! ## Class hashes and flattening of formula trees -/

namespace PersistentUnionFind

/-- The canonical hash of a class: the sum of the squares of its members. -/
def sum_squares (l : List int_t) : int_t := (l.map (fun b => b * b)).sum

/-- The hash `h` stored for the class with the members `members` and the root
`root` is as the invariant says: 0 for a singleton, the sum of the squares of
the members for every other class. -/
def stored_hash_ok (members : List int_t) (root h : int_t) : Prop :=
  root ∈ members ∧ members.Nodup ∧ (members.length = 1 → h = 0) ∧
    (members.length ≠ 1 → h = sum_squares members)

end PersistentUnionFind

namespace raw_form_tree

/-- The two-argument `flatten_associative(tp, tms)`: the vector of pointers is
the list of the subtrees pointed at; a call through a null pointer has no
result. -/
def flatten_associative_into (tp : etype) :
    raw_form_tree → List raw_form_tree → Option (List raw_form_tree)
  | null, _ => none
  | node type rt el l r neg guard_lx, tms =>
    if type = tp then
      match flatten_associative_into tp l tms with
      | none => none
      | some tms1 => flatten_associative_into tp r tms1
    else some (tms ++ [node type rt el l r neg guard_lx])

/-- The one-argument `flatten_associative(tp)`. -/
def flatten_associative (tp : etype) (t : raw_form_tree) : Option (List raw_form_tree) :=
  flatten_associative_into tp t []

/-- The member `type` of a tree, nothing for the null pointer. -/
def type_of : raw_form_tree → Option etype
  | null => none
  | node type _ _ _ _ _ _ => some type

/-- Every node of type `tp` in the tree has both children. -/
def has_children (tp : etype) : raw_form_tree → Prop
  | null => True
  | node type _ _ l r _ _ =>
    (type = tp → l ≠ null ∧ r ≠ null) ∧ has_children tp l ∧ has_children tp r

/-- The tree `u` is reached from `t` by going down through nodes of type `tp`
only. -/
inductive reach (tp : etype) : raw_form_tree → raw_form_tree → Prop where
  | here (t : raw_form_tree) : reach tp t t
  | left (rt : Option raw_term) (el : Option elem) (l r : raw_form_tree) (neg : Bool)
      (guard_lx : lexeme) (u : raw_form_tree) :
      reach tp l u → reach tp (node tp rt el l r neg guard_lx) u
  | right (rt : Option raw_term) (el : Option elem) (l r : raw_form_tree) (neg : Bool)
      (guard_lx : lexeme) (u : raw_form_tree) :
      reach tp r u → reach tp (node tp rt el l r neg guard_lx) u

/-- The operands of the operator `tp` at the root of a tree, from left to
right: the subtrees below the nodes of type `tp` at the top that are not of
type `tp` themselves. -/
def operands (tp : etype) : raw_form_tree → List raw_form_tree
  | null => []
  | node type rt el l r neg guard_lx =>
    if type = tp then operands tp l ++ operands tp r
    else [node type rt el l r neg guard_lx]

end raw_form_tree

/-! ## Lists of inputs, rules, productions and the initial union-find -/

/-- An `input*`, the address of an input object; the null pointer is `none`. -/
abbrev input_ptr := Nat

/-- The member `next_` of the input objects, by the address of the object. -/
abbrev next_map := input_ptr → Option input_ptr

namespace input

/-- Function `next()` of the input at the address `this`. -/
def next (nexts : next_map) (this : input_ptr) : Option input_ptr := nexts this

/-- Function `set_next(ni)` of the input at the address `this`. -/
def set_next (nexts : next_map) (this : input_ptr) (ni : Option input_ptr) : next_map :=
  fun q => if q = this then ni else nexts q

end input

/-- The members of class `inputs`. -/
structure inputs where
  first_ : Option input_ptr := none
  last_ : Option input_ptr := none
  size_ : Nat := 0
deriving DecidableEq, Repr

namespace inputs

/-- Function `add(in)` for the input at the address `inp`; the state is the
`inputs` object together with the `next_` members of the input objects, and
`size_` is a `size_t` of `w` bits. -/
def add (w : Nat) (st : inputs × next_map) (inp : input_ptr) : inputs × next_map :=
  match st.1.last_ with
  | some l =>
    ({ first_ := st.1.first_, last_ := some inp, size_ := (st.1.size_ + 1) % 2 ^ w },
      input.set_next st.2 l (some inp))
  | none =>
    ({ first_ := some inp, last_ := some inp, size_ := (st.1.size_ + 1) % 2 ^ w }, st.2)

/-- Function `first()`. -/
def first (i : inputs) : Option input_ptr := i.first_

/-- Function `last()`. -/
def last (i : inputs) : Option input_ptr := i.last_

/-- Function `size()`. -/
def size (i : inputs) : Nat := i.size_

/-- A sequence of calls of `add` on an empty `inputs` object. -/
def run (w : Nat) (nexts : next_map) (ps : List input_ptr) : inputs × next_map :=
  ps.foldl (add w) ({}, nexts)

/-- The inputs met from the pointer `x` by following `next()`, at most `fuel`
of them. -/
def reachable (nexts : next_map) : Nat → Option input_ptr → List input_ptr
  | 0, _ => []
  | _ + 1, none => []
  | fuel + 1, some p => p :: reachable nexts fuel (nexts p)

/-- From the pointer `x` the list `ps` is met by following `next()`, and then
the null pointer. -/
def is_chain (nexts : next_map) : Option input_ptr → List input_ptr → Prop
  | x, [] => x = none
  | x, a :: rest => x = some a ∧ is_chain nexts (nexts a) rest

end inputs

/-- The enumeration `raw_rule::etype`. -/
inductive raw_rule.etype where
  | NONE | GOAL | TREE
deriving DecidableEq, Repr

/-- The members of `raw_rule` (without `varctx`, a pointer to the context of
type inference that none of the functions below reads). -/
structure raw_rule where
  h : List raw_term := []
  b : List (List raw_term) := []
  prft : Option raw_form_tree := none
  type : raw_rule.etype := raw_rule.etype.NONE
  guarding : Bool := false
deriving DecidableEq, Repr

namespace raw_rule

/-- Function `is_dnf()`. -/
def is_dnf (r : raw_rule) : Bool := decide (r.type = etype.NONE) && decide (r.b.length > 0)

/-- Function `is_form()`. -/
def is_form (r : raw_rule) : Bool :=
  decide (r.type = etype.NONE) && r.prft.isSome && decide (r.b.length = 0)

/-- Function `is_fact()`. -/
def is_fact (r : raw_rule) : Bool :=
  decide (r.type = etype.NONE) && decide (r.b.length = 0) && !r.prft.isSome

/-- Function `is_goal()`. -/
def is_goal (r : raw_rule) : Bool :=
  decide (r.type = etype.GOAL) && decide (r.b.length = 0) && !r.prft.isSome

/-- Function `set_prft(_prft)`: the rule after the call. -/
def set_prft (r : raw_rule) (_prft : raw_form_tree) : raw_rule :=
  { r with b := [], prft := some _prft }

/-- Function `set_b(_b)`: the rule after the call. -/
def set_b (r : raw_rule) (_b : List (List raw_term)) : raw_rule :=
  { r with prft := none, b := _b }

end raw_rule

/-- The comparison `operator<` of two `std::vector`s, that is
`std::lexicographical_compare` with the `operator<` of the elements. -/
def vector_lt {α : Type} (lt : α → α → Bool) : List α → List α → Bool
  | [], [] => false
  | [], _ :: _ => true
  | _ :: _, [] => false
  | a :: as, b :: bs => if lt a b then true else if lt b a then false else vector_lt lt as bs

/-- Function `elem::operator<`. The library function `strncmp` is a
parameter; the differences of the pointers of a lexeme are signed. -/
def elem.lt (strncmp : ccs → ccs → Int → Int) (a t : elem) : Bool :=
  if a.type ≠ t.type then decide (a.type.toCtorIdx < t.type.toCtorIdx)
  else if a.type = etype.NUM then decide (a.num < t.num)
  else if a.type = etype.CHR then decide (a.ch < t.ch)
  else if (a.e.2 : Int) - a.e.1 ≠ (t.e.2 : Int) - t.e.1 then
    decide ((a.e.2 : Int) - a.e.1 < (t.e.2 : Int) - t.e.1)
  else decide (strncmp a.e.1 t.e.1 ((a.e.2 : Int) - a.e.1) < 0)

/-- The members `p` and `c` of `production`. -/
structure production where
  p : List elem := []
  c : List raw_term := []
deriving DecidableEq, Repr

namespace production

/-- The body of `production::operator<` for given orders of the vectors `p`
and `c`. -/
def lt_of (ltp : List elem → List elem → Bool) (ltc : List raw_term → List raw_term → Bool)
    (a t : production) : Bool :=
  ltp a.p t.p && ltc a.c t.c

/-- Function `production::operator<`. The `operator<` of `raw_term` is only
declared in the sources and is the parameter `ltt`. -/
def lt (strncmp : ccs → ccs → Int → Int) (ltt : raw_term → raw_term → Bool)
    (a t : production) : Bool :=
  lt_of (vector_lt (elem.lt strncmp)) (vector_lt ltt) a t

end production

namespace PersistentArray

/-- Function `PersistentArray::init(arr, n, f)`: the returned version and the
storage after the call; nothing is returned when `reserve` throws
`std::length_error` for a negative `n`. -/
def init (arr : List int_t) (n : int_t) (f : int_t → int_t) : Option (sppa × List int_t) :=
  if arr ≠ [] then some (sppa.null, arr)
  else if n < 0 then none
  else some (sppa.node (-1) (-1) sppa.null, (List.range n.toNat).map (fun i : Nat => f (i : Int)))

end PersistentArray

/-- The static storages `parent_s`, `link_s` and `hashes_s` of
`PersistentUnionFind`. -/
structure puf_storage where
  parent_s : List int_t := []
  link_s : List int_t := []
  hashes_s : List int_t := []
deriving DecidableEq, Repr

namespace PersistentUnionFind

/-- The constructor `PersistentUnionFind(n)`: the object and the storages
after the call. -/
def new (st : puf_storage) (n : int_t) : Option (PersistentUnionFind × puf_storage) :=
  match PersistentArray.init st.parent_s n (fun i => i) with
  | none => none
  | some (a, ps) =>
    match PersistentArray.init st.link_s n (fun i => i) with
    | none => none
    | some (l, ls) =>
      match PersistentArray.init st.hashes_s n (fun _ => 0) with
      | none => none
      | some (h, hs) =>
        some ({ arr_pt := a, link_pt := l, hash_pt := h, hash := 0 },
          { parent_s := ps, link_s := ls, hashes_s := hs })

end PersistentUnionFind

/-! ## Further grammars and the recognizer after a call -/

namespace earley

/-- The grammar `S → A d | ε`, `A → S c`. -/
def g_Ad : List (String × List (List String)) :=
  [("S", [["A", "d"], [""]]), ("A", [["S", "c"]])]

/-- The grammar `S → X Y`, `X → a | ε`, `Y → a | b Y`. -/
def g_XY : List (String × List (List String)) :=
  [("S", [["X", "Y"]]), ("X", [["a"], [""]]), ("Y", [["a"], ["b", "Y"]])]

/-- The grammar whose only alternative of `S` is the empty list of strings. -/
def g_none : List (String × List (List String)) := [("S", [[]])]

/-- The recognizer object after a call of `recognize`; `e` itself when the
call does not return. -/
def state_after (r : outcome (Bool × earley)) (e : earley) : earley :=
  match r with
  | outcome.ret x => x.2
  | _ => e

end earley

/-! ## Children of stored packings: proof-side notions -/

namespace earley

/-- Every non-terminal child of a packing of `ps` is a key of `pf`. -/
def kids_keys (pf : ptree_t) (ps : List (List lit)) : Prop :=
  ∀ pack, pack ∈ ps → ∀ ch, ch ∈ pack → ch.nt = true → (map_find ch pf).isSome = true

/-- Every non-terminal child of a packing of `ps` has a completed item in
`citem`. -/
def kids_items (G : List (List lit)) (citem : List item) (ps : List (List lit)) : Prop :=
  ∀ pack, pack ∈ ps → ∀ ch, ch ∈ pack → ch.nt = true →
    find_all G citem ch.from_ ch.n ch.to_ ≠ []

/-- Relation between `pfgraph` before and after a step of the forest
construction: the entries are kept as they are, and the children of a new
entry are keys. -/
def grows_closed (pf pf1 : ptree_t) : Prop :=
  (∀ k ps, map_find k pf = some ps → map_find k pf1 = some ps) ∧
  (∀ k ps, map_find k pf1 = some ps → map_find k pf = some ps ∨ kids_keys pf1 ps)

end earley

/-! ## Fixed-width hashes of the union-find and a further grammar -/

/-- Modelled from the spec: the value a signed `int_t` of `w` bits holds for the
arithmetic result `x`; the result wraps around (two's complement). The type
`int_t` is declared in defs.h, which is not part of the sources, so its width
is the parameter `w`. -/
def int_t.wrap (w : Nat) (x : Int) : int_t := (x + 2 ^ (w - 1)) % 2 ^ w - 2 ^ (w - 1)

namespace PersistentUnionFind

/-- Function `hash_set(x, y, x_hash, y_hash)` on an `int_t` of `w` bits: the
two squares and the sum are machine results. -/
def hash_set_w (w : Nat) (x y x_hash y_hash : int_t) : int_t :=
  int_t.wrap w ((if x_hash = 0 then int_t.wrap w (x * x) else x_hash) +
    (if y_hash = 0 then int_t.wrap w (y * y) else y_hash))

/-- The constructor `PersistentUnionFind(a_ptr, l_ptr, h_ptr, h_old, x, y,
hash_x, hash_y)` on an `int_t` of `w` bits. -/
def merged_w (w : Nat) (a_ptr l_ptr h_ptr : sppa) (h_old x y hash_x hash_y : int_t) :
    PersistentUnionFind :=
  { arr_pt := a_ptr
    link_pt := l_ptr
    hash_pt := h_ptr
    hash := Int.xor (Int.xor (Int.xor h_old hash_x) hash_y) (hash_set_w w x y hash_x hash_y) }

end PersistentUnionFind

namespace uf_model

/-- Modelled from the spec: `merge(t, a, b)` on an `int_t` of `w` bits; as
`merge`, with the hashes computed by `hash_set_w` and `merged_w`. -/
def merge_w (w : Nat) (t : uf_model) (a b : Nat) : uf_model :=
  if t.find a = t.find b then t
  else
    { find := fun i => if t.find i = max (t.find a) (t.find b) then min (t.find a) (t.find b)
        else t.find i
      hashes := fun i =>
        if i = min (t.find a) (t.find b) then
          PersistentUnionFind.hash_set_w w (t.find a) (t.find b) (t.hashes (t.find a))
            (t.hashes (t.find b))
        else t.hashes i
      hash := (PersistentUnionFind.merged_w w sppa.null sppa.null sppa.null t.hash (t.find a)
        (t.find b) (t.hashes (t.find a)) (t.hashes (t.find b))).hash }

/-- A sequence of merges on an `int_t` of `w` bits, started from the
all-singletons state. -/
def run_w (w : Nat) (ms : List (Nat × Nat)) : uf_model :=
  ms.foldl (fun t m => merge_w w t m.1 m.2) init

end uf_model

namespace earley

/-- The grammar `S → X Y`, `X → Z | ε`, `Z → a`, `Y → a | b Y`. -/
def g_XZ : List (String × List (List String)) :=
  [("S", [["X", "Y"]]), ("X", [["Z"], [""]]), ("Z", [["a"]]), ("Y", [["a"], ["b", "Y"]])]

end earley

/-! ## Sequencing, sets and maps -/

namespace outcome

theorem bind_eq_ret {α β : Type} {x : outcome α} {f : α → outcome β} {b : β} :
    bind x f = ret b ↔ ∃ a, x = ret a ∧ f a = ret b := by
  cases x <;> simp [bind]

theorem bind_ne_diverge {α β : Type} {x : outcome α} {f : α → outcome β}
    (hx : x ≠ diverge) (hf : ∀ a, x = ret a → f a ≠ diverge) : bind x f ≠ diverge := by
  cases x with
  | ret a => exact hf a rfl
  | throws e => simp [bind]
  | diverge => exact absurd rfl hx

theorem foldl_inv {α β : Type} (f : β → α → outcome β) (Inv : β → Prop) (l : List α)
    (step : ∀ b a b1, a ∈ l → Inv b → f b a = ret b1 → Inv b1) :
    ∀ b b1, Inv b → foldl f b l = ret b1 → Inv b1 := by
  induction l with
  | nil =>
    intro b b1 hb h
    simp only [foldl, ret.injEq] at h
    exact h ▸ hb
  | cons a l ih =>
    intro b b1 hb h
    simp only [foldl, bind_eq_ret] at h
    obtain ⟨b2, h1, h2⟩ := h
    exact ih (fun b a b1 ha => step b a b1 (List.mem_cons_of_mem _ ha)) b2 b1
      (step b a b2 (List.mem_cons_self _ _) hb h1) h2

theorem foldl_ne_diverge {α β : Type} (f : β → α → outcome β) (Inv : β → Prop) (l : List α)
    (step : ∀ b a, a ∈ l → Inv b → f b a ≠ diverge ∧ ∀ b1, f b a = ret b1 → Inv b1) :
    ∀ b, Inv b → foldl f b l ≠ diverge := by
  induction l with
  | nil => intro b _; simp [foldl]
  | cons a l ih =>
    intro b hb
    simp only [foldl]
    refine bind_ne_diverge (step b a (List.mem_cons_self _ _) hb).1 ?_
    intro b2 h2
    exact ih (fun b a ha => step b a (List.mem_cons_of_mem _ ha)) b2
      ((step b a (List.mem_cons_self _ _) hb).2 b2 h2)

end outcome

/-! ### Maps -/

theorem map_find_isSome_iff {α β : Type} [DecidableEq α] (k : α) (m : List (α × β)) :
    (map_find k m).isSome = true ↔ k ∈ m.map Prod.fst := by
  induction m with
  | nil => simp [map_find]
  | cons kv m ih =>
    obtain ⟨k1, v1⟩ := kv
    by_cases h : k = k1
    · simp [map_find, h]
    · simp [map_find, h, ih]

theorem map_assign_keys {α β : Type} [DecidableEq α] (lt : α → α → Bool) (k : α) (v : β)
    (m : List (α × β)) (k1 : α) :
    k1 ∈ (map_assign lt k v m).map Prod.fst ↔ k1 = k ∨ k1 ∈ m.map Prod.fst := by
  unfold map_assign
  split
  · rename_i h
    rw [map_find_isSome_iff] at h
    have : (m.map (fun kv => if kv.1 = k then (k, v) else kv)).map Prod.fst = m.map Prod.fst := by
      rw [List.map_map]
      apply List.map_congr_left
      intro kv _
      by_cases hk : kv.1 = k <;> simp [hk]
    rw [this]
    constructor
    · exact Or.inr
    · rintro (h1 | h1)
      · exact h1 ▸ h
      · exact h1
  · simp only [List.mem_map, List.mem_orderedInsert, Prod.exists, exists_and_right, exists_eq_right]
    constructor
    · rintro ⟨b, hb | hb⟩
      · left; simp only [Prod.mk.injEq] at hb; exact hb.1
      · right; exact ⟨b, hb⟩
    · rintro (h1 | ⟨b, hb⟩)
      · exact ⟨v, Or.inl (by rw [h1])⟩
      · exact ⟨b, Or.inr hb⟩

theorem map_assign_nodup {α β : Type} [DecidableEq α] (lt : α → α → Bool) (k : α) (v : β)
    (m : List (α × β)) (h : (m.map Prod.fst).Nodup) :
    ((map_assign lt k v m).map Prod.fst).Nodup := by
  unfold map_assign
  split
  · have : (m.map (fun kv => if kv.1 = k then (k, v) else kv)).map Prod.fst = m.map Prod.fst := by
      rw [List.map_map]
      apply List.map_congr_left
      intro kv _
      by_cases hk : kv.1 = k <;> simp [hk]
    rw [this]; exact h
  · rename_i hk
    rw [map_find_isSome_iff] at hk
    have hp := (List.perm_orderedInsert (fun a b : α × β => lt a.1 b.1 = true) (k, v) m).map Prod.fst
    rw [hp.nodup_iff]
    simp only [List.map_cons, List.nodup_cons]
    exact ⟨hk, h⟩

theorem countP_lt_of_imp {α : Type} (p q : α → Bool) (l : List α)
    (h : ∀ x ∈ l, p x = true → q x = true) (hx : ∃ x ∈ l, q x = true ∧ p x = false) :
    l.countP p < l.countP q := by
  induction l with
  | nil => simp at hx
  | cons a l ih =>
    have hle : l.countP p ≤ l.countP q :=
      List.countP_mono_left (fun x hx => h x (List.mem_cons_of_mem _ hx))
    obtain ⟨x, hxl, hq, hp⟩ := hx
    rcases List.mem_cons.1 hxl with rfl | hxl
    · rw [List.countP_cons_of_pos _ _ hq, List.countP_cons_of_neg _ _ (by simp [hp])]
      omega
    · have := ih (fun x hx => h x (List.mem_cons_of_mem _ hx)) ⟨x, hxl, hq, hp⟩
      rw [List.countP_cons, List.countP_cons]
      have h2 := h a (List.mem_cons_self _ _)
      by_cases hpa : p a = true
      · simp [hpa, h2 hpa]; omega
      · simp [hpa]; omega

/-! ### Sets -/

theorem mem_set_insert {α : Type} [DecidableEq α] (lt : α → α → Bool) (x y : α) (l : List α) :
    y ∈ set_insert lt x l ↔ y = x ∨ y ∈ l := by
  unfold set_insert
  split
  · rename_i h
    constructor
    · exact Or.inr
    · rintro (h1 | h1)
      · exact h1 ▸ h
      · exact h1
  · simp [List.mem_orderedInsert]

theorem mem_foldl_set_insert {α : Type} [DecidableEq α] (lt : α → α → Bool) (y : α)
    (l : List α) : ∀ init : List α,
    y ∈ l.foldl (fun acc i => set_insert lt i acc) init ↔ y ∈ init ∨ y ∈ l := by
  induction l with
  | nil => intro init; simp
  | cons a l ih =>
    intro init
    simp only [List.foldl_cons, ih, mem_set_insert, List.mem_cons]
    tauto

theorem list_foldl_inv {α β : Type} (f : β → α → β) (Inv : β → Prop) (l : List α)
    (step : ∀ b a, a ∈ l → Inv b → Inv (f b a)) : ∀ b, Inv b → Inv (l.foldl f b) := by
  induction l with
  | nil => intro b hb; exact hb
  | cons a l ih =>
    intro b hb
    simp only [List.foldl_cons]
    exact ih (fun b a ha => step b a (List.mem_cons_of_mem _ ha)) _
      (step b a (List.mem_cons_self _ _) hb)

theorem set_insert_length {α : Type} [DecidableEq α] (lt : α → α → Bool) (x : α) (l : List α) :
    l.length ≤ (set_insert lt x l).length ∧
    ((set_insert lt x l).length = l.length → set_insert lt x l = l) := by
  unfold set_insert
  split
  · exact ⟨le_refl _, fun _ => rfl⟩
  · rw [List.orderedInsert_length]
    exact ⟨by omega, fun h => by omega⟩

theorem set_insert_nodup {α : Type} [DecidableEq α] (lt : α → α → Bool) (x : α) (l : List α)
    (h : l.Nodup) : (set_insert lt x l).Nodup := by
  unfold set_insert
  split
  · exact h
  · rename_i hx
    rw [(List.perm_orderedInsert _ x l).nodup_iff]
    exact List.nodup_cons.2 ⟨hx, h⟩

/-! ## The forest construction -/

namespace earley

theorem sbl_ne_diverge (G : List (List lit)) (citem : List item) (inputstr : List Char)
    (eitem : item) : ∀ m curchd xfrom ambset,
    sbl_chd_forest_aux G citem inputstr eitem m curchd xfrom ambset ≠ outcome.diverge := by
  intro m
  induction m with
  | zero =>
    intro curchd xfrom ambset
    simp only [sbl_chd_forest_aux]
    split
    · simp
    · split <;> simp
  | succ m ih =>
    intro curchd xfrom ambset
    simp only [sbl_chd_forest_aux]
    split
    · split
      · exact ih _ _ _
      · split
        · simp
        · split
          · exact ih _ _ _
          · simp
    · apply outcome.foldl_ne_diverge _ (fun _ => True)
      · intro b a _ _
        refine ⟨?_, fun _ _ => trivial⟩
        split
        · simp
        · exact ih _ _ _
      · trivial

theorem find_all_mem {G : List (List lit)} {citem : List item} {xfrom nt : Nat} {xend : Int}
    {cur : item} (h : cur ∈ find_all G citem xfrom nt xend) :
    cur ∈ citem ∧ cur.from_ = xfrom ∧ cur.prod ∈ nts G (lit.of_n nt) ∧
      (xend = -1 ∨ (cur.set : Int) = xend) := by
  unfold find_all at h
  rw [List.mem_filter] at h
  obtain ⟨h1, h2⟩ := h
  simp only [Bool.and_eq_true, Bool.or_eq_true, decide_eq_true_eq] at h2
  refine ⟨h1, h2.1.1, h2.1.2, ?_⟩
  rcases h2.2 with h3 | h3
  · exact Or.inr h3.2
  · exact Or.inl h3

theorem sym_at_of_nts {G : List (List lit)} {l : lit} {p : Nat} (h : p ∈ nts G l) :
    sym_at G p 0 = l ∧ p < G.length := by
  unfold nts at h
  rw [List.mem_filter] at h
  obtain ⟨h1, h2⟩ := h
  simp only [decide_eq_true_eq] at h2
  refine ⟨?_, List.mem_range.1 h1⟩
  unfold sym_at
  cases hp : P G p with
  | nil => rw [hp] at h2; simp at h2
  | cons a l1 => rw [hp] at h2; simp at h2; simp [h2]

theorem node_of_find_all {G : List (List lit)} {citem : List item} {root : lit} {cur : item}
    (hnt : root.nt = true) (h : cur ∈ find_all G citem root.from_ root.n root.to_) :
    node_of G cur = root ∧ cur ∈ citem := by
  obtain ⟨h1, h2, h3, h4⟩ := find_all_mem h
  refine ⟨?_, h1⟩
  have h5 : (cur.set : Int) = root.to_ := by
    rcases h4 with h4 | h4
    · omega
    · exact h4
  have h6 : cur.set = root.to_ := by exact_mod_cast h5
  unfold node_of
  rw [(sym_at_of_nts h3).1, h2, h6]
  obtain ⟨v, f, t⟩ := root
  cases v with
  | n k => simp [lit.of_n, lit.n]
  | c ch => simp [lit.nt] at hnt

theorem keeps_refl (pf : ptree_t) : keeps pf pf := ⟨fun _ h => h, id⟩

theorem keeps_trans {a b c : ptree_t} (h1 : keeps a b) (h2 : keeps b c) : keeps a c :=
  ⟨fun k hk => h2.1 k (h1.1 k hk), fun hn => h2.2 (h1.2 hn)⟩

theorem keeps_assign (k : lit) (v : List (List lit)) (pf : ptree_t) :
    keeps pf (map_assign lit.lt k v pf) :=
  ⟨fun _ hk => (map_assign_keys _ _ _ _ _).2 (Or.inr hk), map_assign_nodup _ _ _ _⟩

theorem forest_children_keeps (call : ptree_t → lit → outcome (Bool × ptree_t))
    (hcall : ∀ pf nxt r, call pf nxt = outcome.ret r → keeps pf r.2)
    (pf0 pf : ptree_t) (ambset : List (List lit)) (pf2 : ptree_t) (h0 : keeps pf0 pf)
    (h : forest_children call pf ambset = outcome.ret pf2) : keeps pf0 pf2 := by
  refine outcome.foldl_inv _ (fun pf1 : ptree_t => keeps pf0 pf1) _ ?_ _ _ h0 h
  intro pfa aset pfb _ hinva hfa
  refine outcome.foldl_inv _ (fun pf1 : ptree_t => keeps pf0 pf1) _ ?_ _ _ hinva hfa
  intro pfc nxt pfd _ hinvc hfc
  rw [outcome.bind_eq_ret] at hfc
  obtain ⟨r1, hr1, hr2⟩ := hfc
  simp only [outcome.ret.injEq] at hr2
  subst hr2
  exact keeps_trans hinvc (hcall pfc nxt r1 hr1)

theorem forest_item_keeps (G : List (List lit)) (citem : List item) (inputstr : List Char)
    (call : ptree_t → lit → outcome (Bool × ptree_t))
    (hcall : ∀ pf nxt r, call pf nxt = outcome.ret r → keeps pf r.2)
    (st st2 : ptree_t × List (List lit)) (cur : item)
    (h : forest_item G citem inputstr call st cur = outcome.ret st2) :
    keeps st.1 st2.1 ∧ node_of G cur ∈ st2.1.map Prod.fst := by
  unfold forest_item at h
  rw [outcome.bind_eq_ret] at h
  obtain ⟨ambset, _, h⟩ := h
  rw [outcome.bind_eq_ret] at h
  obtain ⟨pf2, hpf2, hst2⟩ := h
  simp only [outcome.ret.injEq] at hst2
  subst hst2
  constructor
  · exact forest_children_keeps call hcall _ _ _ _ (keeps_assign _ _ _) hpf2
  · exact (forest_children_keeps call hcall _ _ _ _ (keeps_refl _) hpf2).1 _
      ((map_assign_keys _ _ _ _ _).2 (Or.inl rfl))

/-- Every call of `forest` keeps the keys of `pfgraph`, and keeps them
distinct. -/
theorem forest_keeps (G : List (List lit)) (citem : List item) (inputstr : List Char) :
    ∀ fuel pf root r, forest G citem inputstr fuel pf root = outcome.ret r → keeps pf r.2 := by
  intro fuel
  induction fuel with
  | zero => intro pf root r h; simp [forest] at h
  | succ fuel ih =>
    intro pf root r h
    simp only [forest] at h
    split at h
    · simp only [outcome.ret.injEq] at h; subst h; exact keeps_refl _
    · split at h
      · simp only [outcome.ret.injEq] at h; subst h; exact keeps_refl _
      · rw [outcome.bind_eq_ret] at h
        obtain ⟨st, hst, hr⟩ := h
        simp only [outcome.ret.injEq] at hr
        subst hr
        refine outcome.foldl_inv _ (fun st : ptree_t × List (List lit) => keeps pf st.1) _ ?_ _ _
          (keeps_refl _) hst
        intro st1 cur st2 _ hinv hstep
        exact keeps_trans hinv (forest_item_keeps G citem inputstr _ ih st1 st2 cur hstep).1

/-- An expansion that finds a completed item makes the node a key. -/
theorem forest_root_key (G : List (List lit)) (citem : List item) (inputstr : List Char)
    (fuel : Nat) (pf : ptree_t) (root : lit) (r : Bool × ptree_t)
    (hnt : root.nt = true) (hvis : map_find root pf = none)
    (hne : find_all G citem root.from_ root.n root.to_ ≠ [])
    (h : forest G citem inputstr (fuel + 1) pf root = outcome.ret r) :
    r.1 = true ∧ root ∈ r.2.map Prod.fst := by
  simp only [forest, hnt, hvis, Bool.not_true, Bool.false_eq_true, if_false,
    Option.isSome_none] at h
  rw [outcome.bind_eq_ret] at h
  obtain ⟨st, hst, hr⟩ := h
  simp only [outcome.ret.injEq] at hr
  subst hr
  refine ⟨rfl, ?_⟩
  cases hl : find_all G citem root.from_ root.n root.to_ with
  | nil => exact absurd hl hne
  | cons cur rest =>
    have hcur : cur ∈ find_all G citem root.from_ root.n root.to_ := by
      rw [hl]; exact List.mem_cons_self _ _
    rw [hl] at hst
    simp only [outcome.foldl] at hst
    rw [outcome.bind_eq_ret] at hst
    obtain ⟨st1, hst1, hrest⟩ := hst
    have h1 := forest_item_keeps G citem inputstr _ (forest_keeps G citem inputstr fuel)
      _ _ _ hst1
    have h2 : keeps st1.1 st.1 := by
      refine outcome.foldl_inv _ (fun st : ptree_t × List (List lit) => keeps st1.1 st.1) _ ?_ _ _
        (keeps_refl _) hrest
      intro sta c stb _ hinv hstep
      exact keeps_trans hinv (forest_item_keeps G citem inputstr _
        (forest_keeps G citem inputstr fuel) sta stb c hstep).1
    have := h2.1 _ h1.2
    rwa [(node_of_find_all hnt hcur).1] at this

theorem unvisited_mono (G : List (List lit)) (citem : List item) (pf pf1 : ptree_t)
    (h : ∀ k, k ∈ pf.map Prod.fst → k ∈ pf1.map Prod.fst) :
    unvisited G citem pf1 ≤ unvisited G citem pf := by
  unfold unvisited
  apply List.countP_mono_left
  intro x _ hx
  simp only [decide_eq_true_eq] at hx ⊢
  exact fun hc => hx (h x hc)

theorem unvisited_lt (G : List (List lit)) (citem : List item) (pf pf1 : ptree_t) (root : lit)
    (h : ∀ k, k ∈ pf.map Prod.fst → k ∈ pf1.map Prod.fst)
    (h1 : root ∈ citem.map (node_of G)) (h2 : root ∉ pf.map Prod.fst)
    (h3 : root ∈ pf1.map Prod.fst) :
    unvisited G citem pf1 < unvisited G citem pf := by
  unfold unvisited
  apply countP_lt_of_imp
  · intro x _ hx
    simp only [decide_eq_true_eq] at hx ⊢
    exact fun hc => hx (h x hc)
  · exact ⟨root, h1, by simpa using h2, by simpa using h3⟩

theorem unvisited_le_length (G : List (List lit)) (citem : List item) (pf : ptree_t) :
    unvisited G citem pf ≤ citem.length := by
  unfold unvisited
  exact le_trans (List.countP_le_length _) (by simp)

theorem forest_children_ne_diverge (G : List (List lit)) (citem : List item)
    (call : ptree_t → lit → outcome (Bool × ptree_t)) (fuel : Nat)
    (hcall : ∀ pf nxt r, call pf nxt = outcome.ret r → keeps pf r.2)
    (hterm : ∀ pf nxt, unvisited G citem pf < fuel → call pf nxt ≠ outcome.diverge)
    (pf : ptree_t) (ambset : List (List lit)) (hlt : unvisited G citem pf < fuel) :
    forest_children call pf ambset ≠ outcome.diverge := by
  have inner : ∀ (l : List lit) (pfx : ptree_t), keeps pf pfx →
      outcome.foldl (fun pf1 nxt => outcome.bind (call pf1 nxt) (fun r => outcome.ret r.2))
        pfx l ≠ outcome.diverge ∧
      ∀ pfy, outcome.foldl
        (fun pf1 nxt => outcome.bind (call pf1 nxt) (fun r => outcome.ret r.2)) pfx l =
          outcome.ret pfy → keeps pf pfy := by
    intro l pfx hpfx
    constructor
    · refine outcome.foldl_ne_diverge _ (fun pf1 : ptree_t => keeps pf pf1) _ ?_ _ hpfx
      intro pfc nxt _ hinvc
      constructor
      · refine outcome.bind_ne_diverge ?_ (fun _ _ => by simp)
        apply hterm
        have := unvisited_mono G citem _ pfc hinvc.1
        omega
      · intro pfd hfc
        rw [outcome.bind_eq_ret] at hfc
        obtain ⟨r1, hr1, hr2⟩ := hfc
        simp only [outcome.ret.injEq] at hr2
        subst hr2
        exact keeps_trans hinvc (hcall pfc nxt r1 hr1)
    · intro pfy hfy
      refine outcome.foldl_inv _ (fun pf1 : ptree_t => keeps pf pf1) _ ?_ _ _ hpfx hfy
      intro pfc nxt pfd _ hinvc hfc
      rw [outcome.bind_eq_ret] at hfc
      obtain ⟨r1, hr1, hr2⟩ := hfc
      simp only [outcome.ret.injEq] at hr2
      subst hr2
      exact keeps_trans hinvc (hcall pfc nxt r1 hr1)
  unfold forest_children
  refine outcome.foldl_ne_diverge _ (fun pf1 : ptree_t => keeps pf pf1) _ ?_ _ (keeps_refl _)
  intro pfa aset _ hinva
  exact inner aset pfa hinva

/-- The forest construction returns or throws when the fuel exceeds the
number of unvisited nodes. -/
theorem forest_ne_diverge (G : List (List lit)) (citem : List item) (inputstr : List Char) :
    ∀ fuel pf root, unvisited G citem pf < fuel →
      forest G citem inputstr fuel pf root ≠ outcome.diverge := by
  intro fuel
  induction fuel with
  | zero => intro pf root h; omega
  | succ fuel ih =>
    intro pf root hlt
    simp only [forest]
    split
    · simp
    · rename_i hnt
      split
      · simp
      · rename_i hvis
        have hnt : root.nt = true := by simpa using hnt
        have hroot : root ∉ pf.map Prod.fst := by
          rw [← map_find_isSome_iff]; exact hvis
        refine outcome.bind_ne_diverge ?_ (fun _ _ => by simp)
        refine outcome.foldl_ne_diverge _
          (fun st : ptree_t × List (List lit) => keeps pf st.1) _ ?_ _ (keeps_refl _)
        intro st1 cur hcur hinv
        obtain ⟨hnode, hmem⟩ := node_of_find_all hnt hcur
        constructor
        · unfold forest_item
          refine outcome.bind_ne_diverge (sbl_ne_diverge _ _ _ _ _ _ _ _) ?_
          intro ambset _
          refine outcome.bind_ne_diverge ?_ (fun _ _ => by simp)
          apply forest_children_ne_diverge G citem _ fuel (forest_keeps G citem inputstr fuel) ih
          have hlt1 : unvisited G citem (map_assign lit.lt (node_of G cur) ambset st1.1) <
              unvisited G citem pf := by
            apply unvisited_lt G citem pf _ root
            · exact fun k hk => (map_assign_keys _ _ _ _ _).2 (Or.inr (hinv.1 k hk))
            · rw [← hnode]; exact List.mem_map_of_mem _ hmem
            · exact hroot
            · rw [hnode]; exact (map_assign_keys _ _ _ _ _).2 (Or.inl rfl)
          omega
        · intro st2 hstep
          exact keeps_trans hinv
            (forest_item_keeps G citem inputstr _ (forest_keeps G citem inputstr fuel)
              st1 st2 cur hstep).1

theorem mem_citem_of (e : earley) (S : List item) (i : item) :
    i ∈ citem_of e S ↔ i ∈ e.citem ∨ (i ∈ S ∧ completed e.G i = true) := by
  unfold citem_of
  rw [mem_foldl_set_insert, List.mem_filter]

theorem mem_find_all (G : List (List lit)) (citem : List item) (xfrom nt : Nat) (t : Nat)
    (i : item) :
    i ∈ find_all G citem xfrom nt t ↔
      i ∈ citem ∧ i.from_ = xfrom ∧ i.prod ∈ nts G (lit.of_n nt) ∧ i.set = t := by
  unfold find_all
  rw [List.mem_filter]
  simp only [Bool.and_eq_true, Bool.or_eq_true, decide_eq_true_eq]
  constructor
  · rintro ⟨h1, ⟨h2, h3⟩, h4⟩
    refine ⟨h1, h2, h3, ?_⟩
    rcases h4 with h4 | h4
    · exact_mod_cast h4.2
    · omega
  · rintro ⟨h1, h2, h3, h4⟩
    refine ⟨h1, ⟨h2, h3⟩, Or.inl ⟨by omega, by exact_mod_cast h4⟩⟩

theorem found_iff (G : List (List lit)) (start : lit) (len : Nat) (S : List item) :
    found G start len S = true ↔
      ∃ p, p ∈ nts G start ∧ (⟨len, p, 0, (P G p).length⟩ : item) ∈ S := by
  unfold found
  simp [List.any_eq_true]

/-- The verdict of a call that returns is `found`, and the root node is a
key of the forest exactly when the verdict is true. -/
theorem recognize_new_ret (g : List (String × List (List String))) (s : String) (b : Bool)
    (e1 : earley) (h : recognize (new g) s = outcome.ret (b, e1)) :
    (b = true ↔ ∃ p, p ∈ nts (new g).G (new g).start ∧
      (⟨(cstr s).length, p, 0, (P (new g).G p).length⟩ : item) ∈ e1.S) ∧
    (b = true ↔ (map_find (root_of (new g) (cstr s).length) e1.pfgraph).isSome = true) := by
  unfold recognize at h
  rw [outcome.bind_eq_ret] at h
  obtain ⟨c, hc, h⟩ := h
  rw [outcome.bind_eq_ret] at h
  obtain ⟨r, hr, h⟩ := h
  simp only [outcome.ret.injEq, Prod.mk.injEq] at h
  obtain ⟨hb, he1⟩ := h
  subst he1
  simp only
  have hstart : (new g).start = lit.of_n (new g).start.n := rfl
  have hrootnt : (root_of (new g) (cstr s).length).nt = true := rfl
  have hrootn : (root_of (new g) (cstr s).length).n = (new g).start.n := rfl
  have hfa : ∀ i, i ∈ find_all (new g).G (citem_of (new g) c.S)
      (root_of (new g) (cstr s).length).from_ (root_of (new g) (cstr s).length).n
      (root_of (new g) (cstr s).length).to_ ↔
      i ∈ c.S ∧ completed (new g).G i = true ∧ i.from_ = 0 ∧
        i.prod ∈ nts (new g).G (new g).start ∧ i.set = (cstr s).length := by
    intro i
    rw [mem_find_all, mem_citem_of, hrootn, ← hstart]
    have : (new g).citem = [] := rfl
    rw [this]
    simp only [List.not_mem_nil, false_or, root_of]
    tauto
  refine ⟨by rw [← hb, found_iff], ?_⟩
  rw [← hb, found_iff]
  constructor
  · rintro ⟨p, hp, hmem⟩
    have hne : find_all (new g).G (citem_of (new g) c.S)
        (root_of (new g) (cstr s).length).from_ (root_of (new g) (cstr s).length).n
        (root_of (new g) (cstr s).length).to_ ≠ [] := by
      intro hnil
      have := (hfa ⟨(cstr s).length, p, 0, (P (new g).G p).length⟩).2
        ⟨hmem, by simp [completed], rfl, hp, rfl⟩
      rw [hnil] at this
      simp at this
    rw [map_find_isSome_iff]
    exact (forest_root_key _ _ _ _ [] _ _ hrootnt rfl hne hr).2
  · intro hsome
    by_contra hno
    have hnil : find_all (new g).G (citem_of (new g) c.S)
        (root_of (new g) (cstr s).length).from_ (root_of (new g) (cstr s).length).n
        (root_of (new g) (cstr s).length).to_ = [] := by
      apply List.eq_nil_iff_forall_not_mem.2
      intro i hi
      obtain ⟨h1, h2, h3, h4, h5⟩ := (hfa i).1 hi
      apply hno
      refine ⟨i.prod, h4, ?_⟩
      have : (⟨(cstr s).length, i.prod, 0, (P (new g).G i.prod).length⟩ : item) = i := by
        obtain ⟨a, b1, c1, d1⟩ := i
        simp only [completed, decide_eq_true_eq] at h2
        simp only at h3 h5
        simp [h2, h3, h5]
      rw [this]; exact h1
    simp only [forest, hrootnt, Bool.not_true, Bool.false_eq_true, if_false, map_find,
      Option.isSome_none, hnil, outcome.foldl, outcome.bind, outcome.ret.injEq] at hr
    rw [← hr] at hsome
    simp [map_find] at hsome

end earley

/-! ## Soundness and termination of the chart construction -/

namespace earley

theorem derives_append (G : List (List lit)) {α β : List lit} {u w : List Char}
    (h1 : derives G α u) (h2 : derives G β w) : derives G (α ++ β) (u ++ w) := by
  induction h1 with
  | nil => simpa using h2
  | eps l rest w1 hnt hc _ ih => exact derives.eps l _ _ hnt hc ih
  | chr l rest w1 hnt hc _ ih => exact derives.chr l _ _ hnt hc ih
  | rule l p rest u1 w1 hnt hp hh hd _ _ ih2 =>
    have := derives.rule l p (rest ++ β) u1 (w1 ++ w) hnt hp hh hd ih2
    simpa [List.append_assoc] using this

theorem span_self (s : List Char) (n : Nat) : span s n n = [] := by
  simp [span]

theorem span_append (s : List Char) (f n m : Nat) (h1 : f ≤ n) (h2 : n ≤ m) :
    span s f n ++ span s n m = span s f m := by
  unfold span
  have h3 : m - f = (n - f) + (m - n) := by omega
  rw [h3, List.take_add, List.drop_drop]
  congr 3
  omega

theorem span_succ (s : List Char) (n : Nat) (h : n < s.length) :
    span s n (n + 1) = [s.getD n (Char.ofNat 0)] := by
  unfold span
  have : n + 1 - n = 1 := by omega
  rw [this, List.take_one, List.head?_drop, List.getD_eq_getElem?_getD,
    List.getElem?_eq_getElem h]
  rfl

theorem tail_getElem? (l : List lit) (k : Nat) : l.tail[k]? = l[k + 1]? := by
  cases l <;> simp

/-- Moving the dot over a symbol that derives `w`. -/
theorem good_advance (G : List (List lit)) (s : List Char) (i : item) (m : Nat)
    (hg : good G s i) (hd : i.dot < (P G i.prod).length) (hn : i.set ≤ m) (hm : m ≤ s.length)
    (hw : derives G [get_lit G i] (span s i.set m)) :
    good G s ⟨m, i.prod, i.from_, i.dot + 1⟩ := by
  obtain ⟨h1, h2, h3, h4, h5, h6⟩ := hg
  refine ⟨by simp only; omega, hm, h3, by simp, by simp only; omega, ?_⟩
  simp only
  have htake : (P G i.prod).tail.take (i.dot + 1 - 1) =
      (P G i.prod).tail.take (i.dot - 1) ++ [get_lit G i] := by
    have : i.dot + 1 - 1 = (i.dot - 1) + 1 := by omega
    rw [this, List.take_succ, tail_getElem?]
    have h8 : i.dot - 1 + 1 = i.dot := by omega
    rw [h8]
    unfold get_lit sym_at
    rw [List.getD_eq_getElem?_getD, List.getElem?_eq_getElem hd]
    rfl
  rw [htake, ← span_append s i.from_ i.set m h1 hn]
  exact derives_append G h6 hw

theorem P_mem (G : List (List lit)) (p : Nat) (h : p < G.length) : P G p ∈ G := by
  unfold P
  rw [List.getD_eq_getElem _ _ h]
  exact List.getElem_mem _

theorem P_lt_of_ne_nil (G : List (List lit)) (p : Nat) (h : P G p ≠ []) : p < G.length := by
  by_contra hc
  apply h
  unfold P
  rw [List.getD_eq_getElem?_getD, List.getElem?_eq_none (by omega)]
  rfl

theorem get_lit_mem (G : List (List lit)) (i : item) (h : i.dot < (P G i.prod).length) :
    get_lit G i ∈ P G i.prod := by
  unfold get_lit sym_at
  rw [List.getD_eq_getElem _ _ h]
  exact List.getElem_mem _

theorem lit_eq_of_n (l : lit) (h1 : l.nt = true) (h2 : l.from_ = 0) (h3 : l.to_ = 0) :
    l = lit.of_n l.n := by
  obtain ⟨v, f, t⟩ := l
  cases v with
  | n k => simp only at h2 h3; simp [lit.of_n, lit.n, h2, h3]
  | c ch => simp [lit.nt] at h1

theorem nullable_derives (G : List (List lit)) (N : List Nat) (i : item)
    (hwf : wf_grammar G) (hN : sound_nullables G N) (h : nullable G N i = true) :
    i.dot < (P G i.prod).length ∧ derives G [get_lit G i] [] := by
  unfold nullable at h
  simp only [Bool.and_eq_true, Bool.or_eq_true, decide_eq_true_eq, Bool.not_eq_true'] at h
  obtain ⟨hd, h⟩ := h
  refine ⟨hd, ?_⟩
  have hp : P G i.prod ∈ G := P_mem G _ (P_lt_of_ne_nil G _ (by
    intro hnil; rw [hnil] at hd; simp at hd))
  have hz := (hwf _ hp).2 _ (get_lit_mem G i hd)
  rcases h with ⟨hnt, hn⟩ | ⟨hnt, hc⟩
  · rw [lit_eq_of_n _ hnt hz.1 hz.2]
    exact hN _ hn
  · exact derives.eps _ _ _ hnt hc derives.nil

theorem add_aux_good (G : List (List lit)) (N : List Nat) (s : List Char)
    (hwf : wf_grammar G) (hN : sound_nullables G N) :
    ∀ m c i, cgood G s c → good G s i → cgood G s (add_aux G N m c i) := by
  intro m
  induction m with
  | zero =>
    intro c i hc hi
    simp only [add_aux]
    split
    · exact hc
    · split
      · exact hc
      · refine ⟨hc.1, ?_⟩
        intro j hj
        rcases (mem_set_insert _ _ _ _).1 hj with rfl | hj
        · exact hi
        · exact hc.2 j hj
  | succ m ih =>
    intro c i hc hi
    simp only [add_aux]
    have hc1 : cgood G s { c with t := set_insert item.lt i c.t } := by
      refine ⟨hc.1, ?_⟩
      intro j hj
      rcases (mem_set_insert _ _ _ _).1 hj with rfl | hj
      · exact hi
      · exact hc.2 j hj
    split
    · exact hc
    · split
      · exact hc
      · split
        · rename_i hnull
          obtain ⟨hd, hw⟩ := nullable_derives G N i hwf hN hnull
          have hj : good G s ⟨i.set, i.prod, i.from_, i.dot + 1⟩ := by
            apply good_advance G s i i.set hi hd (le_refl _) hi.2.1
            rw [span_self]; exact hw
          exact ih _ _ hc1 hj
        · exact hc1

theorem add_good (G : List (List lit)) (N : List Nat) (s : List Char)
    (hwf : wf_grammar G) (hN : sound_nullables G N) (c : cstate) (i : item)
    (hc : cgood G s c) (hi : good G s i) : cgood G s (add G N c i) :=
  add_aux_good G N s hwf hN _ c i hc hi

theorem good_completed_derives (G : List (List lit)) (s : List Char) (i : item)
    (hwf : wf_grammar G) (hi : good G s i) (hc : completed G i = true) :
    derives G (P G i.prod).tail (span s i.from_ i.set) ∧
    derives G [get_nt G i] (span s i.from_ i.set) := by
  obtain ⟨h1, h2, h3, h4, h5, h6⟩ := hi
  simp only [completed, decide_eq_true_eq] at hc
  have htail : (P G i.prod).tail.take (i.dot - 1) = (P G i.prod).tail := by
    apply List.take_of_length_le
    rw [List.length_tail]; omega
  rw [htail] at h6
  refine ⟨h6, ?_⟩
  have hp := P_mem G i.prod h3
  obtain ⟨k, hk⟩ := (hwf _ hp).1
  have hnt : get_nt G i = lit.of_n k := by
    unfold get_nt sym_at
    cases hP : P G i.prod with
    | nil => rw [hP] at hk; simp at hk
    | cons a l => rw [hP] at hk; simp at hk; simp [hk]
  have := derives.rule (get_nt G i) (P G i.prod) [] _ [] (by rw [hnt]; rfl) hp
    (by rw [hnt]; exact hk) h6 derives.nil
  simpa using this

theorem complete_good (G : List (List lit)) (N : List Nat) (s : List Char)
    (hwf : wf_grammar G) (hN : sound_nullables G N) (i : item) (c : cstate)
    (hc : cgood G s c) (hi : good G s i) (hcomp : completed G i = true) :
    cgood G s (complete G N i c) := by
  unfold complete
  refine list_foldl_inv _ (cgood G s) _ ?_ c hc
  intro c1 it hit hc1
  rw [List.mem_filter] at hit
  obtain ⟨hitS, hset⟩ := hit
  simp only [decide_eq_true_eq] at hset
  split
  · rename_i hcond
    have hj : good G s ⟨i.set, it.prod, it.from_, it.dot + 1⟩ := by
      apply good_advance G s it i.set (hc.1 it hitS) hcond.1 (by rw [hset]; exact hi.1) hi.2.1
      rw [hcond.2, hset]
      exact (good_completed_derives G s i hwf hi hcomp).2
    have := add_good G N s hwf hN c1 _ hc1 hj
    exact ⟨this.1, this.2⟩
  · exact hc1

theorem good_predicted (G : List (List lit)) (s : List Char) (l : lit) (p n : Nat)
    (hp : p ∈ nts G l) (hn : n ≤ s.length) : good G s ⟨n, p, n, 1⟩ := by
  have hlt := (sym_at_of_nts hp).2
  refine ⟨le_refl _, hn, hlt, le_refl _, ?_, ?_⟩
  · simp only
    unfold nts at hp
    rw [List.mem_filter] at hp
    have := hp.2
    simp only [decide_eq_true_eq] at this
    cases hP : P G p with
    | nil => rw [hP] at this; simp at this
    | cons a l => simp
  · simp only [Nat.sub_self, List.take_zero, span_self]
    exact derives.nil

theorem predict_good (G : List (List lit)) (N : List Nat) (s : List Char)
    (hwf : wf_grammar G) (hN : sound_nullables G N) (i : item) (c : cstate)
    (hc : cgood G s c) (hi : good G s i) : cgood G s (predict G N i c) := by
  unfold predict
  refine list_foldl_inv _ (cgood G s) _ ?_ c hc
  intro c1 p hp hc1
  have hj : good G s ⟨i.set, p, i.set, 1⟩ := good_predicted G s _ p i.set hp hi.2.1
  have := add_good G N s hwf hN c1 _ hc1 hj
  exact ⟨this.1, this.2⟩

theorem scan_good (G : List (List lit)) (s : List Char) (hs : ∀ ch, ch ∈ s → ch ≠ Char.ofNat 0)
    (it : item) (c : cstate) (hc : cgood G s c) (hit : good G s it)
    (hcomp : completed G it = false) (hnt : (get_lit G it).nt = false)
    (hn : it.set < s.length) :
    cgood G s (scan G it it.set (s.getD it.set (Char.ofNat 0)) c) := by
  unfold scan
  split
  · exact hc
  · rename_i hch
    simp only [ne_eq, Decidable.not_not] at hch
    refine ⟨?_, hc.2⟩
    intro j hj
    simp only at hj
    rcases (mem_set_insert _ _ _ _).1 hj with rfl | hj
    · simp only [completed, decide_eq_false_iff_not] at hcomp
      have hd : it.dot < (P G it.prod).length := by
        have := hit.2.2.2.2.1
        omega
      apply good_advance G s it (it.set + 1) hit hd (by omega) (by omega)
      rw [span_succ s _ hn, hch]
      refine derives.chr _ _ _ hnt ?_ derives.nil
      rw [← hch, List.getD_eq_getElem _ _ hn]
      exact hs _ (List.getElem_mem _)
    · exact hc.1 j hj

theorem process_good (G : List (List lit)) (N : List Nat) (s : List Char)
    (hwf : wf_grammar G) (hN : sound_nullables G N) (hs : ∀ ch, ch ∈ s → ch ≠ Char.ofNat 0)
    (c : cstate) (it : item) (hc : cgood G s c) (hit : good G s it) :
    cgood G s (process G N s it.set c it) := by
  unfold process
  split
  · rename_i h1
    exact complete_good G N s hwf hN it c hc hit h1
  · rename_i h1
    split
    · exact predict_good G N s hwf hN it c hc hit
    · rename_i h2
      split
      · rename_i h3
        exact scan_good G s hs it c hc hit (by simpa using h1) (by simpa using h2) h3
      · exact hc

theorem round_good (G : List (List lit)) (N : List Nat) (s : List Char)
    (hwf : wf_grammar G) (hN : sound_nullables G N) (hs : ∀ ch, ch ∈ s → ch ≠ Char.ofNat 0)
    (n : Nat) (c : cstate) (hc : cgood G s c) : cgood G s (round G N s n c) := by
  unfold round
  have hS : ∀ i, i ∈ c.t.foldl (fun S i => set_insert item.lt i S) c.S → good G s i := by
    intro i hi
    rcases (mem_foldl_set_insert _ _ _ _).1 hi with h | h
    · exact hc.1 i h
    · exact hc.2 i h
  refine list_foldl_inv _ (cgood G s) _ ?_ _ ⟨hS, by simp⟩
  intro c1 it hit hc1
  rw [List.mem_filter] at hit
  obtain ⟨hitS, hset⟩ := hit
  simp only [decide_eq_true_eq] at hset
  rw [← hset]
  exact process_good G N s hwf hN hs c1 it hc1 (hS it hitS)

theorem closure_good (G : List (List lit)) (N : List Nat) (s : List Char)
    (hwf : wf_grammar G) (hN : sound_nullables G N) (hs : ∀ ch, ch ∈ s → ch ≠ Char.ofNat 0)
    (n : Nat) : ∀ fuel c c1, cgood G s c → closure G N s n fuel c = outcome.ret c1 →
      cgood G s c1 := by
  intro fuel
  induction fuel with
  | zero => intro c c1 _ h; simp [closure] at h
  | succ fuel ih =>
    intro c c1 hc h
    simp only [closure] at h
    split at h
    · simp only [outcome.ret.injEq] at h
      rw [← h]
      exact round_good G N s hwf hN hs n c hc
    · exact ih _ _ (round_good G N s hwf hN hs n c hc) h

theorem chart_good (G : List (List lit)) (start : lit) (N : List Nat) (s : List Char)
    (hwf : wf_grammar G) (hN : sound_nullables G N) (hs : ∀ ch, ch ∈ s → ch ≠ Char.ofNat 0)
    (c : cstate) (h : chart G start N s = outcome.ret c) : cgood G s c := by
  unfold chart at h
  refine outcome.foldl_inv _ (cgood G s) _ ?_ _ _ ?_ h
  · intro c1 n c2 _ hc1 hstep
    exact closure_good G N s hwf hN hs n _ c1 c2 hc1 hstep
  · refine ⟨?_, by simp⟩
    refine list_foldl_inv _ (fun S : List item => ∀ i, i ∈ S → good G s i) _ ?_ _ (by simp)
    intro S n hn hS i hi
    rcases (mem_set_insert _ _ _ _).1 hi with rfl | hi
    · exact good_predicted G s _ n 0 hn (Nat.zero_le _)
    · exact hS i hi

theorem mk_rhs_spec (nt : List String) : ∀ (y : List String) (p : List lit) (d : dict),
    ∃ q, (mk_rhs nt y p d).1 = p ++ q ∧ ∀ l, l ∈ q → l.from_ = 0 ∧ l.to_ = 0 := by
  intro y
  induction y with
  | nil => intro p d; exact ⟨[], by simp [mk_rhs], by simp⟩
  | cons s y ih =>
    intro p d
    simp only [mk_rhs]
    split
    · obtain ⟨q, hq, hz⟩ := ih (p ++ [lit.of_n (dict.get d s).1]) (dict.get d s).2
      refine ⟨lit.of_n (dict.get d s).1 :: q, by rw [hq]; simp, ?_⟩
      intro l hl
      rcases List.mem_cons.1 hl with rfl | hl
      · exact ⟨rfl, rfl⟩
      · exact hz l hl
    · split
      · obtain ⟨q, hq, hz⟩ := ih (p ++ [lit.eps]) d
        refine ⟨lit.eps :: q, by rw [hq]; simp, ?_⟩
        intro l hl
        rcases List.mem_cons.1 hl with rfl | hl
        · exact ⟨rfl, rfl⟩
        · exact hz l hl
      · obtain ⟨q, hq, hz⟩ := ih (p ++ s.data.map lit.of_c) d
        refine ⟨s.data.map lit.of_c ++ q, by rw [hq]; simp, ?_⟩
        intro l hl
        rcases List.mem_append.1 hl with hl | hl
        · obtain ⟨ch, _, rfl⟩ := List.mem_map.1 hl
          exact ⟨rfl, rfl⟩
        · exact hz l hl

theorem mk_alts_spec (nt : List String) (lhs : String) :
    ∀ (ys : List (List String)) (G : List (List lit)) (d : dict),
    ∃ Q, (mk_alts nt lhs ys G d).1 = G ++ Q ∧
      ∀ p, p ∈ Q → (∃ k, p.head? = some (lit.of_n k)) ∧ ∀ l, l ∈ p → l.from_ = 0 ∧ l.to_ = 0 := by
  intro ys
  induction ys with
  | nil => intro G d; exact ⟨[], by simp [mk_alts], by simp⟩
  | cons y ys ih =>
    intro G d
    simp only [mk_alts]
    obtain ⟨q, hq, hz⟩ := mk_rhs_spec nt y [lit.of_n (dict.get d lhs).1] (dict.get d lhs).2
    obtain ⟨Q, hQ, hwf⟩ := ih
      (G ++ [(mk_rhs nt y [lit.of_n (dict.get d lhs).1] (dict.get d lhs).2).1])
      (mk_rhs nt y [lit.of_n (dict.get d lhs).1] (dict.get d lhs).2).2
    refine ⟨(mk_rhs nt y [lit.of_n (dict.get d lhs).1] (dict.get d lhs).2).1 :: Q,
      by rw [hQ]; simp, ?_⟩
    intro p hp
    rcases List.mem_cons.1 hp with rfl | hp
    · rw [hq]
      refine ⟨⟨_, rfl⟩, ?_⟩
      intro l hl
      rcases List.mem_cons.1 hl with rfl | hl
      · exact ⟨rfl, rfl⟩
      · exact hz l hl
    · exact hwf p hp

theorem mk_G_spec (nt : List String) :
    ∀ (g : List (String × List (List String))) (G : List (List lit)) (d : dict),
    ∃ Q, (mk_G nt g G d).1 = G ++ Q ∧
      ∀ p, p ∈ Q → (∃ k, p.head? = some (lit.of_n k)) ∧ ∀ l, l ∈ p → l.from_ = 0 ∧ l.to_ = 0 := by
  intro g
  induction g with
  | nil => intro G d; exact ⟨[], by simp [mk_G], by simp⟩
  | cons x g ih =>
    intro G d
    simp only [mk_G]
    obtain ⟨Q1, hQ1, hwf1⟩ := mk_alts_spec nt x.1 x.2 G d
    obtain ⟨Q2, hQ2, hwf2⟩ := ih (mk_alts nt x.1 x.2 G d).1 (mk_alts nt x.1 x.2 G d).2
    refine ⟨Q1 ++ Q2, by rw [hQ2, hQ1]; simp, ?_⟩
    intro p hp
    rcases List.mem_append.1 hp with hp | hp
    · exact hwf1 p hp
    · exact hwf2 p hp

/-- The grammar built by the constructor is well formed. -/
theorem wf_new (g : List (String × List (List String))) : wf_grammar (new g).G := by
  obtain ⟨Q, hQ, hwf⟩ := mk_G_spec (g.map Prod.fst) g [] []
  intro p hp
  have : (new g).G = Q := by simpa using hQ
  rw [this] at hp
  exact hwf p hp

theorem derives_all_eps (G : List (List lit)) : ∀ q : List lit,
    (∀ l, l ∈ q → derives G [l] []) → derives G q [] := by
  intro q
  induction q with
  | nil => intro _; exact derives.nil
  | cons a q ih =>
    intro h
    have := derives_append G (h a (List.mem_cons_self _ _))
      (ih (fun l hl => h l (List.mem_cons_of_mem _ hl)))
    simpa using this

theorem all_nulls_derives (G : List (List lit)) (N : List Nat) (p : List lit)
    (hwf : wf_grammar G) (hN : sound_nullables G N) (hp : p ∈ G)
    (h : all_nulls N p = true) : derives G p.tail [] := by
  apply derives_all_eps
  intro l hl
  unfold all_nulls at h
  rw [List.all_eq_true] at h
  have hl1 := h l hl
  have hz := (hwf p hp).2 l (List.mem_of_mem_tail hl)
  simp only [Bool.not_eq_true', Bool.or_eq_false_iff, Bool.and_eq_false_iff,
    Bool.not_eq_false', decide_eq_false_iff_not, Decidable.not_not, Bool.not_eq_true] at hl1
  cases hnt : l.nt with
  | true =>
    rw [lit_eq_of_n l hnt hz.1 hz.2]
    apply hN
    rcases hl1.2 with h2 | h2
    · rw [hnt] at h2; simp at h2
    · simpa using h2
  | false =>
    refine derives.eps _ _ _ hnt ?_ derives.nil
    rcases hl1.1 with h2 | h2
    · rw [hnt] at h2; simp at h2
    · simpa using h2

theorem nullables_sweep_sound (G : List (List lit)) (hwf : wf_grammar G) :
    ∀ (Gs : List (List lit)) (N : List Nat), (∀ p, p ∈ Gs → p ∈ G) → sound_nullables G N →
      sound_nullables G (nullables_sweep Gs N) := by
  intro Gs
  induction Gs with
  | nil => intro N _ hN; exact hN
  | cons p Gs ih =>
    intro N hsub hN
    simp only [nullables_sweep]
    apply ih _ (fun q hq => hsub q (List.mem_cons_of_mem _ hq))
    split
    · rename_i hall
      intro k hk
      rcases (mem_set_insert _ _ _ _).1 hk with rfl | hk
      · have hp := hsub p (List.mem_cons_self _ _)
        obtain ⟨k, hk⟩ := (hwf p hp).1
        have hd := all_nulls_derives G N p hwf hN hp hall
        have hhead : List.headD p lit.eps = lit.of_n k := by
          cases p with
          | nil => simp at hk
          | cons a l => simp at hk; simp [hk]
        rw [hhead]
        have := derives.rule (lit.of_n k) p [] [] [] rfl hp hk hd derives.nil
        simpa [lit.of_n, lit.n] using this
      · exact hN k hk
    · exact hN

theorem nullables_loop_sound (G : List (List lit)) (hwf : wf_grammar G) :
    ∀ (fuel : Nat) (N : List Nat), sound_nullables G N →
      sound_nullables G (nullables_loop G fuel N) := by
  intro fuel
  induction fuel with
  | zero => intro N hN; exact hN
  | succ fuel ih =>
    intro N hN
    simp only [nullables_loop]
    have := nullables_sweep_sound G hwf G N (fun _ h => h) hN
    split
    · exact this
    · exact ih _ this

/-- Every non-terminal the constructor puts into `nullables` derives the
empty string. -/
theorem sound_new (g : List (String × List (List String))) :
    sound_nullables (new g).G (new g).nullables :=
  nullables_loop_sound (new g).G (wf_new g) _ [] (by intro k hk; simp at hk)

theorem cstr_no_nul (s : String) : ∀ ch, ch ∈ cstr s → ch ≠ Char.ofNat 0 := by
  intro ch hch
  unfold cstr at hch
  have := List.mem_takeWhile_imp hch
  simpa using this

/-! ### Termination of the chart construction -/

theorem length_all_items (G : List (List lit)) (len : Nat) :
    (all_items G len).length = item_bound G len := by
  unfold all_items item_bound
  have h : ∀ {α β : Type} (a : List α) (b : List β),
      (a.product b).length = a.length * b.length := fun a b => List.length_product a b
  rw [List.length_map, h, h, h]
  simp only [List.length_range]

theorem length_le_sum (G : List (List lit)) (p : Nat) :
    (P G p).length ≤ (G.map List.length).sum := by
  unfold P
  induction G generalizing p with
  | nil => simp
  | cons a G ih =>
    cases p with
    | zero => simp
    | succ p =>
      have := ih p
      simp only [List.map_cons, List.sum_cons]
      have h2 : (a :: G).getD (p + 1) [] = G.getD p [] := rfl
      rw [h2]
      omega

theorem good_mem_all_items (G : List (List lit)) (s : List Char) (i : item)
    (h : good G s i) : i ∈ all_items G s.length := by
  obtain ⟨h1, h2, h3, h4, h5, _⟩ := h
  unfold all_items
  rw [List.mem_map]
  refine ⟨(i.set, i.prod, i.from_, i.dot), ?_, rfl⟩
  have h : ∀ {α β : Type} (a : List α) (b : List β) (x : α) (y : β),
      (x, y) ∈ a.product b ↔ x ∈ a ∧ y ∈ b := fun a b x y => List.mem_product
  simp only [h, List.mem_range]
  have := length_le_sum G i.prod
  omega

theorem add_aux_fresh (G : List (List lit)) (N : List Nat) (S0 : List item) :
    ∀ m c i, fresh S0 c → fresh S0 (add_aux G N m c i) := by
  intro m
  induction m with
  | zero =>
    intro c i hc
    simp only [add_aux]
    split
    · exact hc
    · rename_i hS
      split
      · exact hc
      · refine ⟨hc.1, ?_⟩
        intro j hj
        rcases (mem_set_insert _ _ _ _).1 hj with rfl | hj
        · exact fun h0 => hS (hc.1 _ h0)
        · exact hc.2 j hj
  | succ m ih =>
    intro c i hc
    simp only [add_aux]
    split
    · exact hc
    · rename_i hS
      have hc1 : fresh S0 { c with t := set_insert item.lt i c.t } := by
        refine ⟨hc.1, ?_⟩
        intro j hj
        rcases (mem_set_insert _ _ _ _).1 hj with rfl | hj
        · exact fun h0 => hS (hc.1 _ h0)
        · exact hc.2 j hj
      split
      · exact hc
      · split
        · exact ih _ _ hc1
        · exact hc1

theorem add_fresh (G : List (List lit)) (N : List Nat) (S0 : List item) (c : cstate) (i : item)
    (hc : fresh S0 c) : fresh S0 (add G N c i) :=
  add_aux_fresh G N S0 _ c i hc

theorem complete_fresh (G : List (List lit)) (N : List Nat) (S0 : List item) (i : item)
    (c : cstate) (hc : fresh S0 c) : fresh S0 (complete G N i c) := by
  unfold complete
  refine list_foldl_inv _ (fresh S0) _ ?_ c hc
  intro c1 it _ hc1
  split
  · have := add_fresh G N S0 c1 ⟨i.set, it.prod, it.from_, it.dot + 1⟩ hc1
    exact ⟨this.1, this.2⟩
  · exact hc1

theorem predict_fresh (G : List (List lit)) (N : List Nat) (S0 : List item) (i : item)
    (c : cstate) (hc : fresh S0 c) : fresh S0 (predict G N i c) := by
  unfold predict
  refine list_foldl_inv _ (fresh S0) _ ?_ c hc
  intro c1 p _ hc1
  have := add_fresh G N S0 c1 ⟨i.set, p, i.set, 1⟩ hc1
  exact ⟨this.1, this.2⟩

theorem scan_fresh (G : List (List lit)) (S0 : List item) (i : item) (n : Nat) (ch : Char)
    (c : cstate) (hc : fresh S0 c) : fresh S0 (scan G i n ch c) := by
  unfold scan
  split
  · exact hc
  · exact ⟨fun j hj => (mem_set_insert _ _ _ _).2 (Or.inr (hc.1 j hj)), hc.2⟩

theorem process_fresh (G : List (List lit)) (N : List Nat) (s : List Char) (n : Nat)
    (S0 : List item) (c : cstate) (it : item) (hc : fresh S0 c) :
    fresh S0 (process G N s n c it) := by
  unfold process
  split
  · exact complete_fresh G N S0 it c hc
  · split
    · exact predict_fresh G N S0 it c hc
    · split
      · exact scan_fresh G S0 it n _ c hc
      · exact hc

/-- A round keeps every item and its pending items are new. -/
theorem round_fresh (G : List (List lit)) (N : List Nat) (s : List Char) (n : Nat)
    (c : cstate) :
    (∀ j, j ∈ c.S ∨ j ∈ c.t → j ∈ (round G N s n c).S) ∧
    (∀ j, j ∈ (round G N s n c).t → j ∉ c.S ∧ j ∉ c.t) := by
  have h : fresh (c.t.foldl (fun S i => set_insert item.lt i S) c.S) (round G N s n c) := by
    unfold round
    refine list_foldl_inv _ (fresh _) _ ?_ _ ⟨fun _ h => h, by simp⟩
    intro c1 it _ hc1
    exact process_fresh G N s n _ c1 it hc1
  constructor
  · intro j hj
    exact h.1 j ((mem_foldl_set_insert _ _ _ _).2 hj)
  · intro j hj
    have := h.2 j hj
    rw [mem_foldl_set_insert] at this
    tauto

theorem round_pending_lt (G : List (List lit)) (N : List Nat) (s : List Char) (n : Nat)
    (c : cstate) (hg : cgood G s (round G N s n c)) (ht : (round G N s n c).t ≠ []) :
    pending G s.length (round G N s n c) < pending G s.length c := by
  obtain ⟨h1, h2⟩ := round_fresh G N s n c
  unfold pending
  apply countP_lt_of_imp
  · intro u _ hu
    simp only [decide_eq_true_eq] at hu ⊢
    exact ⟨fun hS => hu.1 (h1 u (Or.inl hS)), fun hT => hu.1 (h1 u (Or.inr hT))⟩
  · obtain ⟨j, hj⟩ := List.exists_mem_of_ne_nil _ ht
    refine ⟨j, good_mem_all_items G s j (hg.2 j hj), ?_, ?_⟩
    · simpa using h2 j hj
    · simp only [decide_eq_false_iff_not, not_and, not_not]
      exact fun _ => hj

theorem closure_ne_diverge (G : List (List lit)) (N : List Nat) (s : List Char)
    (hwf : wf_grammar G) (hN : sound_nullables G N) (hs : ∀ ch, ch ∈ s → ch ≠ Char.ofNat 0)
    (n : Nat) : ∀ fuel c, cgood G s c → pending G s.length c < fuel →
      ∃ c1, closure G N s n fuel c = outcome.ret c1 := by
  intro fuel
  induction fuel with
  | zero => intro c _ h; omega
  | succ fuel ih =>
    intro c hc hlt
    simp only [closure]
    have hg := round_good G N s hwf hN hs n c hc
    split
    · exact ⟨_, rfl⟩
    · rename_i ht
      have := round_pending_lt G N s n c hg ht
      exact ih _ hg (by omega)

theorem pending_le (G : List (List lit)) (len : Nat) (c : cstate) :
    pending G len c ≤ item_bound G len := by
  unfold pending
  rw [← length_all_items]
  exact List.countP_le_length _

/-- The chart construction returns: no round limit is reached, nothing is
thrown. -/
theorem chart_returns (G : List (List lit)) (start : lit) (N : List Nat) (s : List Char)
    (hwf : wf_grammar G) (hN : sound_nullables G N) (hs : ∀ ch, ch ∈ s → ch ≠ Char.ofNat 0) :
    ∃ c, chart G start N s = outcome.ret c := by
  have key : ∀ (l : List Nat) (c : cstate), cgood G s c →
      ∃ c1, outcome.foldl (fun c n => closure G N s n (item_bound G s.length + 1) c) c l =
        outcome.ret c1 := by
    intro l
    induction l with
    | nil => intro c _; exact ⟨c, rfl⟩
    | cons n l ih =>
      intro c hc
      obtain ⟨c1, hc1⟩ := closure_ne_diverge G N s hwf hN hs n (item_bound G s.length + 1) c hc
        (by have := pending_le G s.length c; omega)
      obtain ⟨c2, hc2⟩ := ih c1 (closure_good G N s hwf hN hs n _ c c1 hc hc1)
      exact ⟨c2, by simp only [outcome.foldl, hc1, outcome.bind, hc2]⟩
  unfold chart
  apply key
  refine ⟨?_, by simp⟩
  refine list_foldl_inv _ (fun S : List item => ∀ i, i ∈ S → good G s i) _ ?_ _ (by simp)
  intro S n hn hS i hi
  rcases (mem_set_insert _ _ _ _).1 hi with rfl | hi
  · exact good_predicted G s _ n 0 hn (Nat.zero_le _)
  · exact hS i hi

/-- For a recognizer built by the constructor, `recognize` returns or throws:
the fuel of the model is never used up. -/
theorem recognize_ne_diverge (g : List (String × List (List String))) (s : String) :
    recognize (new g) s ≠ outcome.diverge := by
  obtain ⟨c, hc⟩ := chart_returns (new g).G (new g).start (new g).nullables (cstr s)
    (wf_new g) (sound_new g) (cstr_no_nul s)
  unfold recognize
  rw [hc]
  simp only [outcome.bind]
  have := forest_ne_diverge (new g).G (citem_of (new g) c.S) (cstr s)
    ((citem_of (new g) c.S).length + 1) [] (root_of (new g) (cstr s).length)
    (by have := unvisited_le_length (new g).G (citem_of (new g) c.S) []; omega)
  cases hf : forest (new g).G (citem_of (new g) c.S) (cstr s)
      ((citem_of (new g) c.S).length + 1) [] (root_of (new g) (cstr s).length) with
  | ret r => simp
  | throws e => simp
  | diverge => exact absurd hf this

/-! ### The verdict -/

theorem span_all (s : List Char) : span s 0 s.length = s := by
  simp [span]

/-- A verdict `true` is right: when `recognize(s)` returns true, `s` is in the
language of the grammar. -/
theorem verdict_sound (g : List (String × List (List String))) (s : String) (e1 : earley)
    (h : recognize (new g) s = outcome.ret (true, e1)) : in_language (new g) (cstr s) := by
  unfold recognize at h
  rw [outcome.bind_eq_ret] at h
  obtain ⟨c, hc, h⟩ := h
  rw [outcome.bind_eq_ret] at h
  obtain ⟨r, _, h⟩ := h
  simp only [outcome.ret.injEq, Prod.mk.injEq] at h
  obtain ⟨p, hp, hmem⟩ := (found_iff _ _ _ _).1 h.1
  have hgood := (chart_good _ _ _ _ (wf_new g) (sound_new g) (cstr_no_nul s) c hc).1 _ hmem
  have hd := (good_completed_derives _ _ _ (wf_new g) hgood (by simp [completed])).2
  simp only [get_nt, (sym_at_of_nts hp).1, span_all] at hd
  exact hd

/-! ### The loop of the constructor -/

theorem nullables_sweep_length : ∀ (Gs : List (List lit)) (N : List Nat),
    N.length ≤ (nullables_sweep Gs N).length ∧
    ((nullables_sweep Gs N).length = N.length → nullables_sweep Gs N = N) := by
  intro Gs
  induction Gs with
  | nil => intro N; exact ⟨le_refl _, fun _ => rfl⟩
  | cons p Gs ih =>
    intro N
    simp only [nullables_sweep]
    split
    · have h1 := set_insert_length (fun a b => decide (a < b)) (p.headD lit.eps).n N
      have h2 := ih (set_insert (fun a b => decide (a < b)) (p.headD lit.eps).n N)
      refine ⟨by omega, ?_⟩
      intro h
      have h3 := h1.2 (by omega)
      rw [h3] at h2 ⊢
      exact h2.2 (by rw [h3] at h; exact h)
    · exact ih N

theorem nullables_sweep_bound (G : List (List lit)) : ∀ (Gs : List (List lit)) (N : List Nat),
    (∀ p, p ∈ Gs → p ∈ G) → (N.Nodup ∧ ∀ k, k ∈ N → k ∈ G.map (fun p => (p.headD lit.eps).n)) →
    (nullables_sweep Gs N).Nodup ∧
      ∀ k, k ∈ nullables_sweep Gs N → k ∈ G.map (fun p => (p.headD lit.eps).n) := by
  intro Gs
  induction Gs with
  | nil => intro N _ h; exact h
  | cons p Gs ih =>
    intro N hsub hN
    simp only [nullables_sweep]
    apply ih _ (fun q hq => hsub q (List.mem_cons_of_mem _ hq))
    split
    · refine ⟨set_insert_nodup _ _ _ hN.1, ?_⟩
      intro k hk
      rcases (mem_set_insert _ _ _ _).1 hk with rfl | hk
      · exact List.mem_map_of_mem _ (hsub p (List.mem_cons_self _ _))
      · exact hN.2 k hk
    · exact hN

theorem nullables_loop_fixed (G : List (List lit)) : ∀ (fuel : Nat) (N : List Nat),
    (N.Nodup ∧ ∀ k, k ∈ N → k ∈ G.map (fun p => (p.headD lit.eps).n)) →
    G.length + 1 ≤ N.length + fuel →
    nullables_sweep G (nullables_loop G fuel N) = nullables_loop G fuel N := by
  intro fuel
  induction fuel with
  | zero =>
    intro N hN hlen
    have h1 : N.length ≤ (G.map (fun p => (p.headD lit.eps).n)).length :=
      (List.subperm_of_subset hN.1 hN.2).length_le
    rw [List.length_map] at h1
    omega
  | succ fuel ih =>
    intro N hN hlen
    simp only [nullables_loop]
    have hl := nullables_sweep_length G N
    split
    · rename_i heq
      rw [hl.2 heq]
      exact hl.2 heq
    · rename_i hne
      apply ih _ (nullables_sweep_bound G G N (fun _ h => h) hN)
      omega

/-- The loop of the constructor that computes `nullables` ends by its own
test: another sweep over `G` adds nothing to the set. -/
theorem nullables_fixed (g : List (String × List (List String))) :
    nullables_sweep (new g).G (new g).nullables = (new g).nullables :=
  nullables_loop_fixed (new g).G _ [] ⟨List.nodup_nil, by simp⟩ (by unfold new; simp)

end earley

/-! ## The claims -/

namespace earley

/-- C6 (scenario E1): for `S → b | S S` on "bbb" `recognize` returns true and
the entry of the root `(S, 0, 3)` in `pfgraph` has exactly the two packings
`[S(0,1), S(1,3)]` and `[S(0,2), S(2,3)]`. -/
theorem scenario_E1 :
    (new g_E1).start = lit.of_n 0 ∧
    verdict (recognize (new g_E1) "bbb") = outcome.ret true ∧
    ∃ ps, packings (recognize (new g_E1) "bbb") (nd 0 0 3) = some ps ∧ ps.length = 2 ∧
      ∀ p, p ∈ ps ↔ p = [nd 0 0 1, nd 0 1 3] ∨ p = [nd 0 0 2, nd 0 2 3] := by
  refine ⟨by decide, by decide, [[nd 0 0 1, nd 0 1 3], [nd 0 0 2, nd 0 2 3]], by decide,
    by decide, ?_⟩
  intro p
  simp

/-- C7 (scenario E2): for `S → b | S` on "b" `recognize` returns true (so the
forest construction terminates) and the entry of `(S, 0, 1)` in `pfgraph` has
exactly the two packings `[b(0,1)]` and `[S(0,1)]`. -/
theorem scenario_E2 :
    (new g_E2).start = lit.of_n 0 ∧
    verdict (recognize (new g_E2) "b") = outcome.ret true ∧
    ∃ ps, packings (recognize (new g_E2) "b") (nd 0 0 1) = some ps ∧ ps.length = 2 ∧
      ∀ p, p ∈ ps ↔ p = [tm 'b' 0 1] ∨ p = [nd 0 0 1] := by
  refine ⟨by decide, by decide, [[nd 0 0 1], [tm 'b' 0 1]], by decide, by decide, ?_⟩
  intro p
  simp [or_comm]

/-- C8 (scenario E3): for `S → a X X c`, `X → X b | ε` on "abbc" `recognize`
returns true; the keys `(X,1,1)`, `(X,1,2)`, `(X,2,2)`, `(X,2,3)`, `(X,1,3)`
are present with the packing sets `[ε]`, `[X(1,1), b]`, `[ε]`, `[X(2,2), b]`,
`[X(1,2), b]`; and the packings of the root `(S,0,4)` are exactly
`[a, X(1,k), X(k,3), c]` for `k = 1, 2, 3`. -/
theorem scenario_E3 :
    (new g_E3).start = lit.of_n 0 ∧ (new g_E3).d = ["S", "X"] ∧
    verdict (recognize (new g_E3) "abbc") = outcome.ret true ∧
    packings (recognize (new g_E3) "abbc") (nd 1 1 1) = some [[tm (Char.ofNat 0) 1 1]] ∧
    packings (recognize (new g_E3) "abbc") (nd 1 1 2) = some [[nd 1 1 1, tm 'b' 1 2]] ∧
    packings (recognize (new g_E3) "abbc") (nd 1 2 2) = some [[tm (Char.ofNat 0) 2 2]] ∧
    packings (recognize (new g_E3) "abbc") (nd 1 2 3) = some [[nd 1 2 2, tm 'b' 2 3]] ∧
    packings (recognize (new g_E3) "abbc") (nd 1 1 3) = some [[nd 1 1 2, tm 'b' 2 3]] ∧
    ∃ ps, packings (recognize (new g_E3) "abbc") (nd 0 0 4) = some ps ∧ ps.length = 3 ∧
      ∀ p, p ∈ ps ↔
        ∃ k, (k = 1 ∨ k = 2 ∨ k = 3) ∧ p = [tm 'a' 0 1, nd 1 1 k, nd 1 k 3, tm 'c' 3 4] := by
  refine ⟨by decide, by decide, by decide, by decide, by decide, by decide, by decide,
    by decide,
    [[tm 'a' 0 1, nd 1 1 1, nd 1 1 3, tm 'c' 3 4], [tm 'a' 0 1, nd 1 1 2, nd 1 2 3, tm 'c' 3 4],
     [tm 'a' 0 1, nd 1 1 3, nd 1 3 3, tm 'c' 3 4]], by decide, by decide, ?_⟩
  intro p
  constructor
  · intro h
    simp only [List.mem_cons, List.mem_singleton, List.not_mem_nil, or_false] at h
    rcases h with h | h | h
    · exact ⟨1, Or.inl rfl, h⟩
    · exact ⟨2, Or.inr (Or.inl rfl), h⟩
    · exact ⟨3, Or.inr (Or.inr rfl), h⟩
  · rintro ⟨k, hk | hk | hk, hp⟩ <;> subst hk <;> subst hp <;> simp

/-- The string "" is in the language of `S → ε`. -/
theorem eps_in_language : in_language (new g_eps) [] := by
  have hG : (new g_eps).G = [[lit.of_n 0, lit.eps]] := by decide
  have hs : (new g_eps).start = lit.of_n 0 := by decide
  unfold in_language
  rw [hG, hs]
  have h1 : derives [[lit.of_n 0, lit.eps]] [lit.eps] [] :=
    derives.eps _ _ _ (by decide) (by decide) derives.nil
  exact derives.rule (lit.of_n 0) [lit.of_n 0, lit.eps] [] [] [] (by decide) (by simp) (by simp)
    h1 derives.nil

/-- C1 (completeness) at the failing input: "" is in the language of `S → ε`,
yet `recognize("")` returns false: the seed items are put into `S` directly,
without the nullable advance `add` gives every other item. -/
theorem completeness_fails_on_eps :
    in_language (new g_eps) (cstr "") ∧
    verdict (recognize (new g_eps) "") = outcome.ret false :=
  ⟨eps_in_language, by decide⟩

/-- C3 (never throws) at the failing input: for `S → X b`, `X → a | a b` on
"ab" the walk of `sbl_chd_forest` tries the child `X(0,2)` and then reads
`inputstr.at(2)`, which throws `std::out_of_range`. -/
theorem recognize_throws_out_of_range :
    recognize (new g_at) "ab" = outcome.throws exn.out_of_range := by
  decide

/-- C5 (ambiguity coverage) at the failing input: "" has a derivation from
`S` in `S → ε`, but after `recognize("")` the forest `pfgraph` is empty, so no
packing exists for the root `(S, 0, 0)`. -/
theorem coverage_fails_on_eps :
    in_language (new g_eps) (cstr "") ∧
    ∃ e1, recognize (new g_eps) "" = outcome.ret (false, e1) ∧ e1.pfgraph = [] ∧
      packings (recognize (new g_eps) "") (root_of (new g_eps) 0) = none := by
  refine ⟨eps_in_language, ?_⟩
  have h : ∃ e1, recognize (new g_eps) "" = outcome.ret (false, e1) := by
    cases hr : recognize (new g_eps) "" with
    | ret x =>
      have hv : verdict (recognize (new g_eps) "") = outcome.ret false := by decide
      rw [hr] at hv
      simp only [verdict, outcome.bind, outcome.ret.injEq] at hv
      exact ⟨x.2, by rw [← hv]⟩
    | throws e =>
      have hv : verdict (recognize (new g_eps) "") = outcome.ret false := by decide
      rw [hr] at hv
      simp [verdict, outcome.bind] at hv
    | diverge =>
      have hv : verdict (recognize (new g_eps) "") = outcome.ret false := by decide
      rw [hr] at hv
      simp [verdict, outcome.bind] at hv
  obtain ⟨e1, he1⟩ := h
  have hp : (match recognize (new g_eps) "" with
      | outcome.ret x => x.2.pfgraph
      | _ => []) = [] := by decide
  refine ⟨e1, he1, ?_, by decide⟩
  rw [he1] at hp
  exact hp

/-- C4 (SPPF finiteness): started as `recognize` starts it (empty `pfgraph`,
fuel `citem.size() + 1`), `forest(root)` returns or throws, it never runs out
of fuel; the keys of the resulting `pfgraph` are pairwise distinct; a call on
a node that is already a key returns false at once and leaves `pfgraph` as it
is, so a key is not expanded a second time; every call keeps the keys present
before it; and a call that expands a node with a completed item leaves the
node as a key. -/
theorem forest_finite (G : List (List lit)) (citem : List item) (inputstr : List Char)
    (root : lit) :
    forest G citem inputstr (citem.length + 1) [] root ≠ outcome.diverge ∧
    (∀ r, forest G citem inputstr (citem.length + 1) [] root = outcome.ret r →
      (r.2.map Prod.fst).Nodup) ∧
    (∀ fuel (pf : ptree_t) k, (map_find k pf).isSome = true →
      forest G citem inputstr (fuel + 1) pf k = outcome.ret (false, pf)) ∧
    (∀ fuel (pf : ptree_t) k r, forest G citem inputstr fuel pf k = outcome.ret r →
      ∀ k1, k1 ∈ pf.map Prod.fst → k1 ∈ r.2.map Prod.fst) ∧
    (∀ fuel (pf : ptree_t) k r, k.nt = true → map_find k pf = none →
      find_all G citem k.from_ k.n k.to_ ≠ [] →
      forest G citem inputstr (fuel + 1) pf k = outcome.ret r → k ∈ r.2.map Prod.fst) := by
  refine ⟨?_, ?_, ?_, ?_, ?_⟩
  · apply forest_ne_diverge
    have := unvisited_le_length G citem []
    omega
  · intro r hr
    exact (forest_keeps G citem inputstr _ _ _ _ hr).2 List.nodup_nil
  · intro fuel pf k hk
    simp only [forest, hk, if_true]
    split <;> rfl
  · intro fuel pf k r hr
    exact (forest_keeps G citem inputstr _ _ _ _ hr).1
  · intro fuel pf k r hnt hvis hne hr
    exact (forest_root_key G citem inputstr fuel pf k r hnt hvis hne hr).2

/-- Witness of C4 on the forest of scenario E2 (`S → b | S` on "b"): the call
returns with the single key `(S, 0, 1)`. -/
theorem forest_finite_witness :
    ∃ r, forest (new g_E2).G [⟨1, 0, 0, 2⟩, ⟨1, 1, 0, 2⟩] [Char.ofNat 98]
        ([(⟨1, 0, 0, 2⟩ : item), ⟨1, 1, 0, 2⟩].length + 1) [] (nd 0 0 1) = outcome.ret r ∧
      (r.2.map Prod.fst).Nodup ∧ nd 0 0 1 ∈ r.2.map Prod.fst :=
  ⟨(true, [(nd 0 0 1, [[nd 0 0 1], [tm (Char.ofNat 98) 0 1]])]), by decide,
    (forest_finite (new g_E2).G [⟨1, 0, 0, 2⟩, ⟨1, 1, 0, 2⟩] [Char.ofNat 98] (nd 0 0 1)).2.1 _
      (by decide),
    (forest_finite (new g_E2).G [⟨1, 0, 0, 2⟩, ⟨1, 1, 0, 2⟩] [Char.ofNat 98] (nd 0 0 1)).2.2.2.2
      2 [] (nd 0 0 1) _ (by decide) (by decide) (by decide) (by decide)⟩

/-- C9 (recognition verdict) at the failing input: for `S → X b`,
`X → a | a b` on "ab" the final chart holds the item `(2, p, 0, |G[p]|)` of
the start production `p = 0`, but `recognize` does not return true: the
forest walk that runs before the `return` throws `std::out_of_range`. -/
theorem verdict_lost_on_throw :
    0 ∈ nts (new g_at).G (new g_at).start ∧
    (⟨(cstr "ab").length, 0, 0, (P (new g_at).G 0).length⟩ : item) ∈
      chart_items (chart (new g_at).G (new g_at).start (new g_at).nullables (cstr "ab")) ∧
    verdict (recognize (new g_at) "ab") = outcome.throws exn.out_of_range := by
  refine ⟨by decide, by decide, by decide⟩

/-- C10 (grammar rejection): on a freshly constructed recognizer, when
`recognize(s)` returns false `pfgraph` has no entry for the root key
`(start, 0, |s|)`, and when it returns true the root key is present. -/
theorem root_key_of_verdict (g : List (String × List (List String))) (s : String) :
    (verdict (recognize (new g) s) = outcome.ret false →
      packings (recognize (new g) s) (root_of (new g) (cstr s).length) = none) ∧
    (verdict (recognize (new g) s) = outcome.ret true →
      (packings (recognize (new g) s) (root_of (new g) (cstr s).length)).isSome = true) := by
  cases hr : recognize (new g) s with
  | ret x =>
    obtain ⟨b, e1⟩ := x
    have h := (recognize_new_ret g s b e1 hr).2
    simp only [verdict, outcome.bind, outcome.ret.injEq, packings]
    constructor
    · intro hb
      subst hb
      cases hf : map_find (root_of (new g) (cstr s).length) e1.pfgraph with
      | none => rfl
      | some v => rw [hf] at h; simp at h
    · intro hb
      exact h.1 hb
  | throws e => simp [verdict, outcome.bind]
  | diverge => simp [verdict, outcome.bind]

/-- Witness of C10: `S → ε` on "" returns false and has no root key;
`S → b | S` on "b" returns true and has the root key. -/
theorem root_key_of_verdict_witness :
    (verdict (recognize (new g_eps) "") = outcome.ret false ∧
      packings (recognize (new g_eps) "") (root_of (new g_eps) (cstr "").length) = none) ∧
    (verdict (recognize (new g_E2) "b") = outcome.ret true ∧
      (packings (recognize (new g_E2) "b") (root_of (new g_E2) (cstr "b").length)).isSome
        = true) :=
  ⟨⟨by decide, (root_key_of_verdict g_eps "").1 (by decide)⟩,
    ⟨by decide, (root_key_of_verdict g_E2 "b").2 (by decide)⟩⟩

/-- C2 (Earley soundness): every completed item `(n, p, f, |p|)` of the chart
`recognize(s)` builds lies within the input (`f ≤ n ≤ |s|`), the right-hand
side of its production `p` derives the substring `s[f..n)`, and so its
left-hand side derives `s[f..n)` with `p` as the first step; ε-terminals
derive the empty string. -/
theorem chart_sound (g : List (String × List (List String))) (s : String) (i : item)
    (hi : i ∈ chart_items (chart (new g).G (new g).start (new g).nullables (cstr s)))
    (hc : completed (new g).G i = true) :
    i.from_ ≤ i.set ∧ i.set ≤ (cstr s).length ∧ P (new g).G i.prod ∈ (new g).G ∧
    (P (new g).G i.prod).head? = some (get_nt (new g).G i) ∧ (get_nt (new g).G i).nt = true ∧
    derives (new g).G (P (new g).G i.prod).tail (span (cstr s) i.from_ i.set) ∧
    derives (new g).G [get_nt (new g).G i] (span (cstr s) i.from_ i.set) := by
  cases hch : chart (new g).G (new g).start (new g).nullables (cstr s) with
  | ret c =>
    rw [hch] at hi
    simp only [chart_items] at hi
    have hgood := (chart_good _ _ _ _ (wf_new g) (sound_new g) (cstr_no_nul s) c hch).1 i hi
    have hd := good_completed_derives _ _ i (wf_new g) hgood hc
    have hp := P_mem (new g).G i.prod hgood.2.2.1
    obtain ⟨k, hk⟩ := (wf_new g _ hp).1
    have hnt : get_nt (new g).G i = lit.of_n k := by
      unfold get_nt sym_at
      cases hP : P (new g).G i.prod with
      | nil => rw [hP] at hk; simp at hk
      | cons a l => rw [hP] at hk; simp at hk; simp [hk]
    exact ⟨hgood.1, hgood.2.1, hp, by rw [hnt]; exact hk, by rw [hnt]; rfl, hd.1, hd.2⟩
  | throws e => rw [hch] at hi; simp [chart_items] at hi
  | diverge => rw [hch] at hi; simp [chart_items] at hi

/-- Witness of C2: the completed item `(1, S → b ., 0, 2)` in the chart of
`S → b | S` on "b". -/
theorem chart_sound_witness :
    (⟨1, 0, 0, 2⟩ : item) ∈
      chart_items (chart (new g_E2).G (new g_E2).start (new g_E2).nullables (cstr "b")) ∧
    completed (new g_E2).G ⟨1, 0, 0, 2⟩ = true ∧
    derives (new g_E2).G [get_nt (new g_E2).G ⟨1, 0, 0, 2⟩] (span (cstr "b") 0 1) :=
  ⟨by decide, by decide, (chart_sound g_E2 "b" ⟨1, 0, 0, 2⟩ (by decide) (by decide)).2.2.2.2.2.2⟩

end earley

/-! ## The constructor: nullables and the encoding of the grammar -/

namespace earley

theorem all_nulls_iff (N : List Nat) (p : List lit) :
    all_nulls N p = true ↔ ∀ l, l ∈ p.tail → null_sym N l := by
  unfold all_nulls null_sym
  rw [List.all_eq_true]
  constructor
  · intro h l hl
    have := h l hl
    cases hnt : l.nt <;> simp [hnt] at this ⊢ <;> exact this
  · intro h l hl
    have := h l hl
    cases hnt : l.nt <;> simp [hnt] at this ⊢ <;> exact this

theorem nullables_sweep_fixed_mem : ∀ (Gs : List (List lit)) (N : List Nat),
    nullables_sweep Gs N = N → ∀ p, p ∈ Gs → all_nulls N p = true → (p.headD lit.eps).n ∈ N := by
  intro Gs
  induction Gs with
  | nil => intro N _ p hp; simp at hp
  | cons q Gs ih =>
    intro N hfix p hp hall
    simp only [nullables_sweep] at hfix
    have hlen1 : N.length ≤ (if all_nulls N q = true then
        set_insert (fun a b => decide (a < b)) (q.headD lit.eps).n N else N).length := by
      split
      · exact (set_insert_length _ _ _).1
      · exact le_refl _
    have hlen2 := (nullables_sweep_length Gs (if all_nulls N q = true then
        set_insert (fun a b => decide (a < b)) (q.headD lit.eps).n N else N)).1
    rw [hfix] at hlen2
    have hN1 : (if all_nulls N q = true then
        set_insert (fun a b => decide (a < b)) (q.headD lit.eps).n N else N) = N := by
      split
      · exact (set_insert_length _ _ _).2 (by
          rename_i hq
          simp only [hq, if_true] at hlen1 hlen2
          omega)
      · rfl
    rw [hN1] at hfix
    rcases List.mem_cons.1 hp with rfl | hp
    · simp only [hall, if_true] at hN1
      rw [← hN1]
      exact (mem_set_insert _ _ _ _).2 (Or.inl rfl)
    · exact ih N hfix p hp hall

/-- The set `nullables` of the constructor is closed under the rule. -/
theorem null_closed_new (g : List (String × List (List String))) :
    null_closed (new g).G (new g).nullables := by
  intro A p hp hhead hall
  have := nullables_sweep_fixed_mem (new g).G (new g).nullables (nullables_fixed g) p hp
    ((all_nulls_iff _ _).2 hall)
  have hh : p.headD lit.eps = lit.of_n A := by
    cases p with
    | nil => simp at hhead
    | cons a l => simp at hhead; simp [hhead]
  rw [hh] at this
  exact this

theorem null_sym_mono {N N1 : List Nat} (h : ∀ k, k ∈ N → k ∈ N1) (l : lit)
    (hl : null_sym N l) : null_sym N1 l := by
  rcases hl with hl | hl
  · exact Or.inl hl
  · exact Or.inr ⟨hl.1, h _ hl.2⟩

theorem nullables_sweep_least (G : List (List lit)) (hwf : wf_grammar G) (N1 : List Nat)
    (hcl : null_closed G N1) : ∀ (Gs : List (List lit)) (N : List Nat),
    (∀ p, p ∈ Gs → p ∈ G) → (∀ k, k ∈ N → k ∈ N1) →
      ∀ k, k ∈ nullables_sweep Gs N → k ∈ N1 := by
  intro Gs
  induction Gs with
  | nil => intro N _ hN; exact hN
  | cons p Gs ih =>
    intro N hsub hN
    simp only [nullables_sweep]
    apply ih _ (fun q hq => hsub q (List.mem_cons_of_mem _ hq))
    split
    · rename_i hall
      intro k hk
      rcases (mem_set_insert _ _ _ _).1 hk with rfl | hk
      · have hp := hsub p (List.mem_cons_self _ _)
        obtain ⟨A, hA⟩ := (hwf p hp).1
        have hh : p.headD lit.eps = lit.of_n A := by
          cases p with
          | nil => simp at hA
          | cons a l => simp at hA; simp [hA]
        rw [hh]
        exact hcl A p hp hA (fun l hl => null_sym_mono hN l ((all_nulls_iff _ _).1 hall l hl))
      · exact hN k hk
    · exact hN

theorem nullables_loop_least (G : List (List lit)) (hwf : wf_grammar G) (N1 : List Nat)
    (hcl : null_closed G N1) : ∀ (fuel : Nat) (N : List Nat), (∀ k, k ∈ N → k ∈ N1) →
      ∀ k, k ∈ nullables_loop G fuel N → k ∈ N1 := by
  intro fuel
  induction fuel with
  | zero => intro N hN; exact hN
  | succ fuel ih =>
    intro N hN
    simp only [nullables_loop]
    have := nullables_sweep_least G hwf N1 hcl G N (fun _ h => h) hN
    split
    · exact this
    · exact ih _ this

theorem derives_eps_null_sym (G : List (List lit)) (N : List Nat) (hcl : null_closed G N)
    (hwf : wf_grammar G) {α : List lit} {w : List Char} (h : derives G α w) :
    w = [] → ∀ l, l ∈ α → null_sym N l := by
  induction h with
  | nil => intro _ l hl; simp at hl
  | eps l rest w hnt hc _ ih =>
    intro hw l1 hl1
    rcases List.mem_cons.1 hl1 with rfl | hl1
    · exact Or.inl ⟨hnt, hc⟩
    · exact ih hw l1 hl1
  | chr l rest w hnt hc _ _ => intro hw; simp at hw
  | rule l p rest u w hnt hp hh _ _ ih1 ih2 =>
    intro hw l1 hl1
    have hu : u = [] := (List.append_eq_nil.1 hw).1
    have hw2 : w = [] := (List.append_eq_nil.1 hw).2
    rcases List.mem_cons.1 hl1 with rfl | hl1
    · obtain ⟨A, hA⟩ := (hwf p hp).1
      have hl : l1 = lit.of_n A := by rw [hA] at hh; exact (Option.some.inj hh).symm
      refine Or.inr ⟨hnt, ?_⟩
      rw [hl]
      exact hcl A p hp hA (ih1 hu)
    · exact ih2 hw2 l1 hl1

/-- C13 (nullables are the least fixed point): after construction a
non-terminal `A` is in `nullables` if and only if `A` derives the empty
string; `nullables` is closed under the rule "`A` is nullable when some
production of `A` has only ε-terminals and nullable non-terminals on its
right-hand side", and it is contained in every set closed under that rule. -/
theorem nullables_least_fixed_point (g : List (String × List (List String))) :
    (∀ A, A ∈ (new g).nullables ↔ derives (new g).G [lit.of_n A] []) ∧
    null_closed (new g).G (new g).nullables ∧
    (∀ N, null_closed (new g).G N → ∀ A, A ∈ (new g).nullables → A ∈ N) := by
  refine ⟨?_, null_closed_new g, ?_⟩
  · intro A
    constructor
    · exact sound_new g A
    · intro h
      have := derives_eps_null_sym _ _ (null_closed_new g) (wf_new g) h rfl (lit.of_n A)
        (List.mem_singleton.2 rfl)
      rcases this with h1 | h1
      · exact absurd h1.1 (by simp [lit.of_n, lit.nt])
      · exact h1.2
  · intro N hcl A hA
    exact nullables_loop_least (new g).G (wf_new g) N hcl _ [] (by simp) A hA

/-- Witness of C13 on `S → a X X c`, `X → X b | ε`: `X` (id 1) is nullable
and derives the empty string, `S` (id 0) is not nullable. -/
theorem nullables_least_fixed_point_witness :
    (1 ∈ (new g_E3).nullables ∧ derives (new g_E3).G [lit.of_n 1] []) ∧
    (0 ∉ (new g_E3).nullables ∧ ¬ derives (new g_E3).G [lit.of_n 0] []) :=
  ⟨⟨by decide, ((nullables_least_fixed_point g_E3).1 1).1 (by decide)⟩,
    ⟨by decide, fun h => absurd (((nullables_least_fixed_point g_E3).1 0).2 h) (by decide)⟩⟩

theorem dict_get_spec (d : dict) (s : String) :
    d <+: (dict.get d s).2 ∧ s ∈ (dict.get d s).2 ∧
      (dict.get d s).1 = (dict.get d s).2.indexOf s := by
  unfold dict.get
  split
  · rename_i h
    exact ⟨List.prefix_refl _, List.indexOf_lt_length.1 h, rfl⟩
  · rename_i h
    have hs : s ∉ d := fun hm => h (List.indexOf_lt_length.2 hm)
    refine ⟨List.prefix_append _ _, by simp, ?_⟩
    simp only
    rw [List.indexOf_append_of_not_mem hs]
    simp

theorem indexOf_of_prefix {d dF : dict} {s : String} (hp : d <+: dF) (hs : s ∈ d) :
    dF.indexOf s = d.indexOf s := by
  obtain ⟨e, rfl⟩ := hp
  exact List.indexOf_append_of_mem hs

theorem mk_rhs_enc (nt : List String) : ∀ (y : List String) (p : List lit) (d : dict),
    d <+: (mk_rhs nt y p d).2 ∧
    ∀ dF, (mk_rhs nt y p d).2 <+: dF → (mk_rhs nt y p d).1 = p ++ enc_rhs nt dF y := by
  intro y
  induction y with
  | nil => intro p d; exact ⟨List.prefix_refl _, fun dF _ => by simp [mk_rhs, enc_rhs]⟩
  | cons s y ih =>
    intro p d
    simp only [mk_rhs, enc_rhs, enc_sym]
    split
    · obtain ⟨h1, h2, h3⟩ := dict_get_spec d s
      obtain ⟨i1, i2⟩ := ih (p ++ [lit.of_n (dict.get d s).1]) (dict.get d s).2
      refine ⟨h1.trans i1, ?_⟩
      intro dF hF
      rw [i2 dF hF, h3, indexOf_of_prefix (i1.trans hF) h2]
      simp
    · split
      · obtain ⟨i1, i2⟩ := ih (p ++ [lit.eps]) d
        exact ⟨i1, fun dF hF => by rw [i2 dF hF]; simp⟩
      · obtain ⟨i1, i2⟩ := ih (p ++ s.data.map lit.of_c) d
        exact ⟨i1, fun dF hF => by rw [i2 dF hF]; simp⟩

theorem mk_alts_enc (nt : List String) (lhs : String) :
    ∀ (ys : List (List String)) (G : List (List lit)) (d : dict),
    d <+: (mk_alts nt lhs ys G d).2 ∧ (ys ≠ [] → lhs ∈ (mk_alts nt lhs ys G d).2) ∧
    ∀ dF, (mk_alts nt lhs ys G d).2 <+: dF →
      (mk_alts nt lhs ys G d).1 = G ++ ys.map (enc_alt nt dF lhs) := by
  intro ys
  induction ys with
  | nil => intro G d; exact ⟨List.prefix_refl _, by simp, fun dF _ => by simp [mk_alts]⟩
  | cons y ys ih =>
    intro G d
    simp only [mk_alts]
    obtain ⟨h1, h2, h3⟩ := dict_get_spec d lhs
    obtain ⟨r1, r2⟩ := mk_rhs_enc nt y [lit.of_n (dict.get d lhs).1] (dict.get d lhs).2
    obtain ⟨i1, _, i3⟩ := ih
      (G ++ [(mk_rhs nt y [lit.of_n (dict.get d lhs).1] (dict.get d lhs).2).1])
      (mk_rhs nt y [lit.of_n (dict.get d lhs).1] (dict.get d lhs).2).2
    refine ⟨(h1.trans r1).trans i1, fun _ => (r1.trans i1).subset h2, ?_⟩
    intro dF hF
    rw [i3 dF hF, r2 dF (i1.trans hF), h3, ← indexOf_of_prefix ((r1.trans i1).trans hF) h2]
    simp [enc_alt]

theorem mk_G_enc (nt : List String) :
    ∀ (g : List (String × List (List String))) (G : List (List lit)) (d : dict),
    d <+: (mk_G nt g G d).2 ∧ (∀ A, A ∈ lhs_names g → A ∈ (mk_G nt g G d).2) ∧
    ∀ dF, (mk_G nt g G d).2 <+: dF → (mk_G nt g G d).1 = G ++ encode_spec nt dF g := by
  intro g
  induction g with
  | nil =>
    intro G d
    exact ⟨List.prefix_refl _, by simp [lhs_names], fun dF _ => by simp [mk_G, encode_spec]⟩
  | cons x g ih =>
    intro G d
    simp only [mk_G]
    obtain ⟨a1, a2, a3⟩ := mk_alts_enc nt x.1 x.2 G d
    obtain ⟨i1, i2, i3⟩ := ih (mk_alts nt x.1 x.2 G d).1 (mk_alts nt x.1 x.2 G d).2
    refine ⟨a1.trans i1, ?_, ?_⟩
    · intro A hA
      simp only [lhs_names, List.mem_append, List.mem_map] at hA
      rcases hA with ⟨y, hy, rfl⟩ | hA
      · exact i1.subset (a2 (List.ne_nil_of_mem hy))
      · exact i2 A hA
    · intro dF hF
      rw [i3 dF hF, a3 dF (i1.trans hF)]
      simp [encode_spec]

theorem encode_spec_heads (names : List String) (d : dict) :
    ∀ g : List (String × List (List String)),
    (encode_spec names d g).map List.head? =
      (lhs_names g).map (fun A => some (lit.of_n (d.indexOf A))) := by
  intro g
  induction g with
  | nil => simp [encode_spec, lhs_names]
  | cons x g ih =>
    simp only [encode_spec, lhs_names, List.map_append, ih, List.map_map]
    congr 1

theorem mem_nts_iff (G : List (List lit)) (l : lit) (n : Nat) :
    n ∈ nts G l ↔ (G.map List.head?)[n]? = some (some l) := by
  unfold nts
  rw [List.mem_filter, List.mem_range]
  simp only [decide_eq_true_eq, List.getElem?_map]
  constructor
  · rintro ⟨h1, h2⟩
    rw [List.getElem?_eq_getElem h1]
    simp only [Option.map_some', Option.some.injEq]
    rw [← h2]
    unfold P
    rw [List.getD_eq_getElem _ _ h1]
  · intro h
    cases hg : G[n]? with
    | none => rw [hg] at h; simp at h
    | some p =>
      have hlt : n < G.length := by
        by_contra hc
        rw [List.getElem?_eq_none (by omega)] at hg
        simp at hg
      refine ⟨hlt, ?_⟩
      rw [hg] at h
      simp only [Option.map_some', Option.some.injEq] at h
      unfold P
      rw [List.getD_eq_getElem?_getD, hg]
      exact h

theorem indexOf_inj_left {d : dict} {A B : String} (hB : B ∈ d)
    (h : d.indexOf B = d.indexOf A) : B = A := by
  have hlt : d.indexOf B < d.length := List.indexOf_lt_length.2 hB
  have hA : A ∈ d := List.indexOf_lt_length.1 (h ▸ hlt)
  exact (List.indexOf_inj hB hA).1 h

/-- C14 (grammar encoding): the table `G` the constructor builds is the
encoding the spec words, one production per alternative in input order, with
the index in the dictionary `d` as the id of a name; every left-hand side
with an alternative is in `d`, different names have different ids, and `nts`
maps the literal of `A` to exactly the indices of the alternatives of `A`. -/
theorem grammar_encoding (g : List (String × List (List String))) :
    (new g).G = encode_spec (g.map Prod.fst) (new g).d g ∧
    (∀ A, A ∈ lhs_names g → A ∈ (new g).d) ∧
    (∀ A B, B ∈ (new g).d → (new g).d.indexOf B = (new g).d.indexOf A → B = A) ∧
    (∀ n A, n ∈ nts (new g).G (lit.of_n ((new g).d.indexOf A)) ↔ (lhs_names g)[n]? = some A) := by
  obtain ⟨h1, h2, h3⟩ := mk_G_enc (g.map Prod.fst) g [] []
  obtain ⟨p1, _, _⟩ := dict_get_spec (mk_G (g.map Prod.fst) g [] []).2 "S"
  have hd : (new g).d = (dict.get (mk_G (g.map Prod.fst) g [] []).2 "S").2 := rfl
  have hG : (new g).G = encode_spec (g.map Prod.fst) (new g).d g := by
    have := h3 (new g).d (by rw [hd]; exact p1)
    simpa using this
  have hmem : ∀ A, A ∈ lhs_names g → A ∈ (new g).d := fun A hA => by
    rw [hd]; exact p1.subset (h2 A hA)
  refine ⟨hG, hmem, fun A B hB h => indexOf_inj_left hB h, ?_⟩
  intro n A
  rw [mem_nts_iff, hG, encode_spec_heads, List.getElem?_map]
  cases hn : (lhs_names g)[n]? with
  | none => simp
  | some B =>
    simp only [Option.map_some', Option.some.injEq]
    constructor
    · intro h
      have h5 : (new g).d.indexOf B = (new g).d.indexOf A := by
        simpa [lit.of_n] using h
      exact indexOf_inj_left (hmem B (List.getElem?_mem hn)) h5
    · intro h; rw [h]

/-- Witness of C14 on `S → a X X c`, `X → X b | ε`: `X` is in the dictionary,
and production 1, the first alternative of `X`, is in `nts` of the literal of
`X`. -/
theorem grammar_encoding_witness :
    "X" ∈ (new g_E3).d ∧ (lhs_names g_E3)[1]? = some "X" ∧
    1 ∈ nts (new g_E3).G (lit.of_n ((new g_E3).d.indexOf "X")) :=
  ⟨(grammar_encoding g_E3).2.1 "X" (by decide), by decide,
    ((grammar_encoding g_E3).2.2.2 1 "X").2 (by decide)⟩

/-! ## Termination of the chart construction as a claim -/

/-- The recursion of `add` as the source writes it: the call on the item with
the dot moved on is a call of `add` itself. -/
theorem add_eq (G : List (List lit)) (N : List Nat) (c : cstate) (i : item) :
    add G N c i =
      if i ∈ c.S then c else if i ∈ c.t then c else
      if nullable G N i = true then
        { add G N { c with t := set_insert item.lt i c.t } ⟨i.set, i.prod, i.from_, i.dot + 1⟩ with
          advancers := set_insert edge_lt (⟨i.set, i.prod, i.from_, i.dot + 1⟩, i)
            (add G N { c with t := set_insert item.lt i c.t }
              ⟨i.set, i.prod, i.from_, i.dot + 1⟩).advancers }
      else { c with t := set_insert item.lt i c.t } := by
  unfold add
  cases hm : (P G i.prod).length - i.dot with
  | zero =>
    have hnull : nullable G N i = false := by
      unfold nullable
      have : ¬ i.dot < (P G i.prod).length := by omega
      simp [this]
    simp only [add_aux, hnull, Bool.false_eq_true, if_false]
  | succ m =>
    have hm2 : (P G i.prod).length - (i.dot + 1) = m := by omega
    simp only [add_aux, hm2]

theorem closure_t_nil (G : List (List lit)) (N : List Nat) (s : List Char) (n : Nat) :
    ∀ fuel c c1, closure G N s n fuel c = outcome.ret c1 → c1.t = [] := by
  intro fuel
  induction fuel with
  | zero => intro c c1 h; simp [closure] at h
  | succ fuel ih =>
    intro c c1 h
    simp only [closure] at h
    split at h
    · rename_i ht
      simp only [outcome.ret.injEq] at h
      rw [← h]; exact ht
    · exact ih _ _ h

theorem closure_is_round (G : List (List lit)) (N : List Nat) (s : List Char) (n : Nat) :
    ∀ fuel c c1, closure G N s n fuel c = outcome.ret c1 →
      ∃ c0, c1 = round G N s n c0 ∧ (round G N s n c0).t = [] := by
  intro fuel
  induction fuel with
  | zero => intro c c1 h; simp [closure] at h
  | succ fuel ih =>
    intro c c1 h
    simp only [closure] at h
    split at h
    · rename_i ht
      simp only [outcome.ret.injEq] at h
      exact ⟨c, h.symm, ht⟩
    · exact ih _ _ h

/-- C15 (chart closure terminates): for every grammar given to the
constructor and every input the chart construction of `recognize` returns a
chart; at every position and from every chart of items within the input the
`do ... while` loop returns after a round that added nothing to the pending
set `t`; and `add` obeys the recursion the source writes, the dot moving
towards the end of the production at every nested call. -/
theorem chart_terminates (g : List (String × List (List String))) (s : String) :
    (∃ c, chart (new g).G (new g).start (new g).nullables (cstr s) = outcome.ret c ∧ c.t = []) ∧
    (∀ n c, cgood (new g).G (cstr s) c →
      ∃ c0, closure (new g).G (new g).nullables (cstr s) n
          (item_bound (new g).G (cstr s).length + 1) c =
            outcome.ret (round (new g).G (new g).nullables (cstr s) n c0) ∧
        (round (new g).G (new g).nullables (cstr s) n c0).t = []) ∧
    (∀ c i, add (new g).G (new g).nullables c i =
      if i ∈ c.S then c else if i ∈ c.t then c else
      if nullable (new g).G (new g).nullables i = true then
        { add (new g).G (new g).nullables { c with t := set_insert item.lt i c.t }
            ⟨i.set, i.prod, i.from_, i.dot + 1⟩ with
          advancers := set_insert edge_lt (⟨i.set, i.prod, i.from_, i.dot + 1⟩, i)
            (add (new g).G (new g).nullables { c with t := set_insert item.lt i c.t }
              ⟨i.set, i.prod, i.from_, i.dot + 1⟩).advancers }
      else { c with t := set_insert item.lt i c.t }) := by
  refine ⟨?_, ?_, fun c i => add_eq _ _ c i⟩
  · obtain ⟨c, hc⟩ := chart_returns (new g).G (new g).start (new g).nullables (cstr s)
      (wf_new g) (sound_new g) (cstr_no_nul s)
    refine ⟨c, hc, ?_⟩
    unfold chart at hc
    refine outcome.foldl_inv _ (fun c : cstate => c.t = []) _ ?_ _ _ rfl hc
    intro c1 n c2 _ _ hstep
    exact closure_t_nil _ _ _ n _ c1 c2 hstep
  · intro n c hc
    obtain ⟨c1, hc1⟩ := closure_ne_diverge (new g).G (new g).nullables (cstr s)
      (wf_new g) (sound_new g) (cstr_no_nul s) n (item_bound (new g).G (cstr s).length + 1) c hc
      (by have := pending_le (new g).G (cstr s).length c; omega)
    obtain ⟨c0, h0, h1⟩ := closure_is_round _ _ _ n _ c c1 hc1
    exact ⟨c0, by rw [hc1, h0], h1⟩

/-- Witness of C15 on `S → b | S S` and "bbb": the chart construction
returns, with nothing pending, and the loop at position 0 returns from the
seeded chart. -/
theorem chart_terminates_witness :
    (∃ c, chart (new g_E1).G (new g_E1).start (new g_E1).nullables (cstr "bbb") =
      outcome.ret c ∧ c.t = []) ∧
    ∃ c0, closure (new g_E1).G (new g_E1).nullables (cstr "bbb") 0
        (item_bound (new g_E1).G (cstr "bbb").length + 1)
        { S := [], t := [], advancers := [], completers := [] } =
          outcome.ret (round (new g_E1).G (new g_E1).nullables (cstr "bbb") 0 c0) ∧
      (round (new g_E1).G (new g_E1).nullables (cstr "bbb") 0 c0).t = [] :=
  ⟨(chart_terminates g_E1 "bbb").1,
    (chart_terminates g_E1 "bbb").2.1 0 { S := [], t := [], advancers := [], completers := [] }
      ⟨by simp, by simp⟩⟩

end earley

/-! ## The iterator of the union-find and the poset -/

namespace poset

/-- C16 (poset invariant I3), with the range of the fields stated: for a poset
whose `eqs` and `imps` are not negative, as identities are, if `only_vars`
holds then `eqs = 0` and `imps = 0` (and `vars > 0`). For other field values
the test `eqs + imps == 0` does not give this (`only_vars_negative_imps`). -/
theorem only_vars_eqs_imps (p : poset) (he : 0 ≤ p.eqs) (hi : 0 ≤ p.imps)
    (h : only_vars p = true) : p.eqs = 0 ∧ p.imps = 0 ∧ 0 < p.vars := by
  unfold only_vars at h
  simp only [Bool.and_eq_true, decide_eq_true_eq] at h
  unfold int_t at *
  omega

/-- Witness of C16: the poset with `vars = 3` and no equalities or
implications. -/
theorem only_vars_eqs_imps_witness :
    only_vars { vars := 3 } = true ∧
    ({ vars := 3 } : poset).eqs = 0 ∧ ({ vars := 3 } : poset).imps = 0 ∧
    0 < ({ vars := 3 } : poset).vars :=
  ⟨by decide, only_vars_eqs_imps { vars := 3 } (by decide) (by decide) (by decide)⟩

end poset

namespace pu_iterator

theorem incr_iterate (link : Nat → int_t) (x : int_t) : ∀ j,
    ((incr link)^[j] (begin_ (new x))).val.natAbs = (next_index link)^[j] x.natAbs ∧
    ((incr link)^[j] (begin_ (new x))).looped = decide (0 < j) ∧
    ((incr link)^[j] (begin_ (new x))).end_val = x := by
  intro j
  induction j with
  | zero => simp [begin_, new]
  | succ j ih =>
    rw [Function.iterate_succ_apply', Function.iterate_succ_apply']
    obtain ⟨h1, h2, h3⟩ := ih
    refine ⟨?_, ?_, ?_⟩
    · simp only [incr]
      rw [← h1]
      unfold next_index
      split <;> simp
    · have : (incr link ((incr link)^[j] (begin_ (new x)))).looped = true := by
        simp only [incr]
        cases ((incr link)^[j] (begin_ (new x))).looped <;> rfl
      rw [this]
      simp
    · simp only [incr]; exact h3

/-- C17 (iterator wraparound): when the link entries starting at `|x|` form a
cycle of `k ≥ 1` distinct indices, `begin()` differs from `end()`, the
iterator differs from `end()` after fewer than `k` applications of `++` and
equals it after exactly `k`, and the values met on the way are, up to sign,
the `k` members of the cycle, each once. -/
theorem iterator_wraparound (link : Nat → int_t) (x : int_t) (k : Nat) (hk : 1 ≤ k)
    (hcyc : (next_index link)^[k] x.natAbs = x.natAbs)
    (hdist : ∀ j, j < k → ∀ i, i < j →
      (next_index link)^[i] x.natAbs ≠ (next_index link)^[j] x.natAbs) :
    ne (begin_ (new x)) (end_ (new x)) = true ∧
    eq (begin_ (new x)) (end_ (new x)) = false ∧
    (∀ j, j < k → ne ((incr link)^[j] (begin_ (new x))) (end_ (new x)) = true) ∧
    eq ((incr link)^[k] (begin_ (new x))) (end_ (new x)) = true ∧
    ne ((incr link)^[k] (begin_ (new x))) (end_ (new x)) = false ∧
    (∀ j, j < k → (deref ((incr link)^[j] (begin_ (new x)))).natAbs =
      (next_index link)^[j] x.natAbs) ∧
    (∀ i j, i < j → j < k → (deref ((incr link)^[i] (begin_ (new x)))).natAbs ≠
      (deref ((incr link)^[j] (begin_ (new x)))).natAbs) := by
  have hend : (end_ (new x)).val.natAbs = x.natAbs ∧ (end_ (new x)).looped = true := by
    simp [end_, new]
  refine ⟨by simp [ne, begin_, end_, new], by simp [eq, begin_, end_, new], ?_, ?_, ?_, ?_, ?_⟩
  · intro j hj
    obtain ⟨h1, h2, _⟩ := incr_iterate link x j
    simp only [ne, h1, h2, hend.1, hend.2, Bool.or_eq_true, decide_eq_true_eq]
    rcases Nat.eq_zero_or_pos j with h0 | h0
    · right; simp [h0]
    · left
      intro hc
      exact hdist j hj 0 h0 (by simpa using hc.symm)
  · obtain ⟨h1, h2, _⟩ := incr_iterate link x k
    have hk0 : 0 < k := by omega
    simp [eq, h1, h2, hend.1, hend.2, hcyc, hk0]
  · obtain ⟨h1, h2, _⟩ := incr_iterate link x k
    have hk0 : 0 < k := by omega
    simp [ne, h1, h2, hend.1, hend.2, hcyc, hk0]
  · intro j _
    exact (incr_iterate link x j).1
  · intro i j hij hj
    simp only [deref]
    rw [(incr_iterate link x i).1, (incr_iterate link x j).1]
    exact hdist j hj i hij

/-- Witness of C17: the class `0 → 2 → 1 → 0` with a negative link entry. -/
theorem iterator_wraparound_witness :
    eq ((incr (fun i => if i = 0 then -2 else if i = 2 then 1 else 0))^[3] (begin_ (new 0)))
      (end_ (new 0)) = true ∧
    ne ((incr (fun i => if i = 0 then -2 else if i = 2 then 1 else 0))^[2] (begin_ (new 0)))
      (end_ (new 0)) = true :=
  ⟨(iterator_wraparound (fun i => if i = 0 then -2 else if i = 2 then 1 else 0) 0 3 (by decide)
      (by decide)
      (by decide)).2.2.2.1,
    (iterator_wraparound (fun i => if i = 0 then -2 else if i = 2 then 1 else 0) 0 3 (by decide)
      (by decide)
      (by decide)).2.2.1 2
      (by decide)⟩

/-- C18 (iterator polarity): the constructor sets `negate` to `val < 0`;
`++` yields the stored link entry, negated exactly when `negate` was set,
flips `negate` exactly when the stored entry is negative, and leaves
`negate = (val < 0)` whenever the new value is not zero; `update_pos(v)` keeps
`negate = (val < 0)` when the old value and `v` are both not zero. -/
theorem iterator_polarity (link : Nat → int_t) :
    (∀ v, (new v).negate = decide (v < 0)) ∧
    (∀ it, (incr link it).val =
        (if it.negate = true then -(link it.val.natAbs) else link it.val.natAbs) ∧
      (incr link it).negate =
        (if link it.val.natAbs < 0 then !it.negate else it.negate) ∧
      ((incr link it).val ≠ 0 → (incr link it).negate = decide ((incr link it).val < 0))) ∧
    (∀ it v, it.val ≠ 0 → v ≠ 0 → it.negate = decide (it.val < 0) →
      (update_pos it v).val = v ∧ (update_pos it v).negate = decide (v < 0)) := by
  refine ⟨fun v => rfl, ?_, ?_⟩
  · intro it
    cases hn : it.negate
    · simp only [incr, hn, Bool.false_eq_true, if_false, Bool.not_false]
      refine ⟨trivial, trivial, ?_⟩
      intro _
      by_cases h : link it.val.natAbs < 0 <;> simp [h]
    · simp only [incr, hn, if_true, neg_neg, Bool.not_true]
      refine ⟨trivial, trivial, ?_⟩
      intro hne
      by_cases h : link it.val.natAbs < 0
      · simp only [h, if_true]
        symm
        simp only [decide_eq_false_iff_not]
        unfold int_t at *
        omega
      · simp only [h, if_false]
        symm
        simp only [decide_eq_true_eq]
        have : -(link it.val.natAbs) ≠ 0 := hne
        unfold int_t at *
        omega
  · intro it v h0 hv hinv
    refine ⟨rfl, ?_⟩
    simp only [update_pos, hinv]
    have key : ∀ a b : Int, a ≠ 0 → b ≠ 0 →
        (if (b < 0 ∧ a > 0) ∨ (b > 0 ∧ a < 0) then !decide (a < 0) else decide (a < 0)) =
          decide (b < 0) := by
      intro a b ha hb
      by_cases h1 : b < 0 <;> by_cases h2 : a < 0
      · have h3 : ¬ a > 0 := by omega
        have h4 : ¬ b > 0 := by omega
        simp [h1, h2, h3, h4]
      · have h3 : a > 0 := by omega
        simp [h1, h2, h3]
      · have h4 : b > 0 := by omega
        simp [h1, h2, h4]
      · have h3 : a > 0 := by omega
        have h4 : b > 0 := by omega
        simp [h1, h2, h3, h4]
    exact key it.val v h0 hv

/-- Witness of C18: moving the iterator at 2 to -3 by `update_pos`. -/
theorem iterator_polarity_witness :
    (new 2).val ≠ 0 ∧ (update_pos (new 2) (-3)).val = -3 ∧
      (update_pos (new 2) (-3)).negate = decide ((-3 : int_t) < 0) :=
  ⟨by decide, (iterator_polarity (fun _ => 0)).2.2 (new 2) (-3) (by decide) (by decide)
    (by decide)⟩

end pu_iterator

/-! ## The normal-form key of the union-find -/

namespace uf_model

theorem int_xor_cast (a b : Nat) : Int.xor (a : Int) (b : Int) = ((a ^^^ b : Nat) : Int) := rfl

theorem xor_list_xor (g d : Nat → Nat) (l : List Nat) :
    xor_list (fun i => g i ^^^ d i) l = xor_list g l ^^^ xor_list d l := by
  induction l with
  | nil => simp [xor_list]
  | cons a l ih =>
    simp only [xor_list, List.foldr_cons] at ih ⊢
    rw [ih]
    ac_rfl

theorem xor_list_single (p v : Nat) (l : List Nat) (hl : l.Nodup) :
    xor_list (fun i => if i = p then v else 0) l = if p ∈ l then v else 0 := by
  induction l with
  | nil => simp [xor_list]
  | cons a l ih =>
    have hn := List.nodup_cons.mp hl
    simp only [xor_list, List.foldr_cons] at ih ⊢
    rw [ih hn.2]
    by_cases h : a = p
    · subst h
      simp [hn.1]
    · have h2 : ¬ p = a := fun e => h e.symm
      simp [h, h2]

theorem xor_list_congr (g d : Nat → Nat) (l : List Nat) (h : ∀ i ∈ l, g i = d i) :
    xor_list g l = xor_list d l := by
  induction l with
  | nil => rfl
  | cons a l ih =>
    simp only [xor_list, List.foldr_cons] at ih ⊢
    rw [ih (fun i hi => h i (List.mem_cons_of_mem _ hi)), h a (List.mem_cons_self _ _)]

theorem mem_cls (t : uf_model) (n r b : Nat) : b ∈ cls t n r ↔ b < n ∧ t.find b = r := by
  simp [cls]

theorem sq_le_sumsq (l : List Nat) (x : Nat) (h : x ∈ l) : x * x ≤ sumsq l := by
  induction l with
  | nil => simp at h
  | cons a l ih =>
    simp only [sumsq, List.map_cons, List.sum_cons] at ih ⊢
    rcases List.mem_cons.mp h with h | h
    · subst h
      omega
    · have := ih h
      omega

theorem eq_singleton_of_short (l : List Nat) (x : Nat) (hl : l.length ≤ 1) (h : x ∈ l) :
    l = [x] := by
  match l, hl, h with
  | [a], _, h => rw [List.mem_singleton.mp h]
  | _ :: _ :: _, hl, _ => simp at hl

theorem sumsq_filter_or (p q : Nat → Bool) (l : List Nat)
    (h : ∀ b, ¬ (p b = true ∧ q b = true)) :
    sumsq (l.filter (fun b => p b || q b)) = sumsq (l.filter p) + sumsq (l.filter q) := by
  induction l with
  | nil => rfl
  | cons a l ih =>
    have ha := h a
    simp only [sumsq] at ih ⊢
    cases hp : p a <;> cases hq : q a <;>
      simp [List.filter_cons, hp, hq, ih] at ha ⊢ <;> omega

/-- The contribution of a class to `hash_set` is the sum of the squares of its
members. -/
theorem hash_term (t : uf_model) (n x : Nat) (hx : x < n) (hr : t.find x = x) :
    (if class_hash t n x = 0 then x * x else class_hash t n x) = sumsq (cls t n x) := by
  have hmem : x ∈ cls t n x := (mem_cls t n x x).mpr ⟨hx, hr⟩
  unfold class_hash
  by_cases hlen : (cls t n x).length ≤ 1
  · rw [eq_singleton_of_short _ x hlen hmem]
    simp [sumsq]
  · rw [if_neg hlen]
    split
    · rename_i h0
      have := sq_le_sumsq _ x hmem
      omega
    · rfl

theorem inv_step (n : Nat) (t t' : uf_model) (r o : Nat) (hinv : inv n t) (hro : r < o)
    (hon : o < n) (hr : t.find r = r) (ho : t.find o = o)
    (hf : ∀ i, t'.find i = if t.find i = o then r else t.find i)
    (hh : ∀ i, t'.hashes i =
      if i = r then ((sumsq (cls t n r) + sumsq (cls t n o) : Nat) : Int) else t.hashes i)
    (hH : t'.hash = ((xor_list (root_hash t n) (List.range n) ^^^ class_hash t n r ^^^
      class_hash t n o ^^^ (sumsq (cls t n r) + sumsq (cls t n o)) : Nat) : Int)) :
    inv n t' := by
  obtain ⟨h1, h2, h3, _⟩ := hinv
  have hne : r ≠ o := Nat.ne_of_lt hro
  have hfr : t'.find r = r := by rw [hf, hr]; simp
  have hfo : t'.find o = r := by rw [hf, ho]; simp
  have hroot : ∀ i, i ≠ r → (t'.find i = i ↔ (t.find i = i ∧ i ≠ o)) := by
    intro i hi
    rw [hf]
    constructor
    · intro h
      by_cases hc : t.find i = o
      · rw [if_pos hc] at h
        exact absurd h.symm hi
      · rw [if_neg hc] at h
        exact ⟨h, fun e => hc (e ▸ h)⟩
    · rintro ⟨h, hio⟩
      rw [if_neg (by rw [h]; exact hio), h]
  have hcls_r : cls t' n r = (List.range n).filter
      (fun b => decide (t.find b = r) || decide (t.find b = o)) := by
    unfold cls
    apply List.filter_congr
    intro b _
    rw [hf]
    by_cases hc : t.find b = o
    · simp [hc]
    · simp [hc]
  have hcls_other : ∀ q, q ≠ r → q ≠ o → cls t' n q = cls t n q := by
    intro q hq1 hq2
    unfold cls
    apply List.filter_congr
    intro b _
    rw [hf]
    by_cases hc : t.find b = o
    · have e1 : ¬ r = q := fun e => hq1 e.symm
      have e2 : ¬ o = q := fun e => hq2 e.symm
      simp [hc, e1, e2]
    · simp [hc]
  have hsum : sumsq (cls t' n r) = sumsq (cls t n r) + sumsq (cls t n o) := by
    rw [hcls_r]
    exact sumsq_filter_or (fun b => decide (t.find b = r)) (fun b => decide (t.find b = o))
      (List.range n) (fun b hb => by
        simp only [decide_eq_true_eq] at hb
        exact hne (hb.1.symm.trans hb.2))
  have hch_r : class_hash t' n r = sumsq (cls t n r) + sumsq (cls t n o) := by
    unfold class_hash
    have hlen : ¬ (cls t' n r).length ≤ 1 := by
      intro hlen
      have m1 : r ∈ cls t' n r := (mem_cls t' n r r).mpr ⟨by omega, hfr⟩
      have m2 : o ∈ cls t' n r := (mem_cls t' n r o).mpr ⟨hon, hfo⟩
      have e1 := eq_singleton_of_short _ r hlen m1
      have e2 := eq_singleton_of_short _ o hlen m2
      rw [e1] at e2
      exact hne (by simpa using e2)
    rw [if_neg hlen, hsum]
  have hch_other : ∀ q, q ≠ r → q ≠ o → class_hash t' n q = class_hash t n q := by
    intro q hq1 hq2
    unfold class_hash
    rw [hcls_other q hq1 hq2]
  refine ⟨?_, ?_, ?_, ?_⟩
  · intro i
    rw [hf]
    have := h1 i
    split
    · omega
    · exact this
  · intro i
    rw [hf i]
    split
    · exact hfr
    · rename_i hc
      rw [hf, h2 i, if_neg hc]
  · intro q hqn hq
    by_cases hqr : q = r
    · subst hqr
      rw [hh, if_pos rfl, hch_r]
    · have hq2 := (hroot q hqr).mp hq
      rw [hh, if_neg hqr, h3 q hqn hq2.1, hch_other q hqr hq2.2]
  · rw [hH]
    congr 1
    have hpt : ∀ i, root_hash t' n i = root_hash t n i ^^^
        ((if i = r then class_hash t n r ^^^ (sumsq (cls t n r) + sumsq (cls t n o)) else 0) ^^^
          (if i = o then class_hash t n o else 0)) := by
      intro i
      by_cases hir : i = r
      · subst hir
        simp only [root_hash, hfr, hr, if_true, hch_r, if_neg hne, Nat.xor_zero]
        rw [← Nat.xor_assoc, Nat.xor_self, Nat.zero_xor]
      · by_cases hio : i = o
        · subst hio
          have e : ¬ r = i := hne
          simp only [root_hash, hfo, ho, if_true, if_neg e, if_neg hir, Nat.zero_xor,
            Nat.xor_self]
        · have hiff := hroot i hir
          simp only [root_hash, if_neg hir, if_neg hio, Nat.xor_zero]
          by_cases hc : t.find i = i
          · rw [if_pos (hiff.mpr ⟨hc, hio⟩), if_pos hc, hch_other i hir hio]
          · rw [if_neg (fun h => hc (hiff.mp h).1), if_neg hc]
    rw [xor_list_congr _ _ _ (fun i _ => hpt i), xor_list_xor, xor_list_xor,
      xor_list_single _ _ _ (List.nodup_range n), xor_list_single _ _ _ (List.nodup_range n),
      if_pos (List.mem_range.mpr (by omega)), if_pos (List.mem_range.mpr hon)]
    ac_rfl

theorem inv_init (n : Nat) : inv n init := by
  refine ⟨fun i => Nat.le_refl i, fun i => rfl, ?_, ?_⟩
  · intro r hr _
    have hmem : r ∈ cls init n r := (mem_cls init n r r).mpr ⟨hr, rfl⟩
    have hlen : (cls init n r).length ≤ 1 := by
      have hnd : (cls init n r).Nodup := (List.nodup_range n).filter _
      have hsub : cls init n r ⊆ [r] := by
        intro b hb
        have := ((mem_cls init n r b).mp hb).2
        simpa [init] using this
      simpa using (List.subperm_of_subset hnd hsub).length_le
    show (0 : Int) = ((class_hash init n r : Nat) : Int)
    simp only [class_hash, if_pos hlen]
    rfl
  · have hz : ∀ i ∈ List.range n, root_hash init n i = (fun _ => 0) i := by
      intro i hi
      have hr := List.mem_range.mp hi
      have hlen : (cls init n i).length ≤ 1 := by
        have hnd : (cls init n i).Nodup := (List.nodup_range n).filter _
        have hsub : cls init n i ⊆ [i] := by
          intro b hb
          have := ((mem_cls init n i b).mp hb).2
          simpa [init] using this
        simpa using (List.subperm_of_subset hnd hsub).length_le
      simp [root_hash, class_hash, hlen]
    rw [xor_list_congr _ _ _ hz]
    have : ∀ l : List Nat, xor_list (fun _ => 0) l = 0 := by
      intro l
      induction l with
      | nil => rfl
      | cons a l ih =>
        simp only [xor_list, List.foldr_cons] at ih ⊢
        rw [ih]
        rfl
    rw [this]
    rfl

theorem inv_merge (n : Nat) (t : uf_model) (a b : Nat) (hinv : inv n t) (ha : a < n)
    (hb : b < n) : inv n (merge t a b) := by
  unfold merge
  split
  · exact hinv
  · rename_i hne
    have hxa : t.find a < n := lt_of_le_of_lt (hinv.1 a) ha
    have hyb : t.find b < n := lt_of_le_of_lt (hinv.1 b) hb
    have hrx : t.find (t.find a) = t.find a := hinv.2.1 a
    have hry : t.find (t.find b) = t.find b := hinv.2.1 b
    have hhx : t.hashes (t.find a) = (class_hash t n (t.find a) : Int) :=
      hinv.2.2.1 _ hxa hrx
    have hhy : t.hashes (t.find b) = (class_hash t n (t.find b) : Int) :=
      hinv.2.2.1 _ hyb hry
    have hset : PersistentUnionFind.hash_set (t.find a) (t.find b) (t.hashes (t.find a))
        (t.hashes (t.find b)) =
        ((sumsq (cls t n (t.find a)) + sumsq (cls t n (t.find b)) : Nat) : Int) := by
      unfold PersistentUnionFind.hash_set
      rw [hhx, hhy, ← hash_term t n _ hxa hrx, ← hash_term t n _ hyb hry]
      push_cast
      simp only [Nat.cast_eq_zero]
    rcases Nat.lt_or_gt_of_ne hne with hlt | hgt
    · apply inv_step n t _ (t.find a) (t.find b) hinv hlt hyb hrx hry
      · intro i
        simp only [Nat.max_eq_right (Nat.le_of_lt hlt), Nat.min_eq_left (Nat.le_of_lt hlt)]
      · intro i
        simp only [Nat.min_eq_left (Nat.le_of_lt hlt), hset]
      · simp only [PersistentUnionFind.merged]
        rw [hset, hinv.2.2.2, hhx, hhy]
        simp only [int_xor_cast]
    · apply inv_step n t _ (t.find b) (t.find a) hinv hgt hxa hry hrx
      · intro i
        simp only [Nat.max_eq_left (Nat.le_of_lt hgt), Nat.min_eq_right (Nat.le_of_lt hgt)]
      · intro i
        simp only [Nat.min_eq_right (Nat.le_of_lt hgt), hset]
        rw [Nat.add_comm]
      · simp only [PersistentUnionFind.merged]
        rw [hset, hinv.2.2.2, hhx, hhy]
        simp only [int_xor_cast]
        congr 1
        rw [Nat.add_comm (sumsq (cls t n (t.find a)))]
        ac_rfl

theorem inv_foldl (n : Nat) (ms : List (Nat × Nat)) (t : uf_model) (hinv : inv n t)
    (h : ∀ m ∈ ms, m.1 < n ∧ m.2 < n) :
    inv n (ms.foldl (fun t m => merge t m.1 m.2) t) := by
  induction ms generalizing t with
  | nil => exact hinv
  | cons m ms ih =>
    have hm := h m (List.mem_cons_self _ _)
    exact ih _ (inv_merge n t m.1 m.2 hinv hm.1 hm.2)
      (fun q hq => h q (List.mem_cons_of_mem _ hq))

theorem inv_run (n : Nat) (ms : List (Nat × Nat)) (h : ∀ m ∈ ms, m.1 < n ∧ m.2 < n) :
    inv n (run ms) :=
  inv_foldl n ms init (inv_init n) h

/-- Two states in normal form with the same partition of `0 .. n-1` have the
same roots. -/
theorem find_eq_of_partition (n : Nat) (s t : uf_model) (hs : inv n s) (ht : inv n t)
    (hp : ∀ i, i < n → ∀ j, j < n → (s.find i = s.find j ↔ t.find i = t.find j))
    (i : Nat) (hi : i < n) : s.find i = t.find i := by
  have a1 : s.find i ≤ i := hs.1 i
  have a2 : t.find i ≤ i := ht.1 i
  have b1 : t.find (s.find i) = t.find i :=
    (hp (s.find i) (by omega) i hi).mp (hs.2.1 i)
  have b2 : s.find (t.find i) = s.find i :=
    (hp (t.find i) (by omega) i hi).mpr (ht.2.1 i)
  have c1 : t.find i ≤ s.find i := b1 ▸ ht.1 (s.find i)
  have c2 : s.find i ≤ t.find i := b2 ▸ hs.1 (t.find i)
  omega

theorem hash_eq_of_partition (n : Nat) (s t : uf_model) (hs : inv n s) (ht : inv n t)
    (hp : ∀ i, i < n → ∀ j, j < n → (s.find i = s.find j ↔ t.find i = t.find j)) :
    s.hash = t.hash ∧ ∀ r, r < n → s.find r = r → s.hashes r = t.hashes r := by
  have hfind := find_eq_of_partition n s t hs ht hp
  have hcls : ∀ r, cls s n r = cls t n r := by
    intro r
    unfold cls
    apply List.filter_congr
    intro b hb
    rw [hfind b (List.mem_range.mp hb)]
  have hch : ∀ r, class_hash s n r = class_hash t n r := by
    intro r
    unfold class_hash
    rw [hcls r]
  constructor
  · rw [hs.2.2.2, ht.2.2.2]
    congr 1
    apply xor_list_congr
    intro i hi
    unfold root_hash
    rw [hfind i (List.mem_range.mp hi), hch i]
  · intro r hr hroot
    rw [hs.2.2.1 r hr hroot, ht.2.2.1 r hr (by rw [← hfind r hr]; exact hroot), hch r]

end uf_model

/-! ## Lexeme positions and formula trees (src/input.h) -/

theorem to_size_t_exact (w : Nat) (a b beg : Nat) (h1 : b ≤ a) (h2 : a - b + beg < 2 ^ w) :
    to_size_t w ((a : Int) - b + beg) = a - b + beg := by
  unfold to_size_t
  have h3 : ((a : Int) - b + beg) = ((a - b + beg : Nat) : Int) := by
    push_cast [Nat.cast_sub h1]
    ring
  rw [h3]
  have h4 : ((2 : Int) ^ w) = ((2 ^ w : Nat) : Int) := by push_cast; ring
  rw [h4, ← Int.natCast_mod, Int.toNat_natCast, Nat.mod_eq_of_lt h2]

namespace input

/-- C19 (`lexeme_pos`): the call returns true if and only if `l[0]` or `l[1]`
lies in `[beg_, beg_ + size_)`; when it returns true `lr` is
`(l[0] - beg_ + beg, l[1] - beg_ + beg)` as `size_t` values, which is the
exact difference plus `beg` for an end that is not before `beg_` and a sum
that fits a `size_t`; when it returns false `lr` is left as it was. -/
theorem lexeme_pos_spec (w : Nat) (inp : input) (beg : Nat) (l : lexeme) (lr : lexeme_range) :
    ((lexeme_pos w inp beg l lr).1 = true ↔
      (inp.beg_ ≤ l.1 ∧ l.1 < inp.beg_ + inp.size_) ∨
      (inp.beg_ ≤ l.2 ∧ l.2 < inp.beg_ + inp.size_)) ∧
    ((lexeme_pos w inp beg l lr).1 = true →
      (lexeme_pos w inp beg l lr).2 =
        (to_size_t w ((l.1 : Int) - inp.beg_ + beg), to_size_t w ((l.2 : Int) - inp.beg_ + beg))) ∧
    ((lexeme_pos w inp beg l lr).1 = true → inp.beg_ ≤ l.1 → l.1 - inp.beg_ + beg < 2 ^ w →
      (lexeme_pos w inp beg l lr).2.1 = l.1 - inp.beg_ + beg) ∧
    ((lexeme_pos w inp beg l lr).1 = true → inp.beg_ ≤ l.2 → l.2 - inp.beg_ + beg < 2 ^ w →
      (lexeme_pos w inp beg l lr).2.2 = l.2 - inp.beg_ + beg) ∧
    ((lexeme_pos w inp beg l lr).1 = false → (lexeme_pos w inp beg l lr).2 = lr) := by
  unfold lexeme_pos
  split
  · rename_i h
    refine ⟨⟨fun _ => h, fun _ => rfl⟩, fun _ => rfl, ?_, ?_, fun hf => by simp at hf⟩
    · intro _ h1 h2
      exact to_size_t_exact w _ _ _ h1 h2
    · intro _ h1 h2
      exact to_size_t_exact w _ _ _ h1 h2
  · rename_i h
    refine ⟨⟨fun hf => by simp at hf, fun hc => absurd hc h⟩, fun hf => by simp at hf,
      fun hf => by simp at hf, fun hf => by simp at hf, fun _ => rfl⟩

/-- Witness of C19: a lexeme at offsets 3 to 5 of an input of 10 bytes at
address 100, shifted by 7; and a lexeme outside of it. -/
theorem lexeme_pos_spec_witness :
    ((lexeme_pos 64 ⟨100, 10⟩ 7 (103, 105) (0, 0)).1 = true ∧
      (lexeme_pos 64 ⟨100, 10⟩ 7 (103, 105) (0, 0)).2.1 = 103 - 100 + 7) ∧
    ((lexeme_pos 64 ⟨100, 10⟩ 7 (10, 20) (1, 2)).1 = false ∧
      (lexeme_pos 64 ⟨100, 10⟩ 7 (10, 20) (1, 2)).2 = (1, 2)) :=
  ⟨⟨by decide, (lexeme_pos_spec 64 ⟨100, 10⟩ 7 (103, 105) (0, 0)).2.2.1 (by decide) (by decide)
      (by decide)⟩,
    ⟨by decide, (lexeme_pos_spec 64 ⟨100, 10⟩ 7 (10, 20) (1, 2)).2.2.2.2 (by decide)⟩⟩

end input

namespace raw_form_tree

/-- C20 (formula-tree canonization): the tree built from a raw term holds no
negated term; for a term with `neg` unset it is a leaf of type `NONE` that
holds the term; for a term with `neg` set it is a node of type `NOT` whose
left child is the leaf for `negate()` of the term and whose right child is
null; `negate()` flips `neg` and keeps all other members. -/
theorem of_term_canonical (str2lexeme : String → lexeme) (t : raw_term) :
    ¬ holds_negated (of_term str2lexeme t) ∧
    (t.neg = false →
      of_term str2lexeme t = node etype.NONE (some t) none null null false (0, 0)) ∧
    (t.neg = true →
      of_term str2lexeme t =
        node etype.NOT none (some (elem.of_NOT str2lexeme))
          (node etype.NONE (some t.negate) none null null false (0, 0)) null false (0, 0)) ∧
    (t.negate.neg = !t.neg ∧ t.negate.extype = t.extype ∧ t.negate.arith_op = t.arith_op ∧
      t.negate.e = t.e ∧ t.negate.arity = t.arity) := by
  have hleaf : ∀ u : raw_term, u.neg = false →
      of_term str2lexeme u = node etype.NONE (some u) none null null false (0, 0) := by
    intro u hu
    rw [of_term]
    simp [hu]
  have hnode : t.neg = true →
      of_term str2lexeme t =
        node etype.NOT none (some (elem.of_NOT str2lexeme))
          (node etype.NONE (some t.negate) none null null false (0, 0)) null false (0, 0) := by
    intro ht
    rw [of_term]
    simp only [ht, if_true]
    rw [hleaf t.negate (by simp [raw_term.negate, ht])]
  refine ⟨?_, hleaf t, hnode, ⟨rfl, rfl, rfl, rfl, rfl⟩⟩
  cases ht : t.neg
  · rw [hleaf t ht]
    simp [holds_negated, ht]
  · rw [hnode ht]
    simp [holds_negated, raw_term.negate, ht]

/-- Witness of C20: a negated term with one element. -/
theorem of_term_canonical_witness :
    ({ neg := true, e := [{ type := etype.SYM }] } : raw_term).neg = true ∧
    of_term (fun _ => (0, 0)) { neg := true, e := [{ type := etype.SYM }] } =
      node etype.NOT none (some (elem.of_NOT (fun _ => (0, 0))))
        (node etype.NONE (some { neg := false, e := [{ type := etype.SYM }] }) none null null
          false (0, 0)) null false (0, 0) :=
  ⟨rfl, (of_term_canonical (fun _ => (0, 0))
    { neg := true, e := [{ type := etype.SYM }] }).2.2.1 rfl⟩

end raw_form_tree

/-! ## Closure of the final chart -/

namespace earley

theorem grows_refl (c : cstate) : grows c c := ⟨fun _ h => h, fun _ h => h⟩

theorem grows_trans {a b c : cstate} (h1 : grows a b) (h2 : grows b c) : grows a c :=
  ⟨fun j h => h2.1 j (h1.1 j h), fun j h => h2.2 j (h1.2 j h)⟩

theorem closed_in_mono (G : List (List lit)) (s : List Char) (S0 : List item) (it : item)
    {S T S1 T1 : List item} (hS : ∀ j, j ∈ S → j ∈ S1) (hT : ∀ j, j ∈ T → j ∈ T1)
    (h : closed_in G s S0 S T it) : closed_in G s S0 S1 T1 it := by
  obtain ⟨h1, h2, h3⟩ := h
  refine ⟨?_, ?_, ?_⟩
  · intro a j b c d e
    exact (h1 a j b c d e).imp (hS _) (hT _)
  · intro a b p c
    exact (h2 a b p c).imp (hS _) (hT _)
  · intro a b c d
    exact (h3 a b c d).imp (hS _) (hT _)

/-- What `add` does to the chart: `S` is untouched, `t` keeps its items, the
new items of `t` are in the set of `i`, and `i` is in `S` or in `t`. -/
theorem add_aux_props (G : List (List lit)) (N : List Nat) :
    ∀ m c i, (add_aux G N m c i).S = c.S ∧
      (∀ j, j ∈ c.t → j ∈ (add_aux G N m c i).t) ∧
      (∀ j, j ∈ (add_aux G N m c i).t → j ∈ c.t ∨ j.set = i.set) ∧
      (i ∈ c.S ∨ i ∈ (add_aux G N m c i).t) := by
  intro m
  induction m with
  | zero =>
    intro c i
    simp only [add_aux]
    split
    · rename_i h
      exact ⟨rfl, fun _ h => h, fun _ h => Or.inl h, Or.inl h⟩
    · split
      · rename_i h
        exact ⟨rfl, fun _ h => h, fun _ h => Or.inl h, Or.inr h⟩
      · refine ⟨rfl, ?_, ?_, ?_⟩
        · intro j hj
          exact (mem_set_insert _ _ _ _).2 (Or.inr hj)
        · intro j hj
          rcases (mem_set_insert _ _ _ _).1 hj with rfl | hj
          · exact Or.inr rfl
          · exact Or.inl hj
        · exact Or.inr ((mem_set_insert _ _ _ _).2 (Or.inl rfl))
  | succ m ih =>
    intro c i
    simp only [add_aux]
    split
    · rename_i h
      exact ⟨rfl, fun _ h => h, fun _ h => Or.inl h, Or.inl h⟩
    · split
      · rename_i h
        exact ⟨rfl, fun _ h => h, fun _ h => Or.inl h, Or.inr h⟩
      · split
        · obtain ⟨a1, a2, a3, _⟩ := ih { c with t := set_insert item.lt i c.t }
            ⟨i.set, i.prod, i.from_, i.dot + 1⟩
          refine ⟨a1, ?_, ?_, ?_⟩
          · intro j hj
            exact a2 j ((mem_set_insert _ _ _ _).2 (Or.inr hj))
          · intro j hj
            rcases a3 j hj with h | h
            · rcases (mem_set_insert _ _ _ _).1 h with rfl | h
              · exact Or.inr rfl
              · exact Or.inl h
            · exact Or.inr h
          · exact Or.inr (a2 i ((mem_set_insert _ _ _ _).2 (Or.inl rfl)))
        · refine ⟨rfl, ?_, ?_, ?_⟩
          · intro j hj
            exact (mem_set_insert _ _ _ _).2 (Or.inr hj)
          · intro j hj
            rcases (mem_set_insert _ _ _ _).1 hj with rfl | hj
            · exact Or.inr rfl
            · exact Or.inl hj
          · exact Or.inr ((mem_set_insert _ _ _ _).2 (Or.inl rfl))

theorem add_props (G : List (List lit)) (N : List Nat) (c : cstate) (i : item) :
    (add G N c i).S = c.S ∧ (∀ j, j ∈ c.t → j ∈ (add G N c i).t) ∧
      (∀ j, j ∈ (add G N c i).t → j ∈ c.t ∨ j.set = i.set) ∧
      (i ∈ c.S ∨ i ∈ (add G N c i).t) :=
  add_aux_props G N _ c i

theorem complete_props (G : List (List lit)) (N : List Nat) (i : item) (c : cstate) :
    (complete G N i c).S = c.S ∧ (∀ j, j ∈ c.t → j ∈ (complete G N i c).t) ∧
      (∀ j, j ∈ (complete G N i c).t → j ∈ c.t ∨ j.set = i.set) ∧
      (∀ j, j ∈ c.S → j.set = i.from_ → (P G j.prod).length > j.dot →
        get_lit G j = get_nt G i →
        (⟨i.set, j.prod, j.from_, j.dot + 1⟩ : item) ∈ c.S ∨
          (⟨i.set, j.prod, j.from_, j.dot + 1⟩ : item) ∈ (complete G N i c).t) := by
  have key : ∀ (l : List item) (c : cstate),
      (l.foldl (fun c1 it =>
        if (P G it.prod).length > it.dot ∧ get_lit G it = get_nt G i then
          { add G N c1 ⟨i.set, it.prod, it.from_, it.dot + 1⟩ with
            completers := set_insert edge_lt (⟨i.set, it.prod, it.from_, it.dot + 1⟩, i)
              (add G N c1 ⟨i.set, it.prod, it.from_, it.dot + 1⟩).completers }
        else c1) c).S = c.S ∧
      (∀ j, j ∈ c.t → j ∈ (l.foldl (fun c1 it =>
        if (P G it.prod).length > it.dot ∧ get_lit G it = get_nt G i then
          { add G N c1 ⟨i.set, it.prod, it.from_, it.dot + 1⟩ with
            completers := set_insert edge_lt (⟨i.set, it.prod, it.from_, it.dot + 1⟩, i)
              (add G N c1 ⟨i.set, it.prod, it.from_, it.dot + 1⟩).completers }
        else c1) c).t) ∧
      (∀ j, j ∈ (l.foldl (fun c1 it =>
        if (P G it.prod).length > it.dot ∧ get_lit G it = get_nt G i then
          { add G N c1 ⟨i.set, it.prod, it.from_, it.dot + 1⟩ with
            completers := set_insert edge_lt (⟨i.set, it.prod, it.from_, it.dot + 1⟩, i)
              (add G N c1 ⟨i.set, it.prod, it.from_, it.dot + 1⟩).completers }
        else c1) c).t → j ∈ c.t ∨ j.set = i.set) ∧
      (∀ j, j ∈ l → (P G j.prod).length > j.dot → get_lit G j = get_nt G i →
        (⟨i.set, j.prod, j.from_, j.dot + 1⟩ : item) ∈ c.S ∨
          (⟨i.set, j.prod, j.from_, j.dot + 1⟩ : item) ∈ (l.foldl (fun c1 it =>
        if (P G it.prod).length > it.dot ∧ get_lit G it = get_nt G i then
          { add G N c1 ⟨i.set, it.prod, it.from_, it.dot + 1⟩ with
            completers := set_insert edge_lt (⟨i.set, it.prod, it.from_, it.dot + 1⟩, i)
              (add G N c1 ⟨i.set, it.prod, it.from_, it.dot + 1⟩).completers }
        else c1) c).t) := by
    intro l
    induction l with
    | nil =>
      intro c
      exact ⟨rfl, fun _ h => h, fun _ h => Or.inl h, fun j hj => by simp at hj⟩
    | cons a l ih =>
      intro c
      simp only [List.foldl_cons]
      by_cases hcond : (P G a.prod).length > a.dot ∧ get_lit G a = get_nt G i
      · rw [if_pos hcond]
        obtain ⟨a1, a2, a3, a4⟩ := add_props G N c ⟨i.set, a.prod, a.from_, a.dot + 1⟩
        obtain ⟨b1, b2, b3, b4⟩ := ih
          { add G N c ⟨i.set, a.prod, a.from_, a.dot + 1⟩ with
            completers := set_insert edge_lt (⟨i.set, a.prod, a.from_, a.dot + 1⟩, i)
              (add G N c ⟨i.set, a.prod, a.from_, a.dot + 1⟩).completers }
        refine ⟨b1.trans a1, fun j hj => b2 j (a2 j hj), ?_, ?_⟩
        · intro j hj
          rcases b3 j hj with h | h
          · exact a3 j h
          · exact Or.inr h
        · intro j hj h1 h2
          rcases List.mem_cons.mp hj with rfl | hj
          · rcases a4 with h | h
            · exact Or.inl h
            · exact Or.inr (b2 _ h)
          · rcases b4 j hj h1 h2 with h | h
            · exact Or.inl (a1 ▸ h)
            · exact Or.inr h
      · rw [if_neg hcond]
        obtain ⟨b1, b2, b3, b4⟩ := ih c
        refine ⟨b1, b2, b3, ?_⟩
        intro j hj h1 h2
        rcases List.mem_cons.mp hj with rfl | hj
        · exact absurd ⟨h1, h2⟩ hcond
        · exact b4 j hj h1 h2
  obtain ⟨k1, k2, k3, k4⟩ := key (c.S.filter (fun it => decide (it.set = i.from_))) c
  refine ⟨k1, k2, k3, ?_⟩
  intro j hj hset h1 h2
  exact k4 j (List.mem_filter.mpr ⟨hj, by simpa using hset⟩) h1 h2

theorem predict_props (G : List (List lit)) (N : List Nat) (i : item) (c : cstate) :
    (predict G N i c).S = c.S ∧ (∀ j, j ∈ c.t → j ∈ (predict G N i c).t) ∧
      (∀ j, j ∈ (predict G N i c).t → j ∈ c.t ∨ j.set = i.set) ∧
      (∀ p, p ∈ nts G (get_lit G i) →
        (⟨i.set, p, i.set, 1⟩ : item) ∈ c.S ∨
          (⟨i.set, p, i.set, 1⟩ : item) ∈ (predict G N i c).t) := by
  have key : ∀ (l : List Nat) (c : cstate),
      (l.foldl (fun c1 p =>
        { add G N c1 ⟨i.set, p, i.set, 1⟩ with
          advancers := set_insert edge_lt (⟨i.set, p, i.set, 1⟩, i)
            (add G N c1 ⟨i.set, p, i.set, 1⟩).advancers }) c).S = c.S ∧
      (∀ j, j ∈ c.t → j ∈ (l.foldl (fun c1 p =>
        { add G N c1 ⟨i.set, p, i.set, 1⟩ with
          advancers := set_insert edge_lt (⟨i.set, p, i.set, 1⟩, i)
            (add G N c1 ⟨i.set, p, i.set, 1⟩).advancers }) c).t) ∧
      (∀ j, j ∈ (l.foldl (fun c1 p =>
        { add G N c1 ⟨i.set, p, i.set, 1⟩ with
          advancers := set_insert edge_lt (⟨i.set, p, i.set, 1⟩, i)
            (add G N c1 ⟨i.set, p, i.set, 1⟩).advancers }) c).t → j ∈ c.t ∨ j.set = i.set) ∧
      (∀ p, p ∈ l →
        (⟨i.set, p, i.set, 1⟩ : item) ∈ c.S ∨
          (⟨i.set, p, i.set, 1⟩ : item) ∈ (l.foldl (fun c1 p =>
        { add G N c1 ⟨i.set, p, i.set, 1⟩ with
          advancers := set_insert edge_lt (⟨i.set, p, i.set, 1⟩, i)
            (add G N c1 ⟨i.set, p, i.set, 1⟩).advancers }) c).t) := by
    intro l
    induction l with
    | nil =>
      intro c
      exact ⟨rfl, fun _ h => h, fun _ h => Or.inl h, fun j hj => by simp at hj⟩
    | cons a l ih =>
      intro c
      simp only [List.foldl_cons]
      obtain ⟨a1, a2, a3, a4⟩ := add_props G N c ⟨i.set, a, i.set, 1⟩
      obtain ⟨b1, b2, b3, b4⟩ := ih
        { add G N c ⟨i.set, a, i.set, 1⟩ with
          advancers := set_insert edge_lt (⟨i.set, a, i.set, 1⟩, i)
            (add G N c ⟨i.set, a, i.set, 1⟩).advancers }
      refine ⟨b1.trans a1, fun j hj => b2 j (a2 j hj), ?_, ?_⟩
      · intro j hj
        rcases b3 j hj with h | h
        · exact a3 j h
        · exact Or.inr h
      · intro p hp
        rcases List.mem_cons.mp hp with rfl | hp
        · rcases a4 with h | h
          · exact Or.inl h
          · exact Or.inr (b2 _ h)
        · rcases b4 p hp with h | h
          · exact Or.inl (a1 ▸ h)
          · exact Or.inr h
  exact key _ c

/-- What processing one item of set `n` does to the chart. -/
theorem process_props (G : List (List lit)) (N : List Nat) (s : List Char) (n : Nat)
    (c : cstate) (it : item) (hit : it.set = n) :
    grows c (process G N s n c it) ∧
    (∀ j, j ∈ (process G N s n c it).S → j ∈ c.S ∨ j.set = n + 1) ∧
    (∀ j, j ∈ (process G N s n c it).t → j ∈ c.t ∨ j.set = n) ∧
    closed_in G s c.S (process G N s n c it).S (process G N s n c it).t it := by
  unfold process
  by_cases hc : completed G it = true
  · rw [if_pos hc]
    obtain ⟨a1, a2, a3, a4⟩ := complete_props G N it c
    refine ⟨⟨fun j hj => a1 ▸ hj, a2⟩, fun j hj => Or.inl (a1 ▸ hj), ?_, ?_, ?_, ?_⟩
    · intro j hj
      rcases a3 j hj with h | h
      · exact Or.inl h
      · exact Or.inr (h.trans hit)
    · intro _ j hj h1 h2 h3
      rw [a1]
      exact a4 j hj h1 h2 h3
    · intro h; rw [hc] at h; cases h
    · intro h; rw [hc] at h; cases h
  · rw [if_neg hc]
    have hc2 : completed G it = false := by simpa using hc
    by_cases hnt : (get_lit G it).nt = true
    · rw [if_pos hnt]
      obtain ⟨a1, a2, a3, a4⟩ := predict_props G N it c
      refine ⟨⟨fun j hj => a1 ▸ hj, a2⟩, fun j hj => Or.inl (a1 ▸ hj), ?_, ?_, ?_, ?_⟩
      · intro j hj
        rcases a3 j hj with h | h
        · exact Or.inl h
        · exact Or.inr (h.trans hit)
      · intro h; exact absurd h hc
      · intro _ _ p hp
        rw [a1]
        exact a4 p hp
      · intro _ h; rw [hnt] at h; cases h
    · rw [if_neg hnt]
      by_cases hlen : n < s.length
      · rw [if_pos hlen]
        unfold scan
        by_cases hch : s.getD n (Char.ofNat 0) ≠ (get_lit G it).c
        · rw [if_pos hch]
          refine ⟨grows_refl c, fun j hj => Or.inl hj, fun j hj => Or.inl hj, ?_, ?_, ?_⟩
          · intro h; exact absurd h hc
          · intro _ h; exact absurd h hnt
          · intro _ _ _ h
            rw [hit] at h
            exact absurd h hch
        · rw [if_neg hch]
          refine ⟨⟨fun j hj => (mem_set_insert _ _ _ _).2 (Or.inr hj), fun j hj => hj⟩, ?_,
            fun j hj => Or.inl hj, ?_, ?_, ?_⟩
          · intro j hj
            rcases (mem_set_insert _ _ _ _).1 hj with rfl | hj
            · exact Or.inr rfl
            · exact Or.inl hj
          · intro h; exact absurd h hc
          · intro _ h; exact absurd h hnt
          · intro _ _ _ _
            left
            rw [hit]
            exact (mem_set_insert _ _ _ _).2 (Or.inl rfl)
      · rw [if_neg hlen]
        refine ⟨grows_refl c, fun j hj => Or.inl hj, fun j hj => Or.inl hj, ?_, ?_, ?_⟩
        · intro h; exact absurd h hc
        · intro _ h; exact absurd h hnt
        · intro _ _ h
          rw [hit] at h
          exact absurd h hlen

/-- A loop of `process` over items of set `n`, started from a chart that holds
`S0`: every item of the loop has been served from `S0`. -/
theorem process_loop (G : List (List lit)) (N : List Nat) (s : List Char) (n : Nat)
    (S0 : List item) : ∀ (l : List item) (c : cstate), (∀ it, it ∈ l → it.set = n) →
    (∀ j, j ∈ S0 → j ∈ c.S) →
    grows c (l.foldl (process G N s n) c) ∧
    (∀ j, j ∈ (l.foldl (process G N s n) c).S → j ∈ c.S ∨ j.set = n + 1) ∧
    (∀ j, j ∈ (l.foldl (process G N s n) c).t → j ∈ c.t ∨ j.set = n) ∧
    (∀ it, it ∈ l → closed_in G s S0 (l.foldl (process G N s n) c).S
      (l.foldl (process G N s n) c).t it) := by
  intro l
  induction l with
  | nil =>
    intro c _ _
    exact ⟨grows_refl c, fun _ h => Or.inl h, fun _ h => Or.inl h, fun it hit => by simp at hit⟩
  | cons a l ih =>
    intro c hl hS0
    simp only [List.foldl_cons]
    obtain ⟨a1, a2, a3, a4⟩ := process_props G N s n c a (hl a (List.mem_cons_self _ _))
    obtain ⟨b1, b2, b3, b4⟩ := ih (process G N s n c a)
      (fun it hit => hl it (List.mem_cons_of_mem _ hit)) (fun j hj => a1.1 j (hS0 j hj))
    refine ⟨grows_trans a1 b1, ?_, ?_, ?_⟩
    · intro j hj
      rcases b2 j hj with h | h
      · exact a2 j h
      · exact Or.inr h
    · intro j hj
      rcases b3 j hj with h | h
      · exact a3 j h
      · exact Or.inr h
    · intro it hit
      rcases List.mem_cons.mp hit with rfl | hit
      · obtain ⟨h1, h2, h3⟩ := a4
        refine closed_in_mono G s S0 it b1.1 b1.2 ⟨?_, h2, h3⟩
        intro hc j hj
        exact h1 hc j (hS0 j hj)
      · exact b4 it hit

/-- One round at position `n`. -/
theorem round_props (G : List (List lit)) (N : List Nat) (s : List Char) (n : Nat)
    (c : cstate) (ht : ∀ j, j ∈ c.t → j.set = n) :
    (∀ j, j ∈ c.S → j ∈ (round G N s n c).S) ∧
    (∀ j, j ∈ (round G N s n c).S → j ∈ c.S ∨ j.set = n ∨ j.set = n + 1) ∧
    (∀ j, j ∈ (round G N s n c).t → j.set = n) ∧
    ((round G N s n c).t = [] → ∀ it, it ∈ (round G N s n c).S → it.set = n →
      it.from_ ≤ it.set →
      closed_in G s (round G N s n c).S (round G N s n c).S [] it) := by
  obtain ⟨a1, a2, a3, a4⟩ := process_loop G N s n
    (c.t.foldl (fun S i => set_insert item.lt i S) c.S)
    ((c.t.foldl (fun S i => set_insert item.lt i S) c.S).filter (fun it => decide (it.set = n)))
    { c with S := c.t.foldl (fun S i => set_insert item.lt i S) c.S, t := [] }
    (fun it hit => by simpa using (List.mem_filter.mp hit).2) (fun j hj => hj)
  have hround : round G N s n c =
      ((c.t.foldl (fun S i => set_insert item.lt i S) c.S).filter
        (fun it => decide (it.set = n))).foldl (process G N s n)
        { c with S := c.t.foldl (fun S i => set_insert item.lt i S) c.S, t := [] } := rfl
  rw [hround]
  have hold : ∀ j, j ∈ (((c.t.foldl (fun S i => set_insert item.lt i S) c.S).filter
        (fun it => decide (it.set = n))).foldl (process G N s n)
        { c with S := c.t.foldl (fun S i => set_insert item.lt i S) c.S, t := [] }).S →
      j ∈ c.t.foldl (fun S i => set_insert item.lt i S) c.S ∨ j.set = n + 1 := a2
  refine ⟨?_, ?_, ?_, ?_⟩
  · intro j hj
    exact a1.1 j ((mem_foldl_set_insert _ _ _ _).2 (Or.inl hj))
  · intro j hj
    rcases hold j hj with h | h
    · rcases (mem_foldl_set_insert _ _ _ _).1 h with h | h
      · exact Or.inl h
      · exact Or.inr (Or.inl (ht j h))
    · exact Or.inr (Or.inr h)
  · intro j hj
    rcases a3 j hj with h | h
    · simp at h
    · exact h
  · intro hnil it hit hset hle
    have hitS : it ∈ c.t.foldl (fun S i => set_insert item.lt i S) c.S := by
      rcases hold it hit with h | h
      · exact h
      · omega
    have hcl := a4 it (List.mem_filter.mpr ⟨hitS, by simpa using hset⟩)
    rw [hnil] at hcl
    obtain ⟨h1, h2, h3⟩ := hcl
    refine ⟨?_, h2, h3⟩
    intro hc j hj hjs
    have hjS : j ∈ c.t.foldl (fun S i => set_insert item.lt i S) c.S := by
      rcases hold j hj with h | h
      · exact h
      · omega
    exact h1 hc j hjS hjs

/-- The loop at position `n`. -/
theorem closure_props (G : List (List lit)) (N : List Nat) (s : List Char) (n : Nat) :
    ∀ fuel c c1, (∀ j, j ∈ c.t → j.set = n) → closure G N s n fuel c = outcome.ret c1 →
      c1.t = [] ∧ (∀ j, j ∈ c.S → j ∈ c1.S) ∧
      (∀ j, j ∈ c1.S → j ∈ c.S ∨ j.set = n ∨ j.set = n + 1) ∧
      (∀ it, it ∈ c1.S → it.set = n → it.from_ ≤ it.set → closed_in G s c1.S c1.S [] it) := by
  intro fuel
  induction fuel with
  | zero => intro c c1 _ h; simp [closure] at h
  | succ fuel ih =>
    intro c c1 ht h
    obtain ⟨a1, a2, a3, a4⟩ := round_props G N s n c ht
    simp only [closure] at h
    split at h
    · rename_i hnil
      simp only [outcome.ret.injEq] at h
      subst h
      exact ⟨hnil, a1, a2, a4 hnil⟩
    · obtain ⟨b1, b2, b3, b4⟩ := ih _ _ a3 h
      refine ⟨b1, fun j hj => b2 j (a1 j hj), ?_, b4⟩
      intro j hj
      rcases b3 j hj with h | h
      · exact a2 j h
      · exact Or.inr h

theorem closure_settled (G : List (List lit)) (N : List Nat) (s : List Char) (n : Nat)
    (fuel : Nat) (c c1 : cstate) (hc : settled G s n c)
    (h : closure G N s n fuel c = outcome.ret c1) : settled G s (n + 1) c1 := by
  obtain ⟨ht, hle, hcl⟩ := hc
  obtain ⟨b1, b2, b3, b4⟩ := closure_props G N s n fuel c c1 (by rw [ht]; simp) h
  refine ⟨b1, ?_, ?_⟩
  · intro j hj
    rcases b3 j hj with h | h | h
    · have := hle j h
      omega
    · omega
    · omega
  · intro it hit hlt hfrom
    by_cases hn : it.set = n
    · exact b4 it hit hn hfrom
    · have hlt2 : it.set < n := by omega
      have hitc : it ∈ c.S := by
        rcases b3 it hit with h | h | h
        · exact h
        · omega
        · omega
      obtain ⟨h1, h2, h3⟩ := hcl it hitc hlt2 hfrom
      refine ⟨?_, ?_, ?_⟩
      · intro hcomp j hj hjs k1 k2
        have hjc : j ∈ c.S := by
          rcases b3 j hj with h | h | h
          · exact h
          · omega
          · omega
        rcases h1 hcomp j hjc hjs k1 k2 with h | h
        · exact Or.inl (b2 _ h)
        · simp at h
      · intro k1 k2 p hp
        rcases h2 k1 k2 p hp with h | h
        · exact Or.inl (b2 _ h)
        · simp at h
      · intro k1 k2 k3 k4
        rcases h3 k1 k2 k3 k4 with h | h
        · exact Or.inl (b2 _ h)
        · simp at h

theorem positions_settled (G : List (List lit)) (N : List Nat) (s : List Char) (fuel : Nat) :
    ∀ (k n : Nat) (c cF : cstate), settled G s n c →
      outcome.foldl (fun c n => closure G N s n fuel c) c (List.range' n k) = outcome.ret cF →
      settled G s (n + k) cF := by
  intro k
  induction k with
  | zero =>
    intro n c cF hc h
    simp only [List.range'_zero, outcome.foldl, outcome.ret.injEq] at h
    subst h
    exact hc
  | succ k ih =>
    intro n c cF hc h
    simp only [List.range'_succ, outcome.foldl] at h
    cases hcl : closure G N s n fuel c with
    | ret c1 =>
      rw [hcl] at h
      simp only [outcome.bind] at h
      have := ih (n + 1) c1 cF (closure_settled G N s n fuel c c1 hc hcl) h
      have e : n + (k + 1) = n + 1 + k := by omega
      rw [e]
      exact this
    | throws e => rw [hcl] at h; simp [outcome.bind] at h
    | diverge => rw [hcl] at h; simp [outcome.bind] at h

/-- The chart `recognize` ends with is closed under completion, prediction and
scanning, for every item within the input whose start is not behind its
set. -/
theorem chart_closed (G : List (List lit)) (start : lit) (N : List Nat) (s : List Char)
    (c : cstate) (h : chart G start N s = outcome.ret c) :
    c.t = [] ∧
      ∀ it, it ∈ c.S → it.from_ ≤ it.set → it.set ≤ s.length → closed_in G s c.S c.S [] it := by
  unfold chart at h
  rw [List.range_eq_range'] at h
  have hseed : settled G s 0
      { S := (nts G start).foldl (fun S n => set_insert item.lt ⟨0, n, 0, 1⟩ S) []
        t := [], advancers := [], completers := [] } := by
    refine ⟨rfl, ?_, fun it _ hlt => by omega⟩
    refine list_foldl_inv _ (fun S : List item => ∀ j, j ∈ S → j.set ≤ 0) _ ?_ _ (by simp)
    intro S n _ hS j hj
    rcases (mem_set_insert _ _ _ _).1 hj with rfl | hj
    · exact Nat.le_refl _
    · exact hS j hj
  have hfin := positions_settled G N s _ (s.length + 1) 0 _ c hseed h
  obtain ⟨h1, h2, h3⟩ := hfin
  refine ⟨h1, ?_⟩
  intro it hit hfrom hlen
  exact h3 it hit (by omega) hfrom

end earley

/-! ## Packings of the forest -/

namespace earley

theorem walk_tiles (G : List (List lit)) (citem : List item) (inputstr : List Char)
    (xset : Nat) : ∀ (syms : List lit) (x : Nat) (chs : List lit) (e : Nat),
    walk G citem inputstr xset syms x chs e →
      tiles x chs e ∧ List.Forall₂ (child_ok G citem inputstr xset) syms chs := by
  intro syms
  induction syms with
  | nil =>
    intro x chs e h
    cases chs with
    | nil => exact ⟨h, List.Forall₂.nil⟩
    | cons ch chs => simp [walk] at h
  | cons sym syms ih =>
    intro x chs e h
    cases chs with
    | nil => simp [walk] at h
    | cons ch chs =>
      simp only [walk] at h
      obtain ⟨h1, h2, h3⟩ := h
      obtain ⟨i1, i2⟩ := ih _ _ _ h3
      exact ⟨⟨h1, i1⟩, List.Forall₂.cons h2 i2⟩

theorem sbl_walk (G : List (List lit)) (citem : List item) (inputstr : List Char)
    (eitem : item) : ∀ (m : Nat) (curchd : List lit) (xfrom : Nat) (amb amb1 : List (List lit)),
    m = (P G eitem.prod).length - (curchd.length + 1) →
    (∀ b, curchd.getLast? = some b → b.to_ = xfrom) →
    sbl_chd_forest_aux G citem inputstr eitem m curchd xfrom amb = outcome.ret amb1 →
    ∀ pack, pack ∈ amb1 → pack ∈ amb ∨
      (pack ≠ [] ∧ ∃ rest, pack = curchd ++ rest ∧
        walk G citem inputstr eitem.set ((P G eitem.prod).drop (curchd.length + 1)) xfrom rest
          eitem.set) := by
  intro m
  induction m with
  | zero =>
    intro curchd xfrom amb amb1 hm hlast h pack hp
    simp only [sbl_chd_forest_aux] at h
    cases hb : curchd.getLast? with
    | none => rw [hb] at h; simp at h
    | some b =>
      rw [hb] at h
      simp only at h
      split at h
      · rename_i hto
        simp only [outcome.ret.injEq] at h
        subst h
        rcases (mem_set_insert _ _ _ _).1 hp with rfl | hp
        · right
          refine ⟨?_, [], by simp, ?_⟩
          · intro hnil; rw [hnil] at hb; simp at hb
          · rw [List.drop_eq_nil_of_le (by omega)]
            simp only [walk]
            rw [← hlast b hb]
            exact hto
        · exact Or.inl hp
      · simp only [outcome.ret.injEq] at h
        subst h
        exact Or.inl hp
  | succ m ih =>
    intro curchd xfrom amb amb1 hm hlast h pack hp
    have hlen : curchd.length + 1 < (P G eitem.prod).length := by omega
    have hsym : sym_at G eitem.prod (curchd.length + 1) =
        (P G eitem.prod)[curchd.length + 1] := by
      unfold sym_at
      simp [List.getD_eq_getElem?_getD, List.getElem?_eq_getElem hlen]
    have hdrop : (P G eitem.prod).drop (curchd.length + 1) =
        sym_at G eitem.prod (curchd.length + 1) ::
          (P G eitem.prod).drop (curchd.length + 1 + 1) := by
      rw [hsym]
      exact List.drop_eq_getElem_cons hlen
    have hrec : ∀ (child : lit) (x1 : Nat) (a a1 : List (List lit)),
        child.from_ = xfrom → child.to_ = x1 →
        child_ok G citem inputstr eitem.set (sym_at G eitem.prod (curchd.length + 1)) child →
        sbl_chd_forest_aux G citem inputstr eitem m (curchd ++ [child]) x1 a = outcome.ret a1 →
        ∀ pack, pack ∈ a1 → pack ∈ a ∨
          (pack ≠ [] ∧ ∃ rest, pack = curchd ++ rest ∧
            walk G citem inputstr eitem.set ((P G eitem.prod).drop (curchd.length + 1)) xfrom
              rest eitem.set) := by
      intro child x1 a a1 hfrom hto hok hcall pack hp
      have := ih (curchd ++ [child]) x1 a a1 (by simp; omega)
        (by intro b hb; simp at hb; rw [← hb]; exact hto) hcall pack hp
      rcases this with h1 | ⟨h1, rest, h2, h3⟩
      · exact Or.inl h1
      · right
        refine ⟨h1, child :: rest, by simpa using h2, ?_⟩
        rw [hdrop]
        simp only [walk]
        refine ⟨hfrom, hok, ?_⟩
        rw [hto]
        simpa using h3
    simp only [sbl_chd_forest_aux] at h
    by_cases hnt : (sym_at G eitem.prod (curchd.length + 1)).nt = true
    · simp only [hnt, Bool.not_true, Bool.false_eq_true, if_false] at h
      have hinv := outcome.foldl_inv _
        (fun a : List (List lit) => ∀ pack, pack ∈ a → pack ∈ amb ∨
          (pack ≠ [] ∧ ∃ rest, pack = curchd ++ rest ∧
            walk G citem inputstr eitem.set ((P G eitem.prod).drop (curchd.length + 1)) xfrom
              rest eitem.set)) _ ?_ amb amb1 (fun _ h => Or.inl h) h
      · exact hinv pack hp
      · intro a v a1 hv ha hstep pack hp
        split at hstep
        · simp only [outcome.ret.injEq] at hstep
          subst hstep
          exact ha pack hp
        · rename_i hset
          obtain ⟨f1, f2, f3, _⟩ := find_all_mem hv
          have := hrec ⟨(sym_at G eitem.prod (curchd.length + 1)).v, xfrom, v.set⟩ v.set a a1 rfl rfl
            ⟨rfl, fun h0 => (by rw [hnt] at h0; cases h0), fun h0 => (by rw [hnt] at h0; cases h0),
              fun _ => ⟨v, f1, f2, rfl, f3, by omega⟩⟩ hstep pack hp
          rcases this with h1 | h1
          · exact ha pack h1
          · exact Or.inr h1
    · have hnt2 : (sym_at G eitem.prod (curchd.length + 1)).nt = false := by simpa using hnt
      simp only [hnt2, Bool.not_false, if_true] at h
      by_cases hc : (sym_at G eitem.prod (curchd.length + 1)).c = Char.ofNat 0
      · rw [if_pos hc] at h
        exact hrec ⟨(sym_at G eitem.prod (curchd.length + 1)).v, xfrom, xfrom⟩ xfrom amb amb1 rfl rfl
          ⟨rfl, fun _ _ => rfl, fun _ h0 => absurd hc h0,
            fun h0 => (by rw [hnt2] at h0; cases h0)⟩ h pack hp
      · rw [if_neg hc] at h
        cases hget : inputstr.get? xfrom with
        | none => rw [hget] at h; simp at h
        | some ch =>
          rw [hget] at h
          simp only at h
          split at h
          · rename_i hch
            exact hrec ⟨(sym_at G eitem.prod (curchd.length + 1)).v, xfrom, xfrom + 1⟩ (xfrom + 1) amb amb1 rfl rfl
              ⟨rfl, fun _ h0 => absurd h0 hc, fun _ _ => ⟨rfl, by rw [← hch]; exact hget⟩,
                fun h0 => (by rw [hnt2] at h0; cases h0)⟩ h pack hp
          · simp only [outcome.ret.injEq] at h
            subst h
            exact Or.inl hp

/-- The packings a call `sbl_chd_forest(cur, {}, cur.from, ambset)` adds are
packings of `cur`. -/
theorem sbl_packing_of (G : List (List lit)) (citem : List item) (inputstr : List Char)
    (cur : item) (amb amb1 : List (List lit))
    (h : sbl_chd_forest G citem inputstr cur [] cur.from_ amb = outcome.ret amb1) :
    ∀ pack, pack ∈ amb1 → pack ∈ amb ∨ packing_of G citem inputstr cur pack := by
  intro pack hp
  unfold sbl_chd_forest at h
  rcases sbl_walk G citem inputstr cur _ [] cur.from_ amb amb1 rfl (by simp) h pack hp with
    h1 | ⟨h1, rest, h2, h3⟩
  · exact Or.inl h1
  · right
    simp only [List.nil_append] at h2
    subst h2
    refine ⟨h1, ?_⟩
    simpa using h3

end earley

theorem map_find_mem {α β : Type} [DecidableEq α] (k : α) (v : β) (m : List (α × β))
    (h : map_find k m = some v) : (k, v) ∈ m := by
  induction m with
  | nil => simp [map_find] at h
  | cons kv m ih =>
    obtain ⟨k1, v1⟩ := kv
    simp only [map_find] at h
    split at h
    · rename_i hk
      simp only [Option.some.injEq] at h
      subst hk; subst h
      exact List.mem_cons_self _ _
    · exact List.mem_cons_of_mem _ (ih h)

theorem mem_map_assign {α β : Type} [DecidableEq α] (lt : α → α → Bool) (k : α) (v : β)
    (m : List (α × β)) (k1 : α) (v1 : β) (h : (k1, v1) ∈ map_assign lt k v m) :
    (k1 = k ∧ v1 = v) ∨ (k1, v1) ∈ m := by
  unfold map_assign at h
  split at h
  · rw [List.mem_map] at h
    obtain ⟨kv, hkv, he⟩ := h
    split at he
    · simp only [Prod.mk.injEq] at he
      exact Or.inl ⟨he.1.symm, he.2.symm⟩
    · exact Or.inr (he ▸ hkv)
  · rw [List.mem_orderedInsert] at h
    rcases h with h | h
    · simp only [Prod.mk.injEq] at h
      exact Or.inl h
    · exact Or.inr h

theorem map_find_replace {α β : Type} [DecidableEq α] (k : α) (v : β) (k1 : α) :
    ∀ m : List (α × β),
    map_find k1 (m.map (fun kv => if kv.1 = k then (k, v) else kv)) =
      if k1 = k then (if (map_find k m).isSome then some v else none) else map_find k1 m := by
  intro m
  induction m with
  | nil => simp [map_find]
  | cons kv m ih =>
    obtain ⟨k2, v2⟩ := kv
    by_cases h2 : k2 = k
    · have e : (if (k2, v2).1 = k then (k, v) else (k2, v2)) = (k, v) := if_pos h2
      rw [List.map_cons, e]
      subst h2
      by_cases h1 : k1 = k2
      · subst h1
        simp [map_find]
      · simp [map_find, h1, ih]
    · have e : (if (k2, v2).1 = k then (k, v) else (k2, v2)) = (k2, v2) := if_neg h2
      rw [List.map_cons, e]
      by_cases h1 : k1 = k
      · subst h1
        have h3 : ¬ k1 = k2 := fun e => h2 e.symm
        simp [map_find, h3, ih]
      · simp [map_find, h1, ih]

theorem map_find_orderedInsert {α β : Type} [DecidableEq α] (r : α × β → α × β → Prop)
    [DecidableRel r] (k : α) (v : β) (k1 : α) :
    ∀ m : List (α × β), map_find k m = none →
    map_find k1 (m.orderedInsert r (k, v)) = if k1 = k then some v else map_find k1 m := by
  intro m
  induction m with
  | nil => intro _; simp [map_find]
  | cons kv m ih =>
    obtain ⟨k2, v2⟩ := kv
    intro hk
    simp only [map_find] at hk
    split at hk
    · cases hk
    · rename_i hk2
      simp only [List.orderedInsert]
      split
      · simp only [map_find]
      · simp only [map_find, ih hk]
        by_cases h1 : k1 = k
        · subst h1
          simp [hk2]
        · simp [h1]

theorem map_find_assign {α β : Type} [DecidableEq α] (lt : α → α → Bool) (k : α) (v : β)
    (m : List (α × β)) (k1 : α) :
    map_find k1 (map_assign lt k v m) = if k1 = k then some v else map_find k1 m := by
  unfold map_assign
  split
  · rename_i h
    rw [map_find_replace, h]
    simp
  · rename_i h
    have hn : map_find k m = none := by
      cases hf : map_find k m with
      | none => rfl
      | some x => rw [hf] at h; simp at h
    exact map_find_orderedInsert _ k v k1 m hn

namespace earley

theorem forest_children_inv (call : ptree_t → lit → outcome (Bool × ptree_t))
    (Inv : ptree_t → Prop)
    (hcall : ∀ pf nxt r, Inv pf → call pf nxt = outcome.ret r → Inv r.2)
    (pf : ptree_t) (ambset : List (List lit)) (pf2 : ptree_t) (h0 : Inv pf)
    (h : forest_children call pf ambset = outcome.ret pf2) : Inv pf2 := by
  refine outcome.foldl_inv _ Inv _ ?_ _ _ h0 h
  intro pfa aset pfb _ hinva hfa
  refine outcome.foldl_inv _ Inv _ ?_ _ _ hinva hfa
  intro pfc nxt pfd _ hinvc hfc
  rw [outcome.bind_eq_ret] at hfc
  obtain ⟨r1, hr1, hr2⟩ := hfc
  simp only [outcome.ret.injEq] at hr2
  subst hr2
  exact hcall pfc nxt r1 hinvc hr1

/-- Every call of `forest` stores packings of completed items of the node
only. -/
theorem forest_packs (G : List (List lit)) (citem : List item) (inputstr : List Char) :
    ∀ fuel pf root r, packs_ok G citem inputstr pf →
      forest G citem inputstr fuel pf root = outcome.ret r → packs_ok G citem inputstr r.2 := by
  intro fuel
  induction fuel with
  | zero => intro pf root r _ h; simp [forest] at h
  | succ fuel ih =>
    intro pf root r hpf h
    simp only [forest] at h
    split at h
    · simp only [outcome.ret.injEq] at h; subst h; exact hpf
    · rename_i hnt
      have hnt2 : root.nt = true := by simpa using hnt
      split at h
      · simp only [outcome.ret.injEq] at h; subst h; exact hpf
      · rw [outcome.bind_eq_ret] at h
        obtain ⟨st, hst, hr⟩ := h
        simp only [outcome.ret.injEq] at hr
        subst hr
        have hinv := outcome.foldl_inv _
          (fun st : ptree_t × List (List lit) => packs_ok G citem inputstr st.1 ∧
            ∀ pack, pack ∈ st.2 → ∃ cur, cur ∈ find_all G citem root.from_ root.n root.to_ ∧
              packing_of G citem inputstr cur pack) _ ?_ _ _ ⟨hpf, by simp⟩ hst
        · exact hinv.1
        · intro st1 cur st2 hcur hst1 hstep
          unfold forest_item at hstep
          rw [outcome.bind_eq_ret] at hstep
          obtain ⟨ambset, hamb, hstep⟩ := hstep
          rw [outcome.bind_eq_ret] at hstep
          obtain ⟨pf2, hpf2, hst2⟩ := hstep
          simp only [outcome.ret.injEq] at hst2
          subst hst2
          have hambok : ∀ pack, pack ∈ ambset →
              ∃ cur, cur ∈ find_all G citem root.from_ root.n root.to_ ∧
                packing_of G citem inputstr cur pack := by
            intro pack hp
            rcases sbl_packing_of G citem inputstr cur st1.2 ambset hamb pack hp with h1 | h1
            · exact hst1.2 pack h1
            · exact ⟨cur, hcur, h1⟩
          refine ⟨?_, hambok⟩
          refine forest_children_inv _ (packs_ok G citem inputstr) ?_ _ _ _ ?_ hpf2
          · intro pfa nxt ra hpfa hcall
            exact ih pfa nxt ra hpfa hcall
          · intro k ps hk pack hp
            rcases mem_map_assign _ _ _ _ _ _ hk with ⟨h1, h2⟩ | h1
            · rw [(node_of_find_all hnt2 hcur).1] at h1
              subst h1; subst h2
              exact ⟨hnt2, hambok pack hp⟩
            · exact hst1.1 k ps h1 pack hp

theorem extends_full_refl (G : List (List lit)) (citem : List item) (inputstr : List Char)
    (pf : ptree_t) : extends_full G citem inputstr pf pf :=
  ⟨fun _ _ h => h, fun _ _ h => Or.inl h⟩

theorem extends_full_trans (G : List (List lit)) (citem : List item) (inputstr : List Char)
    {a b c : ptree_t} (h1 : extends_full G citem inputstr a b)
    (h2 : extends_full G citem inputstr b c) : extends_full G citem inputstr a c := by
  refine ⟨fun k ps h => h2.1 k ps (h1.1 k ps h), ?_⟩
  intro k ps h
  rcases h2.2 k ps h with h3 | h3
  · exact h1.2 k ps h3
  · exact Or.inr h3

/-- The second component of the loop of `forest` is the `ambset` the calls of
`sbl_chd_forest` build up. -/
theorem forest_loop_amb (G : List (List lit)) (citem : List item) (inputstr : List Char)
    (call : ptree_t → lit → outcome (Bool × ptree_t)) :
    ∀ (l : List item) (st st2 : ptree_t × List (List lit)),
      outcome.foldl (forest_item G citem inputstr call) st l = outcome.ret st2 →
      outcome.foldl (fun amb cur => sbl_chd_forest G citem inputstr cur [] cur.from_ amb) st.2 l =
        outcome.ret st2.2 := by
  intro l
  induction l with
  | nil =>
    intro st st2 h
    simp only [outcome.foldl, outcome.ret.injEq] at h ⊢
    rw [h]
  | cons cur l ih =>
    intro st st2 h
    simp only [outcome.foldl] at h ⊢
    rw [outcome.bind_eq_ret] at h
    obtain ⟨st1, hst1, hrest⟩ := h
    have hamb : sbl_chd_forest G citem inputstr cur [] cur.from_ st.2 = outcome.ret st1.2 := by
      unfold forest_item at hst1
      rw [outcome.bind_eq_ret] at hst1
      obtain ⟨ambset, hamb, hst1⟩ := hst1
      rw [outcome.bind_eq_ret] at hst1
      obtain ⟨pf2, _, hst2⟩ := hst1
      simp only [outcome.ret.injEq] at hst2
      subst hst2
      exact hamb
    rw [hamb]
    simp only [outcome.bind]
    exact ih st1 st2 hrest

/-- Every call of `forest` keeps the entries of `pfgraph` and stores, for a
new key, all the packings of the node. -/
theorem forest_extends (G : List (List lit)) (citem : List item) (inputstr : List Char) :
    ∀ fuel pf root r, forest G citem inputstr fuel pf root = outcome.ret r →
      extends_full G citem inputstr pf r.2 := by
  intro fuel
  induction fuel with
  | zero => intro pf root r h; simp [forest] at h
  | succ fuel ih =>
    intro pf root r h
    simp only [forest] at h
    split at h
    · simp only [outcome.ret.injEq] at h; subst h; exact extends_full_refl _ _ _ _
    · rename_i hnt
      have hnt2 : root.nt = true := by simpa using hnt
      split at h
      · simp only [outcome.ret.injEq] at h; subst h; exact extends_full_refl _ _ _ _
      · rename_i hvis
        have hnone : map_find root pf = none := by
          cases hf : map_find root pf with
          | none => rfl
          | some x => rw [hf] at hvis; simp at hvis
        rw [outcome.bind_eq_ret] at h
        obtain ⟨st, hst, hr⟩ := h
        simp only [outcome.ret.injEq] at hr
        subst hr
        have hamb := forest_loop_amb G citem inputstr _ _ _ _ hst
        have hinv := outcome.foldl_inv _
          (fun st : ptree_t × List (List lit) =>
            (∀ k ps, map_find k pf = some ps → map_find k st.1 = some ps) ∧
            (∀ k ps, k ≠ root → map_find k st.1 = some ps → map_find k pf = some ps ∨
              (k.nt = true ∧ all_packings G citem inputstr k = outcome.ret ps)) ∧
            (map_find root st.1 = none ∨ map_find root st.1 = some st.2)) _ ?_ _ _
          ⟨fun _ _ h => h, fun _ _ _ h => Or.inl h, Or.inl hnone⟩ hst
        · obtain ⟨i1, i2, i3⟩ := hinv
          refine ⟨i1, ?_⟩
          intro k ps hk
          by_cases hkr : k = root
          · subst hkr
            rcases i3 with h3 | h3
            · rw [h3] at hk; cases hk
            · rw [h3] at hk
              simp only [Option.some.injEq] at hk
              subst hk
              exact Or.inr ⟨hnt2, hamb⟩
          · exact i2 k ps hkr hk
        · intro st1 cur st2 hcur hst1 hstep
          obtain ⟨i1, i2, _⟩ := hst1
          unfold forest_item at hstep
          rw [outcome.bind_eq_ret] at hstep
          obtain ⟨ambset, _, hstep⟩ := hstep
          rw [outcome.bind_eq_ret] at hstep
          obtain ⟨pf2, hpf2, hst2⟩ := hstep
          simp only [outcome.ret.injEq] at hst2
          subst hst2
          rw [(node_of_find_all hnt2 hcur).1] at hpf2
          have hch : extends_full G citem inputstr (map_assign lit.lt root ambset st1.1) pf2 := by
            refine forest_children_inv _
              (fun pfa => extends_full G citem inputstr (map_assign lit.lt root ambset st1.1) pfa)
              ?_ _ _ _ (extends_full_refl _ _ _ _) hpf2
            intro pfa nxt ra hpfa hcall
            exact extends_full_trans G citem inputstr hpfa (ih pfa nxt ra hcall)
          refine ⟨?_, ?_, ?_⟩
          · intro k ps hk
            apply hch.1
            rw [map_find_assign]
            have hkr : k ≠ root := by
              intro e; rw [e, hnone] at hk; cases hk
            rw [if_neg hkr]
            exact i1 k ps hk
          · intro k ps hkr hk
            rcases hch.2 k ps hk with h3 | h3
            · rw [map_find_assign, if_neg hkr] at h3
              exact i2 k ps hkr h3
            · exact Or.inr h3
          · right
            apply hch.1
            rw [map_find_assign, if_pos rfl]

/-- The calls of `sbl_chd_forest` do not look at `ambset`: a call that returns
on `a1` returns on any smaller `a2`, and adds the same packings. -/
theorem sbl_acc (G : List (List lit)) (citem : List item) (inputstr : List Char)
    (eitem : item) : ∀ (m : Nat) (curchd : List lit) (xfrom : Nat) (a1 a2 r1 : List (List lit)),
    (∀ p, p ∈ a2 → p ∈ a1) →
    sbl_chd_forest_aux G citem inputstr eitem m curchd xfrom a1 = outcome.ret r1 →
    ∃ r2, sbl_chd_forest_aux G citem inputstr eitem m curchd xfrom a2 = outcome.ret r2 ∧
      (∀ p, p ∈ r1 ↔ p ∈ a1 ∨ p ∈ r2) ∧ (∀ p, p ∈ a2 → p ∈ r2) := by
  intro m
  induction m with
  | zero =>
    intro curchd xfrom a1 a2 r1 hsub h
    simp only [sbl_chd_forest_aux] at h ⊢
    cases hb : curchd.getLast? with
    | none => rw [hb] at h; simp at h
    | some b =>
      rw [hb] at h
      simp only at h ⊢
      split at h
      · rename_i hto
        simp only [outcome.ret.injEq] at h
        subst h
        refine ⟨_, by rw [if_pos hto], ?_, ?_⟩
        · intro p
          simp only [mem_set_insert]
          constructor
          · rintro (h1 | h1)
            · exact Or.inr (Or.inl h1)
            · exact Or.inl h1
          · rintro (h1 | h1 | h1)
            · exact Or.inr h1
            · exact Or.inl h1
            · exact Or.inr (hsub p h1)
        · intro p hp
          exact (mem_set_insert _ _ _ _).2 (Or.inr hp)
      · rename_i hto
        simp only [outcome.ret.injEq] at h
        subst h
        refine ⟨_, by rw [if_neg hto], ?_, fun p hp => hp⟩
        intro p
        constructor
        · exact Or.inl
        · rintro (h1 | h1)
          · exact h1
          · exact hsub p h1
  | succ m ih =>
    intro curchd xfrom a1 a2 r1 hsub h
    simp only [sbl_chd_forest_aux] at h ⊢
    have hnone : ∃ r2, outcome.ret a2 = outcome.ret r2 ∧
        (∀ p, p ∈ a1 ↔ p ∈ a1 ∨ p ∈ r2) ∧ (∀ p, p ∈ a2 → p ∈ r2) := by
      refine ⟨a2, rfl, ?_, fun p hp => hp⟩
      intro p
      constructor
      · exact Or.inl
      · rintro (h1 | h1)
        · exact h1
        · exact hsub p h1
    by_cases hnt : (sym_at G eitem.prod (curchd.length + 1)).nt = true
    · simp only [hnt, Bool.not_true, Bool.false_eq_true, if_false] at h ⊢
      have key : ∀ (l : List item) (b1 b2 r1 : List (List lit)),
          (∀ p, p ∈ b1 ↔ p ∈ a1 ∨ p ∈ b2) → (∀ p, p ∈ a2 → p ∈ b2) →
          outcome.foldl
            (fun amb v =>
              if v.set > eitem.set then outcome.ret amb
              else
                sbl_chd_forest_aux G citem inputstr eitem m
                  (curchd ++ [{ sym_at G eitem.prod (curchd.length + 1) with
                                from_ := xfrom, to_ := v.set }])
                  v.set amb) b1 l = outcome.ret r1 →
          ∃ r2, outcome.foldl
            (fun amb v =>
              if v.set > eitem.set then outcome.ret amb
              else
                sbl_chd_forest_aux G citem inputstr eitem m
                  (curchd ++ [{ sym_at G eitem.prod (curchd.length + 1) with
                                from_ := xfrom, to_ := v.set }])
                  v.set amb) b2 l = outcome.ret r2 ∧
            (∀ p, p ∈ r1 ↔ p ∈ a1 ∨ p ∈ r2) ∧ (∀ p, p ∈ a2 → p ∈ r2) := by
        intro l
        induction l with
        | nil =>
          intro b1 b2 r1 hb h2 hf
          simp only [outcome.foldl, outcome.ret.injEq] at hf
          subst hf
          exact ⟨b2, rfl, hb, h2⟩
        | cons v l ihl =>
          intro b1 b2 r1 hb h2 hf
          simp only [outcome.foldl] at hf ⊢
          rw [outcome.bind_eq_ret] at hf
          obtain ⟨c1, hc1, hrest⟩ := hf
          by_cases hset : v.set > eitem.set
          · rw [if_pos hset] at hc1 ⊢
            simp only [outcome.ret.injEq] at hc1
            subst hc1
            simp only [outcome.bind]
            exact ihl b1 b2 r1 hb h2 hrest
          · rw [if_neg hset] at hc1 ⊢
            obtain ⟨c2, hc2, k1, k2⟩ := ih _ _ b1 b2 c1 (fun p hp => (hb p).2 (Or.inr hp)) hc1
            rw [hc2]
            simp only [outcome.bind]
            refine ihl c1 c2 r1 ?_ (fun p hp => k2 p (h2 p hp)) hrest
            intro p
            rw [k1 p, hb p]
            constructor
            · rintro ((h3 | h3) | h3)
              · exact Or.inl h3
              · exact Or.inr (k2 p h3)
              · exact Or.inr h3
            · rintro (h3 | h3)
              · exact Or.inl (Or.inl h3)
              · exact Or.inr h3
      refine key _ a1 a2 r1 ?_ (fun p hp => hp) h
      intro p
      constructor
      · exact Or.inl
      · rintro (h1 | h1)
        · exact h1
        · exact hsub p h1
    · have hnt2 : (sym_at G eitem.prod (curchd.length + 1)).nt = false := by simpa using hnt
      simp only [hnt2, Bool.not_false, if_true] at h ⊢
      by_cases hc : (sym_at G eitem.prod (curchd.length + 1)).c = Char.ofNat 0
      · rw [if_pos hc] at h ⊢
        exact ih _ _ a1 a2 r1 hsub h
      · rw [if_neg hc] at h ⊢
        cases hget : inputstr.get? xfrom with
        | none => rw [hget] at h; simp at h
        | some ch =>
          rw [hget] at h
          simp only at h ⊢
          split at h
          · rename_i hch
            rw [if_pos hch]
            exact ih _ _ a1 a2 r1 hsub h
          · rename_i hch
            rw [if_neg hch]
            simp only [outcome.ret.injEq] at h
            subst h
            exact hnone

/-- The packings of a node are the union of the packings of its completed
items. -/
theorem all_packings_mem (G : List (List lit)) (citem : List item) (inputstr : List Char) :
    ∀ (l : List item) (a ps : List (List lit)),
    outcome.foldl (fun amb cur => sbl_chd_forest G citem inputstr cur [] cur.from_ amb) a l =
      outcome.ret ps →
    ∀ pack, pack ∈ ps ↔ pack ∈ a ∨ ∃ cur, cur ∈ l ∧ ∃ X,
      sbl_chd_forest G citem inputstr cur [] cur.from_ [] = outcome.ret X ∧ pack ∈ X := by
  intro l
  induction l with
  | nil =>
    intro a ps h pack
    simp only [outcome.foldl, outcome.ret.injEq] at h
    subst h
    simp
  | cons cur l ih =>
    intro a ps h pack
    simp only [outcome.foldl] at h
    rw [outcome.bind_eq_ret] at h
    obtain ⟨a1, ha1, hrest⟩ := h
    obtain ⟨X, hX, k1, _⟩ := sbl_acc G citem inputstr cur _ [] cur.from_ a [] a1
      (fun p hp => by simp at hp) ha1
    rw [ih a1 ps hrest pack, k1 pack]
    constructor
    · rintro ((h1 | h1) | ⟨c, hc, Y, hY, hp⟩)
      · exact Or.inl h1
      · exact Or.inr ⟨cur, List.mem_cons_self _ _, X, hX, h1⟩
      · exact Or.inr ⟨c, List.mem_cons_of_mem _ hc, Y, hY, hp⟩
    · rintro (h1 | ⟨c, hc, Y, hY, hp⟩)
      · exact Or.inl (Or.inl h1)
      · rcases List.mem_cons.mp hc with rfl | hc
        · left; right
          have e : sbl_chd_forest G citem inputstr c [] c.from_ [] = outcome.ret X := hX
          rw [e] at hY
          simp only [outcome.ret.injEq] at hY
          subst hY
          exact hp
        · exact Or.inr ⟨c, hc, Y, hY, hp⟩

theorem mem_find_all_any (G : List (List lit)) (citem : List item) (xfrom nt : Nat) (i : item) :
    i ∈ find_all G citem xfrom nt (-1) ↔
      i ∈ citem ∧ i.from_ = xfrom ∧ i.prod ∈ nts G (lit.of_n nt) := by
  unfold find_all
  rw [List.mem_filter]
  simp only [Bool.and_eq_true, Bool.or_eq_true, decide_eq_true_eq]
  constructor
  · rintro ⟨h1, ⟨h2, h3⟩, _⟩
    exact ⟨h1, h2, h3⟩
  · rintro ⟨h1, h2, h3⟩
    exact ⟨h1, ⟨h2, h3⟩, Or.inr trivial⟩

/-- The step of `sbl_chd_forest` at a non-terminal: every completed item for
it that starts at `xfrom` is looked at, and each one that does not end behind
`eitem.set` is taken as the child. -/
theorem sbl_step_nt (G : List (List lit)) (citem : List item) (inputstr : List Char)
    (eitem : item) (curchd : List lit) (xfrom : Nat) (amb : List (List lit))
    (hlen : curchd.length + 1 < (P G eitem.prod).length)
    (hnt : (sym_at G eitem.prod (curchd.length + 1)).nt = true) :
    sbl_chd_forest G citem inputstr eitem curchd xfrom amb =
      outcome.foldl
        (fun amb v =>
          if v.set > eitem.set then outcome.ret amb
          else
            sbl_chd_forest G citem inputstr eitem
              (curchd ++ [{ sym_at G eitem.prod (curchd.length + 1) with
                            from_ := xfrom, to_ := v.set }])
              v.set amb)
        amb (find_all G citem xfrom (sym_at G eitem.prod (curchd.length + 1)).n (-1)) := by
  unfold sbl_chd_forest
  obtain ⟨m, hm⟩ : ∃ m, (P G eitem.prod).length - (curchd.length + 1) = m + 1 :=
    ⟨(P G eitem.prod).length - (curchd.length + 1) - 1, by omega⟩
  have hm2 : ∀ ch : lit, (P G eitem.prod).length - ((curchd ++ [ch]).length + 1) = m := by
    intro ch
    simp only [List.length_append, List.length_singleton]
    omega
  rw [hm]
  simp only [sbl_chd_forest_aux, hnt, Bool.not_true, Bool.false_eq_true, if_false, hm2]

/-- The step of `sbl_chd_forest` at a terminal that is not the character of
the input at `xfrom`: the walk ends and `ambset` is left as it is. -/
theorem sbl_step_mismatch (G : List (List lit)) (citem : List item) (inputstr : List Char)
    (eitem : item) (curchd : List lit) (xfrom : Nat) (amb : List (List lit)) (ch : Char)
    (hlen : curchd.length + 1 < (P G eitem.prod).length)
    (hnt : (sym_at G eitem.prod (curchd.length + 1)).nt = false)
    (hc : (sym_at G eitem.prod (curchd.length + 1)).c ≠ Char.ofNat 0)
    (hget : inputstr.get? xfrom = some ch)
    (hch : ch ≠ (sym_at G eitem.prod (curchd.length + 1)).c) :
    sbl_chd_forest G citem inputstr eitem curchd xfrom amb = outcome.ret amb := by
  unfold sbl_chd_forest
  obtain ⟨m, hm⟩ : ∃ m, (P G eitem.prod).length - (curchd.length + 1) = m + 1 :=
    ⟨(P G eitem.prod).length - (curchd.length + 1) - 1, by omega⟩
  rw [hm]
  simp only [sbl_chd_forest_aux, hnt, Bool.not_false, if_true, if_neg hc, hget, if_neg hch]

theorem walk_child (G : List (List lit)) (citem : List item) (inputstr : List Char)
    (xset : Nat) : ∀ (syms : List lit) (x : Nat) (chs : List lit) (e : Nat),
    walk G citem inputstr xset syms x chs e →
      ∀ ch, ch ∈ chs → ∃ sym, sym ∈ syms ∧ child_ok G citem inputstr xset sym ch := by
  intro syms
  induction syms with
  | nil =>
    intro x chs e h ch hch
    cases chs with
    | nil => simp at hch
    | cons c chs => simp [walk] at h
  | cons sym syms ih =>
    intro x chs e h ch hch
    cases chs with
    | nil => simp at hch
    | cons c chs =>
      simp only [walk] at h
      obtain ⟨_, h2, h3⟩ := h
      rcases List.mem_cons.mp hch with rfl | hch
      · exact ⟨sym, List.mem_cons_self _ _, h2⟩
      · obtain ⟨sy, hsy, hok⟩ := ih _ _ _ h3 ch hch
        exact ⟨sy, List.mem_cons_of_mem _ hsy, hok⟩

/-- What `child_ok` says about a child that is a terminal, and about one that
is a non-terminal. -/
theorem child_ok_cases {G : List (List lit)} {citem : List item} {inputstr : List Char}
    {xset : Nat} {sym ch : lit} (h : child_ok G citem inputstr xset sym ch) :
    (ch.nt = false → (ch.c = Char.ofNat 0 → ch.to_ = ch.from_) ∧
      (ch.c ≠ Char.ofNat 0 → ch.to_ = ch.from_ + 1 ∧ inputstr.get? ch.from_ = some ch.c)) ∧
    (ch.nt = true → ∃ v, v ∈ citem ∧ v.from_ = ch.from_ ∧ v.set = ch.to_ ∧
      v.prod ∈ nts G (lit.of_n ch.n) ∧ v.set ≤ xset) := by
  obtain ⟨h1, h2, h3, h4⟩ := h
  have hnt : ch.nt = sym.nt := by unfold lit.nt; rw [h1]
  have hc : ch.c = sym.c := by unfold lit.c; rw [h1]
  have hn : ch.n = sym.n := by unfold lit.n; rw [h1]
  rw [hnt, hc, hn]
  exact ⟨fun h0 => ⟨h2 h0, h3 h0⟩, h4⟩

theorem tiles_spec : ∀ (pack : List lit) (f t : Nat), tiles f pack t →
    (∀ a, pack.head? = some a → a.from_ = f) ∧ (∀ b, pack.getLast? = some b → b.to_ = t) ∧
    (∀ i a b, pack[i]? = some a → pack[i + 1]? = some b → b.from_ = a.to_) := by
  intro pack
  induction pack with
  | nil =>
    intro f t _
    exact ⟨fun a h => by simp at h, fun b h => by simp at h, fun i a b h => by simp at h⟩
  | cons c pack ih =>
    intro f t h
    simp only [tiles] at h
    obtain ⟨h1, h2⟩ := h
    obtain ⟨i1, i2, i3⟩ := ih _ _ h2
    refine ⟨?_, ?_, ?_⟩
    · intro a ha
      simp only [List.head?_cons, Option.some.injEq] at ha
      rw [← ha]; exact h1
    · intro b hb
      cases pack with
      | nil =>
        simp only [List.getLast?_singleton, Option.some.injEq] at hb
        simp only [tiles] at h2
        rw [← hb]; exact h2
      | cons d pack =>
        rw [List.getLast?_cons_cons] at hb
        exact i2 b hb
    · intro i a b ha hb
      cases i with
      | zero =>
        simp only [List.getElem?_cons_zero, Option.some.injEq] at ha
        simp only [zero_add, List.getElem?_cons_succ] at hb
        rw [← ha]
        have : pack.head? = some b := by
          cases pack with
          | nil => simp at hb
          | cons d pack => simpa using hb
        exact i1 b this
      | succ i =>
        simp only [List.getElem?_cons_succ] at ha hb
        exact i3 i a b ha hb

/-- The entries of `pfgraph` after a call of `recognize` on a new recognizer
are those of the forest built from the completed items of the chart. -/
theorem packings_new (g : List (String × List (List String))) (s : String) (k : lit)
    (ps : List (List lit)) (h : packings (recognize (new g) s) k = some ps) :
    ∃ c r, chart (new g).G (new g).start (new g).nullables (cstr s) = outcome.ret c ∧
      forest (new g).G (citem_of (new g) c.S) (cstr s) ((citem_of (new g) c.S).length + 1) []
        (root_of (new g) (cstr s).length) = outcome.ret r ∧
      map_find k r.2 = some ps ∧
      (∀ i, i ∈ citem_of (new g) c.S ↔ i ∈ c.S ∧ completed (new g).G i = true) := by
  cases hr : recognize (new g) s with
  | ret x =>
    rw [hr] at h
    simp only [packings] at h
    unfold recognize at hr
    rw [outcome.bind_eq_ret] at hr
    obtain ⟨c, hc, hr⟩ := hr
    rw [outcome.bind_eq_ret] at hr
    obtain ⟨r, hf, hr⟩ := hr
    simp only [outcome.ret.injEq] at hr
    subst hr
    refine ⟨c, r, hc, hf, h, ?_⟩
    intro i
    rw [mem_citem_of]
    have : (new g).citem = [] := rfl
    rw [this]
    simp
  | throws e => rw [hr] at h; simp [packings] at h
  | diverge => rw [hr] at h; simp [packings] at h

end earley

/-! ## Closure of the final chart as claims -/

namespace earley

/-- An item that goes through `add` for the first time and is nullable gets
the nullable advance: the item with the dot moved on is in the chart, with the
item registered as its advancer. -/
theorem add_nullable_advance (G : List (List lit)) (N : List Nat) (c : cstate) (i : item)
    (hS : i ∉ c.S) (ht : i ∉ c.t) (hn : nullable G N i = true) :
    ((⟨i.set, i.prod, i.from_, i.dot + 1⟩ : item) ∈ (add G N c i).S ∨
      (⟨i.set, i.prod, i.from_, i.dot + 1⟩ : item) ∈ (add G N c i).t) ∧
    ((⟨i.set, i.prod, i.from_, i.dot + 1⟩, i) : item × item) ∈ (add G N c i).advancers := by
  rw [add_eq, if_neg hS, if_neg ht, if_pos hn]
  obtain ⟨a1, _, _, a4⟩ := add_props G N { c with t := set_insert item.lt i c.t }
    ⟨i.set, i.prod, i.from_, i.dot + 1⟩
  refine ⟨?_, (mem_set_insert _ _ _ _).2 (Or.inl rfl)⟩
  rcases a4 with h | h
  · left
    show _ ∈ (add G N { c with t := set_insert item.lt i c.t }
      ⟨i.set, i.prod, i.from_, i.dot + 1⟩).S
    rw [a1]
    exact h
  · exact Or.inr h

/-- The chart of a new recognizer, with what is known of its items. -/
theorem chart_new (g : List (String × List (List String))) (s : String) :
    ∃ c, chart (new g).G (new g).start (new g).nullables (cstr s) = outcome.ret c ∧
      chart_items (chart (new g).G (new g).start (new g).nullables (cstr s)) = c.S ∧
      ∀ it, it ∈ c.S → good (new g).G (cstr s) it ∧
        closed_in (new g).G (cstr s) c.S c.S [] it := by
  obtain ⟨c, hc⟩ := chart_returns (new g).G (new g).start (new g).nullables (cstr s)
    (wf_new g) (sound_new g) (cstr_no_nul s)
  refine ⟨c, hc, by rw [hc]; rfl, ?_⟩
  intro it hit
  have hgood := (chart_good _ _ _ _ (wf_new g) (sound_new g) (cstr_no_nul s) c hc).1 it hit
  exact ⟨hgood, (chart_closed _ _ _ _ c hc).2 it hit hgood.1 hgood.2.1⟩

/-- C21 (nullable advance) at the failing inputs. For `S → S | ε` on "" the
seed item `(0, S → . S, 0, 1)` is in the chart and `S` is nullable, but
`(0, S → S ., 0, 2)` is not in the chart. For `S → a A`, `A → ε` on "a" the
scanned item `(1, S → a . A, 0, 2)` is in the chart and `A` is nullable; the
item `(1, S → a A ., 0, 3)` is in the chart, but `(1, S → a . A, 0, 2)` is not
among its advancers. Seed items and scanned items are put into `S` directly,
not through `add`. -/
theorem nullable_advance_skipped :
    ((⟨0, 0, 0, 1⟩ : item) ∈
        chart_items (chart (new g_SS).G (new g_SS).start (new g_SS).nullables (cstr "")) ∧
      (get_lit (new g_SS).G ⟨0, 0, 0, 1⟩).nt = true ∧
      (get_lit (new g_SS).G ⟨0, 0, 0, 1⟩).n ∈ (new g_SS).nullables ∧
      (⟨0, 0, 0, 2⟩ : item) ∉
        chart_items (chart (new g_SS).G (new g_SS).start (new g_SS).nullables (cstr ""))) ∧
    ((⟨1, 0, 0, 2⟩ : item) ∈
        chart_items (chart (new g_aA).G (new g_aA).start (new g_aA).nullables (cstr "a")) ∧
      (get_lit (new g_aA).G ⟨1, 0, 0, 2⟩).nt = true ∧
      (get_lit (new g_aA).G ⟨1, 0, 0, 2⟩).n ∈ (new g_aA).nullables ∧
      (⟨1, 0, 0, 3⟩ : item) ∈
        chart_items (chart (new g_aA).G (new g_aA).start (new g_aA).nullables (cstr "a")) ∧
      ((⟨1, 0, 0, 3⟩, ⟨1, 0, 0, 2⟩) : item × item) ∉
        chart_advancers
          (chart (new g_aA).G (new g_aA).start (new g_aA).nullables (cstr "a"))) := by
  refine ⟨⟨by decide, by decide, by decide, by decide⟩,
    ⟨by decide, by decide, by decide, by decide, by decide⟩⟩

/-- C22 (closed under completion): for every completed item `i = (n, p, f,
|p|)` of the chart `recognize(s)` builds and every item `j = (f, q, g, e)` of
the chart whose symbol at the dot is the left-hand side of `p`, the item
`(n, q, g, e + 1)` is in the chart; `f = n` is not excluded. -/
theorem chart_closed_complete (g : List (String × List (List String))) (s : String)
    (i j : item)
    (hi : i ∈ chart_items (chart (new g).G (new g).start (new g).nullables (cstr s)))
    (hj : j ∈ chart_items (chart (new g).G (new g).start (new g).nullables (cstr s)))
    (hc : completed (new g).G i = true) (hset : j.set = i.from_)
    (hdot : j.dot < (P (new g).G j.prod).length)
    (hsym : get_lit (new g).G j = get_nt (new g).G i) :
    (⟨i.set, j.prod, j.from_, j.dot + 1⟩ : item) ∈
      chart_items (chart (new g).G (new g).start (new g).nullables (cstr s)) := by
  obtain ⟨c, _, hS, hall⟩ := chart_new g s
  rw [hS] at hi hj ⊢
  rcases (hall i hi).2.1 hc j hj hset hdot hsym with h | h
  · exact h
  · simp at h

/-- Witness of C22: for `S → a A`, `A → ε` on "a" the completed item
`(1, A → ε ., 1, 2)` of empty span and the item `(1, S → a . A, 0, 2)` give
`(1, S → a A ., 0, 3)`. -/
theorem chart_closed_complete_witness :
    (⟨1, 1, 1, 2⟩ : item) ∈
      chart_items (chart (new g_aA).G (new g_aA).start (new g_aA).nullables (cstr "a")) ∧
    completed (new g_aA).G ⟨1, 1, 1, 2⟩ = true ∧
    (⟨1, 0, 0, 3⟩ : item) ∈
      chart_items (chart (new g_aA).G (new g_aA).start (new g_aA).nullables (cstr "a")) :=
  ⟨by decide, by decide,
    chart_closed_complete g_aA "a" ⟨1, 1, 1, 2⟩ ⟨1, 0, 0, 2⟩ (by decide) (by decide) (by decide)
      (by decide) (by decide) (by decide)⟩

/-- C23 (closed under prediction): for every item `(n, p, f, d)` of the chart
`recognize(s)` builds whose symbol at the dot is a non-terminal `A`, the item
`(n, r, n, 1)` is in the chart for every production `r` of `nts[A]`. -/
theorem chart_closed_predict (g : List (String × List (List String))) (s : String)
    (i : item) (r : Nat)
    (hi : i ∈ chart_items (chart (new g).G (new g).start (new g).nullables (cstr s)))
    (hdot : i.dot < (P (new g).G i.prod).length)
    (hnt : (get_lit (new g).G i).nt = true)
    (hr : r ∈ nts (new g).G (get_lit (new g).G i)) :
    (⟨i.set, r, i.set, 1⟩ : item) ∈
      chart_items (chart (new g).G (new g).start (new g).nullables (cstr s)) := by
  obtain ⟨c, _, hS, hall⟩ := chart_new g s
  rw [hS] at hi ⊢
  have hc : completed (new g).G i = false := by
    unfold completed
    simp only [decide_eq_false_iff_not]
    omega
  rcases (hall i hi).2.2.1 hc hnt r hr with h | h
  · exact h
  · simp at h

/-- Witness of C23: for `S → a A`, `A → ε` on "a" the item
`(1, S → a . A, 0, 2)` predicts `(1, A → . ε, 1, 1)`. -/
theorem chart_closed_predict_witness :
    (⟨1, 0, 0, 2⟩ : item) ∈
      chart_items (chart (new g_aA).G (new g_aA).start (new g_aA).nullables (cstr "a")) ∧
    (1 : Nat) ∈ nts (new g_aA).G (get_lit (new g_aA).G ⟨1, 0, 0, 2⟩) ∧
    (⟨1, 1, 1, 1⟩ : item) ∈
      chart_items (chart (new g_aA).G (new g_aA).start (new g_aA).nullables (cstr "a")) :=
  ⟨by decide, by decide,
    chart_closed_predict g_aA "a" ⟨1, 0, 0, 2⟩ 1 (by decide) (by decide) (by decide)
      (by decide)⟩

/-- C24 (closed under scanning): for every item `(n, p, f, d)` of the chart
`recognize(s)` builds whose symbol at the dot is a terminal `c`, with
`n < |s|` and `s[n] = c`, the item `(n + 1, p, f, d + 1)` is in the chart; a
call of `scan` with a character that differs from the terminal at the dot
leaves the chart as it is, and so does processing an item whose terminal at
the dot differs from `s[n]`. -/
theorem chart_closed_scan (g : List (String × List (List String))) (s : String) :
    (∀ i : item,
      i ∈ chart_items (chart (new g).G (new g).start (new g).nullables (cstr s)) →
      i.dot < (P (new g).G i.prod).length → (get_lit (new g).G i).nt = false →
      i.set < (cstr s).length →
      (cstr s).getD i.set (Char.ofNat 0) = (get_lit (new g).G i).c →
      (⟨i.set + 1, i.prod, i.from_, i.dot + 1⟩ : item) ∈
        chart_items (chart (new g).G (new g).start (new g).nullables (cstr s))) ∧
    (∀ (i : item) (n : Nat) (ch : Char) (c : cstate),
      ch ≠ (get_lit (new g).G i).c → scan (new g).G i n ch c = c) ∧
    (∀ (i : item) (n : Nat) (c : cstate),
      i.dot < (P (new g).G i.prod).length → (get_lit (new g).G i).nt = false →
      (cstr s).getD n (Char.ofNat 0) ≠ (get_lit (new g).G i).c →
      process (new g).G (new g).nullables (cstr s) n c i = c) := by
  refine ⟨?_, ?_, ?_⟩
  · intro i hi hdot hnt hlen hch
    obtain ⟨c, _, hS, hall⟩ := chart_new g s
    rw [hS] at hi ⊢
    have hc : completed (new g).G i = false := by
      unfold completed
      simp only [decide_eq_false_iff_not]
      omega
    rcases (hall i hi).2.2.2 hc hnt hlen hch with h | h
    · exact h
    · simp at h
  · intro i n ch c hne
    unfold scan
    rw [if_pos hne]
  · intro i n c hdot hnt hne
    have hc : completed (new g).G i = false := by
      unfold completed
      simp only [decide_eq_false_iff_not]
      omega
    unfold process scan
    simp only [hc, hnt, Bool.false_eq_true, if_false, if_pos hne, ite_self]

/-- Witness of C24: for `S → a A`, `A → ε` on "a" the seed item
`(0, S → . a A, 0, 1)` is scanned to `(1, S → a . A, 0, 2)`. -/
theorem chart_closed_scan_witness :
    (⟨0, 0, 0, 1⟩ : item) ∈
      chart_items (chart (new g_aA).G (new g_aA).start (new g_aA).nullables (cstr "a")) ∧
    (cstr "a").getD 0 (Char.ofNat 0) = (get_lit (new g_aA).G ⟨0, 0, 0, 1⟩).c ∧
    (⟨1, 0, 0, 2⟩ : item) ∈
      chart_items (chart (new g_aA).G (new g_aA).start (new g_aA).nullables (cstr "a")) :=
  ⟨by decide, by decide,
    (chart_closed_scan g_aA "a").1 ⟨0, 0, 0, 1⟩ (by decide) (by decide) (by decide) (by decide)
      (by decide)⟩

end earley

/-! ## Packings of the forest as claims -/

namespace earley

/-- The forest of a new recognizer stores packings of completed items only. -/
theorem packings_ok_new (g : List (String × List (List String))) (s : String) (k : lit)
    (ps : List (List lit)) (pack : List lit)
    (h : packings (recognize (new g) s) k = some ps) (hp : pack ∈ ps) :
    ∃ c, chart (new g).G (new g).start (new g).nullables (cstr s) = outcome.ret c ∧
      k.nt = true ∧ ∃ cur, cur ∈ c.S ∧ completed (new g).G cur = true ∧ cur.from_ = k.from_ ∧
        cur.set = k.to_ ∧ cur.prod ∈ nts (new g).G (lit.of_n k.n) ∧
        packing_of (new g).G (citem_of (new g) c.S) (cstr s) cur pack := by
  obtain ⟨c, r, hc, hf, hk, hci⟩ := packings_new g s k ps h
  have hok := forest_packs (new g).G (citem_of (new g) c.S) (cstr s) _ [] _ r
    (fun _ _ h0 => by simp at h0) hf
  obtain ⟨hnt, cur, hcur, hpk⟩ := hok k ps (map_find_mem k ps r.2 hk) pack hp
  rw [mem_find_all] at hcur
  obtain ⟨h1, h2, h3, h4⟩ := hcur
  exact ⟨c, hc, hnt, cur, ((hci cur).1 h1).1, ((hci cur).1 h1).2, h2, h4, h3, hpk⟩

/-- C25 (packings tile the node span): for every key `(A, f, t)` of `pfgraph`
after `recognize` and every packing stored for it, the packing has one child
per right-hand-side symbol of some production of `A`, in order; the first
child starts at `f`, every later child starts where the child before it ends,
and the last child ends at `t`. -/
theorem packings_tile_span (g : List (String × List (List String))) (s : String) (k : lit)
    (ps : List (List lit)) (pack : List lit)
    (h : packings (recognize (new g) s) k = some ps) (hp : pack ∈ ps) :
    k.nt = true ∧ pack ≠ [] ∧
    (∃ p, p ∈ nts (new g).G (lit.of_n k.n) ∧
      List.Forall₂ (fun sym ch : lit => ch.v = sym.v) (P (new g).G p).tail pack) ∧
    (∀ a, pack.head? = some a → a.from_ = k.from_) ∧
    (∀ i a b, pack[i]? = some a → pack[i + 1]? = some b → b.from_ = a.to_) ∧
    (∀ b, pack.getLast? = some b → b.to_ = k.to_) := by
  obtain ⟨c, _, hnt, cur, _, _, hfrom, hset, hprod, hne, hwalk⟩ :=
    packings_ok_new g s k ps pack h hp
  obtain ⟨ht, hall⟩ := walk_tiles _ _ _ _ _ _ _ _ hwalk
  rw [hfrom, hset] at ht
  obtain ⟨t1, t2, t3⟩ := tiles_spec pack _ _ ht
  refine ⟨hnt, hne, ⟨cur.prod, hprod, ?_⟩, t1, t3, t2⟩
  exact hall.imp (fun _ _ hok => hok.1)

/-- Witness of C25: the packing `[S(0,1), S(1,3)]` of the root `(S, 0, 3)` for
`S → b | S S` on "bbb". -/
theorem packings_tile_span_witness :
    packings (recognize (new g_E1) "bbb") (nd 0 0 3) =
      some [[nd 0 0 1, nd 0 1 3], [nd 0 0 2, nd 0 2 3]] ∧
    (∀ a, [nd 0 0 1, nd 0 1 3].head? = some a → a.from_ = 0) ∧
    (∀ b, [nd 0 0 1, nd 0 1 3].getLast? = some b → b.to_ = 3) :=
  ⟨by decide,
    (packings_tile_span g_E1 "bbb" (nd 0 0 3) [[nd 0 0 1, nd 0 1 3], [nd 0 0 2, nd 0 2 3]]
      [nd 0 0 1, nd 0 1 3] (by decide) (by decide)).2.2.2.1,
    (packings_tile_span g_E1 "bbb" (nd 0 0 3) [[nd 0 0 1, nd 0 1 3], [nd 0 0 2, nd 0 2 3]]
      [nd 0 0 1, nd 0 1 3] (by decide) (by decide)).2.2.2.2.2⟩

/-- C26 (terminal children of a packing): in every packing a call of
`sbl_chd_forest` adds for the input `inputstr`, a child for a terminal `c`
that is not ε spans `(from, from + 1)` with `inputstr[from] = c`, and a child
for the ε-terminal spans `(from, from)`; the same holds for every packing of
`pfgraph` after `recognize`; and a walk whose next terminal is not the
character at `xfrom` returns at once and leaves `ambset` as it is. -/
theorem terminal_children (G : List (List lit)) (citem : List item) (inputstr : List Char)
    (eitem : item) :
    (∀ (amb amb1 : List (List lit)) (pack : List lit) (ch : lit),
      sbl_chd_forest G citem inputstr eitem [] eitem.from_ amb = outcome.ret amb1 →
      pack ∈ amb1 → pack ∉ amb → ch ∈ pack → ch.nt = false →
      (ch.c = Char.ofNat 0 → ch.to_ = ch.from_) ∧
      (ch.c ≠ Char.ofNat 0 → ch.to_ = ch.from_ + 1 ∧ inputstr.get? ch.from_ = some ch.c)) ∧
    (∀ (g : List (String × List (List String))) (s : String) (k : lit) (ps : List (List lit))
      (pack : List lit) (ch : lit),
      packings (recognize (new g) s) k = some ps → pack ∈ ps → ch ∈ pack → ch.nt = false →
      (ch.c = Char.ofNat 0 → ch.to_ = ch.from_) ∧
      (ch.c ≠ Char.ofNat 0 → ch.to_ = ch.from_ + 1 ∧ (cstr s).get? ch.from_ = some ch.c)) ∧
    (∀ (curchd : List lit) (xfrom : Nat) (amb : List (List lit)) (c : Char),
      curchd.length + 1 < (P G eitem.prod).length →
      (sym_at G eitem.prod (curchd.length + 1)).nt = false →
      (sym_at G eitem.prod (curchd.length + 1)).c ≠ Char.ofNat 0 →
      inputstr.get? xfrom = some c → c ≠ (sym_at G eitem.prod (curchd.length + 1)).c →
      sbl_chd_forest G citem inputstr eitem curchd xfrom amb = outcome.ret amb) := by
  refine ⟨?_, ?_, ?_⟩
  · intro amb amb1 pack ch h hp hnew hch hterm
    rcases sbl_packing_of G citem inputstr eitem amb amb1 h pack hp with h1 | h1
    · exact absurd h1 hnew
    · obtain ⟨sym, _, hok⟩ := walk_child _ _ _ _ _ _ _ _ h1.2 ch hch
      exact (child_ok_cases hok).1 hterm
  · intro g s k ps pack ch h hp hch hterm
    obtain ⟨c, _, _, cur, _, _, _, _, _, _, hwalk⟩ := packings_ok_new g s k ps pack h hp
    obtain ⟨sym, _, hok⟩ := walk_child _ _ _ _ _ _ _ _ hwalk ch hch
    exact (child_ok_cases hok).1 hterm
  · intro curchd xfrom amb c hlen hnt hc hget hne
    exact sbl_step_mismatch G citem inputstr eitem curchd xfrom amb c hlen hnt hc hget hne

/-- Witness of C26: for `S → b | S` on "b" the walk for the completed item
`(1, S → b ., 0, 2)` adds the packing `[b(0,1)]`. -/
theorem terminal_children_witness :
    sbl_chd_forest (new g_E2).G [⟨1, 0, 0, 2⟩] (cstr "b") ⟨1, 0, 0, 2⟩ [] 0 [] =
      outcome.ret [[tm 'b' 0 1]] ∧
    ((tm 'b' 0 1).c ≠ Char.ofNat 0 →
      (tm 'b' 0 1).to_ = (tm 'b' 0 1).from_ + 1 ∧
        (cstr "b").get? (tm 'b' 0 1).from_ = some (tm 'b' 0 1).c) :=
  ⟨by decide,
    ((terminal_children (new g_E2).G [⟨1, 0, 0, 2⟩] (cstr "b") ⟨1, 0, 0, 2⟩).1 [] [[tm 'b' 0 1]]
      [tm 'b' 0 1] (tm 'b' 0 1) (by decide) (by decide) (by decide) (by decide) (by decide)).2⟩

/-- What holds of the non-terminal children of a packing: in every packing a
call of `sbl_chd_forest` adds for an item that ends at `eitem.set`, a
non-terminal child `(B, i, j)` stands for an item of the member `citem` with
left-hand side `B`, `from = i` and `set = j`, and `j ≤ eitem.set`; in
`pfgraph` after `recognize` on a new recognizer, whose `citem` is empty before
the call, that item is a completed item of the chart; at a non-terminal `B`
the walk goes through all items of `citem` with left-hand side `B` that start
at the current position, and continues with each one that does not end behind
`eitem.set` as the child. -/
theorem nonterminal_children (G : List (List lit)) (citem : List item) (inputstr : List Char)
    (eitem : item) :
    (∀ (amb amb1 : List (List lit)) (pack : List lit) (ch : lit),
      sbl_chd_forest G citem inputstr eitem [] eitem.from_ amb = outcome.ret amb1 →
      pack ∈ amb1 → pack ∉ amb → ch ∈ pack → ch.nt = true →
      ∃ v, v ∈ citem ∧ v.prod ∈ nts G (lit.of_n ch.n) ∧ v.from_ = ch.from_ ∧ v.set = ch.to_ ∧
        ch.to_ ≤ eitem.set) ∧
    (∀ (g : List (String × List (List String))) (s : String) (k : lit) (ps : List (List lit))
      (pack : List lit) (ch : lit),
      packings (recognize (new g) s) k = some ps → pack ∈ ps → ch ∈ pack → ch.nt = true →
      ∃ v, v ∈ chart_items (chart (new g).G (new g).start (new g).nullables (cstr s)) ∧
        completed (new g).G v = true ∧ v.prod ∈ nts (new g).G (lit.of_n ch.n) ∧
        v.from_ = ch.from_ ∧ v.set = ch.to_ ∧ ch.to_ ≤ k.to_) ∧
    (∀ (curchd : List lit) (xfrom : Nat) (amb : List (List lit)),
      curchd.length + 1 < (P G eitem.prod).length →
      (sym_at G eitem.prod (curchd.length + 1)).nt = true →
      sbl_chd_forest G citem inputstr eitem curchd xfrom amb =
        outcome.foldl
          (fun amb v =>
            if v.set > eitem.set then outcome.ret amb
            else
              sbl_chd_forest G citem inputstr eitem
                (curchd ++ [{ sym_at G eitem.prod (curchd.length + 1) with
                              from_ := xfrom, to_ := v.set }])
                v.set amb)
          amb (find_all G citem xfrom (sym_at G eitem.prod (curchd.length + 1)).n (-1))) ∧
    (∀ (xfrom B : Nat) (v : item), v ∈ find_all G citem xfrom B (-1) ↔
      v ∈ citem ∧ v.from_ = xfrom ∧ v.prod ∈ nts G (lit.of_n B)) := by
  refine ⟨?_, ?_, ?_, ?_⟩
  · intro amb amb1 pack ch h hp hnew hch hnt
    rcases sbl_packing_of G citem inputstr eitem amb amb1 h pack hp with h1 | h1
    · exact absurd h1 hnew
    · obtain ⟨sym, _, hok⟩ := walk_child _ _ _ _ _ _ _ _ h1.2 ch hch
      obtain ⟨v, v1, v2, v3, v4, v5⟩ := (child_ok_cases hok).2 hnt
      exact ⟨v, v1, v4, v2, v3, by omega⟩
  · intro g s k ps pack ch h hp hch hnt
    obtain ⟨c, hc, _, cur, _, _, _, hset, _, _, hwalk⟩ := packings_ok_new g s k ps pack h hp
    obtain ⟨sym, _, hok⟩ := walk_child _ _ _ _ _ _ _ _ hwalk ch hch
    obtain ⟨v, v1, v2, v3, v4, v5⟩ := (child_ok_cases hok).2 hnt
    rw [mem_citem_of] at v1
    have hnil : (new g).citem = [] := rfl
    rw [hnil] at v1
    simp only [List.not_mem_nil, false_or] at v1
    rw [hc]
    exact ⟨v, v1.1, v1.2, v4, v2, v3, by omega⟩
  · intro curchd xfrom amb hlen hnt
    exact sbl_step_nt G citem inputstr eitem curchd xfrom amb hlen hnt
  · intro xfrom B v
    exact mem_find_all_any G citem xfrom B v

/-- An instance: for `S → b | S` on "b" the walk for the completed item
`(1, S → S ., 0, 2)` adds the packing `[S(0,1)]`, whose child stands for an
item of `citem`. -/
theorem nonterminal_children_witness :
    sbl_chd_forest (new g_E2).G [⟨1, 0, 0, 2⟩, ⟨1, 1, 0, 2⟩] (cstr "b") ⟨1, 1, 0, 2⟩ [] 0 [] =
      outcome.ret [[nd 0 0 1]] ∧
    ∃ v, v ∈ [(⟨1, 0, 0, 2⟩ : item), ⟨1, 1, 0, 2⟩] ∧
      v.prod ∈ nts (new g_E2).G (lit.of_n (nd 0 0 1).n) ∧ v.from_ = (nd 0 0 1).from_ ∧
      v.set = (nd 0 0 1).to_ ∧ (nd 0 0 1).to_ ≤ (⟨1, 1, 0, 2⟩ : item).set :=
  ⟨by decide,
    (nonterminal_children (new g_E2).G [⟨1, 0, 0, 2⟩, ⟨1, 1, 0, 2⟩] (cstr "b") ⟨1, 1, 0, 2⟩).1 []
      [[nd 0 0 1]] [nd 0 0 1] (nd 0 0 1) (by decide) (by decide) (by decide) (by decide)
      (by decide)⟩

/-- What holds of the stored packing sets: after `recognize` on a new
recognizer, whose `citem` is empty before the call, the packing set stored for
a key `(A, f, t)` of `pfgraph` is the one the calls of `sbl_chd_forest` for
all completed items of the chart with left-hand side `A`, `from = f` and
`set = t` build up, that is the union of the packings of these items; and a
visit of a node that is a key already returns false and leaves `pfgraph` as it
is. -/
theorem forest_stores_all (g : List (String × List (List String))) (s : String) :
    (∀ (k : lit) (ps : List (List lit)), packings (recognize (new g) s) k = some ps →
      all_packings (new g).G
        (citem_of (new g)
          (chart_items (chart (new g).G (new g).start (new g).nullables (cstr s))))
        (cstr s) k = outcome.ret ps ∧
      (∀ pack, pack ∈ ps ↔ ∃ cur,
        (cur ∈ chart_items (chart (new g).G (new g).start (new g).nullables (cstr s)) ∧
          completed (new g).G cur = true ∧ cur.prod ∈ nts (new g).G (lit.of_n k.n) ∧
          cur.from_ = k.from_ ∧ cur.set = k.to_) ∧
        ∃ X, sbl_chd_forest (new g).G
          (citem_of (new g)
            (chart_items (chart (new g).G (new g).start (new g).nullables (cstr s))))
          (cstr s) cur [] cur.from_ [] = outcome.ret X ∧ pack ∈ X)) ∧
    (∀ (citem : List item) (inputstr : List Char) (fuel : Nat) (pf : ptree_t) (root : lit),
      (map_find root pf).isSome = true →
      forest (new g).G citem inputstr (fuel + 1) pf root = outcome.ret (false, pf)) := by
  refine ⟨?_, ?_⟩
  · intro k ps h
    obtain ⟨c, r, hc, hf, hk, hci⟩ := packings_new g s k ps h
    rw [hc]
    simp only [chart_items]
    have hext := forest_extends (new g).G (citem_of (new g) c.S) (cstr s) _ [] _ r hf
    rcases hext.2 k ps hk with h1 | h1
    · simp [map_find] at h1
    · refine ⟨h1.2, ?_⟩
      intro pack
      have := all_packings_mem (new g).G (citem_of (new g) c.S) (cstr s) _ [] ps h1.2 pack
      rw [this]
      simp only [List.not_mem_nil, false_or]
      constructor
      · rintro ⟨cur, hcur, X, hX, hp⟩
        rw [mem_find_all] at hcur
        exact ⟨cur, ⟨((hci cur).1 hcur.1).1, ((hci cur).1 hcur.1).2, hcur.2.2.1, hcur.2.1,
          hcur.2.2.2⟩, X, hX, hp⟩
      · rintro ⟨cur, ⟨h1, h2, h3, h4, h5⟩, X, hX, hp⟩
        refine ⟨cur, ?_, X, hX, hp⟩
        rw [mem_find_all]
        exact ⟨(hci cur).2 ⟨h1, h2⟩, h4, h3, h5⟩
  · intro citem inputstr fuel pf root hkey
    simp only [forest, hkey, if_true]
    split <;> rfl

/-- An instance: for `S → b | S` on "b" the node `(S, 0, 1)` has the two
completed items `S → b .` and `S → S .`, and the packings of both are
stored. -/
theorem forest_stores_all_witness :
    packings (recognize (new g_E2) "b") (nd 0 0 1) = some [[nd 0 0 1], [tm 'b' 0 1]] ∧
    all_packings (new g_E2).G
      (citem_of (new g_E2)
        (chart_items (chart (new g_E2).G (new g_E2).start (new g_E2).nullables (cstr "b"))))
      (cstr "b") (nd 0 0 1) = outcome.ret [[nd 0 0 1], [tm 'b' 0 1]] :=
  ⟨by decide,
    ((forest_stores_all g_E2 "b").1 (nd 0 0 1) [[nd 0 0 1], [tm 'b' 0 1]] (by decide)).1⟩

end earley

/-! ## Class hashes and flattening of formula trees: the claims -/

theorem sq_le_sum_squares : ∀ (l : List Int) (x : Int), x ∈ l →
    0 ≤ (l.map (fun b => b * b)).sum ∧ x * x ≤ (l.map (fun b => b * b)).sum := by
  have hnn : ∀ l : List Int, 0 ≤ (l.map (fun b => b * b)).sum := by
    intro l
    induction l with
    | nil => simp
    | cons a l ih =>
      simp only [List.map_cons, List.sum_cons]
      have := mul_self_nonneg a
      omega
  intro l
  induction l with
  | nil => intro x hx; simp at hx
  | cons a l ih =>
    intro x hx
    refine ⟨hnn _, ?_⟩
    simp only [List.map_cons, List.sum_cons]
    rcases List.mem_cons.mp hx with rfl | hx
    · have := hnn l
      omega
    · have := (ih x hx).2
      have := mul_self_nonneg a
      omega

namespace PersistentUnionFind

/-- The contribution of a class to `hash_set` is the sum of the squares of its
members. -/
theorem hash_term_sum_squares (A : List int_t) (x hx : int_t) (hA : stored_hash_ok A x hx) :
    (if hx = 0 then x * x else hx) = sum_squares A := by
  obtain ⟨hmem, _, h1, h2⟩ := hA
  by_cases hlen : A.length = 1
  · rw [if_pos (h1 hlen)]
    obtain ⟨a, ha⟩ := List.length_eq_one.mp hlen
    subst ha
    simp only [List.mem_singleton] at hmem
    subst hmem
    simp [sum_squares]
  · rw [h2 hlen]
    split
    · rename_i h0
      have := (sq_le_sum_squares A x hmem).2
      have hx0 := mul_self_nonneg x
      unfold sum_squares at h0 ⊢
      unfold int_t at *
      omega
    · rfl

theorem sum_squares_append (A B : List int_t) :
    sum_squares (A ++ B) = sum_squares A + sum_squares B := by
  simp [sum_squares]

theorem sum_squares_perm {A B : List int_t} (h : List.Perm A B) :
    sum_squares A = sum_squares B := by
  unfold sum_squares
  exact (h.map _).sum_eq

/-- C29 (class hash is the sum of the squares of the members): if the stored
hashes of two disjoint classes are as the invariant says (0 for a singleton,
the sum of the squares of the members otherwise), `hash_set` applied to their
roots and stored hashes is the sum of the squares of the members of the union,
in whatever order the members are listed; it is the same with the two classes
exchanged; and it is the stored hash the invariant asks for the union. -/
theorem hash_set_sum_squares (A B : List int_t) (x y hx hy : int_t)
    (hA : stored_hash_ok A x hx) (hB : stored_hash_ok B y hy)
    (hdisj : ∀ a, a ∈ A → a ∉ B) :
    hash_set x y hx hy = sum_squares (A ++ B) ∧
    hash_set x y hx hy = hash_set y x hy hx ∧
    (∀ C, List.Perm C (A ++ B) → hash_set x y hx hy = sum_squares C) ∧
    (∀ r, r ∈ A ++ B → stored_hash_ok (A ++ B) r (hash_set x y hx hy)) := by
  have h1 : hash_set x y hx hy = sum_squares (A ++ B) := by
    unfold hash_set
    rw [hash_term_sum_squares A x hx hA, hash_term_sum_squares B y hy hB, sum_squares_append]
  have h2 : hash_set x y hx hy = hash_set y x hy hx := by
    unfold hash_set
    exact add_comm _ _
  refine ⟨h1, h2, ?_, ?_⟩
  · intro C hC
    rw [h1, sum_squares_perm hC]
  · intro r hr
    refine ⟨hr, ?_, ?_, fun _ => h1⟩
    · exact List.Nodup.append hA.2.1 hB.2.1 (fun a ha hb => hdisj a ha hb)
    · intro hlen
      have ha : 0 < A.length := List.length_pos_of_mem hA.1
      have hb : 0 < B.length := List.length_pos_of_mem hB.1
      simp only [List.length_append] at hlen
      omega

/-- Witness of C29: the class `{0, 3}` with stored hash 9 and the singleton
`{1}`. -/
theorem hash_set_sum_squares_witness :
    stored_hash_ok [0, 3] 0 9 ∧ stored_hash_ok [1] 1 0 ∧
    hash_set 0 1 9 0 = sum_squares ([0, 3] ++ [1]) ∧ hash_set 0 1 9 0 = hash_set 1 0 0 9 :=
  ⟨⟨by decide, by decide, by decide, fun _ => by decide⟩,
    ⟨by decide, by decide, fun _ => rfl, fun h => absurd rfl h⟩,
    (hash_set_sum_squares [0, 3] [1] 0 1 9 0 ⟨by decide, by decide, by decide, fun _ => by decide⟩
      ⟨by decide, by decide, fun _ => rfl, fun h => absurd rfl h⟩ (by decide)).1,
    (hash_set_sum_squares [0, 3] [1] 0 1 9 0 ⟨by decide, by decide, by decide, fun _ => by decide⟩
      ⟨by decide, by decide, fun _ => rfl, fun h => absurd rfl h⟩ (by decide)).2.1⟩

end PersistentUnionFind

namespace raw_form_tree

theorem flatten_into_operands (tp : etype) : ∀ (t : raw_form_tree) (tms : List raw_form_tree),
    t ≠ null → has_children tp t →
    flatten_associative_into tp t tms = some (tms ++ operands tp t) ∧ operands tp t ≠ [] := by
  intro t
  induction t with
  | null => intro tms h; exact absurd rfl h
  | node type rt el l r neg guard_lx ihl ihr =>
    intro tms _ hfull
    simp only [has_children] at hfull
    obtain ⟨h1, h2, h3⟩ := hfull
    simp only [flatten_associative_into, operands]
    by_cases htp : type = tp
    · obtain ⟨hl, hr⟩ := h1 htp
      rw [if_pos htp, if_pos htp, (ihl tms hl h2).1]
      simp only
      rw [(ihr _ hr h3).1, List.append_assoc]
      refine ⟨rfl, ?_⟩
      intro hnil
      exact (ihl tms hl h2).2 (List.append_eq_nil.mp hnil).1
    · rw [if_neg htp, if_neg htp]
      exact ⟨rfl, by simp⟩

theorem mem_operands (tp : etype) : ∀ (t u : raw_form_tree),
    u ∈ operands tp t ↔ reach tp t u ∧ u ≠ null ∧ type_of u ≠ some tp := by
  intro t u
  constructor
  · induction t with
    | null => intro h; simp [operands] at h
    | node type rt el l r neg guard_lx ihl ihr =>
      intro h
      simp only [operands] at h
      by_cases htp : type = tp
      · rw [if_pos htp] at h
        subst htp
        rcases List.mem_append.mp h with h | h
        · obtain ⟨a, b, c⟩ := ihl h
          exact ⟨reach.left _ _ _ _ _ _ _ a, b, c⟩
        · obtain ⟨a, b, c⟩ := ihr h
          exact ⟨reach.right _ _ _ _ _ _ _ a, b, c⟩
      · rw [if_neg htp] at h
        simp only [List.mem_singleton] at h
        subst h
        refine ⟨reach.here _, by simp, ?_⟩
        simp only [type_of, ne_eq, Option.some.injEq]
        exact htp
  · rintro ⟨hreach, hnn, hty⟩
    induction hreach with
    | here t =>
      cases t with
      | null => exact absurd rfl hnn
      | node type rt el l r neg guard_lx =>
        simp only [type_of, ne_eq, Option.some.injEq] at hty
        simp only [operands, if_neg hty, List.mem_singleton]
    | left rt el l r neg guard_lx u _ ih =>
      simp only [operands, if_true]
      exact List.mem_append_left _ (ih hnn hty)
    | right rt el l r neg guard_lx u _ ih =>
      simp only [operands, if_true]
      exact List.mem_append_right _ (ih hnn hty)

/-- C30 (`flatten_associative`): for a tree in which every node of type `tp`
has both children, the call returns the operands of `tp` from left to right;
these are exactly the subtrees reached from the root through nodes of type
`tp` that are not of type `tp` themselves; the result is not empty, and it is
`[t]` when `t` is not of type `tp`. -/
theorem flatten_associative_spec (tp : etype) (t : raw_form_tree) (hnn : t ≠ null)
    (hfull : has_children tp t) :
    flatten_associative tp t = some (operands tp t) ∧ operands tp t ≠ [] ∧
    (∀ u, u ∈ operands tp t ↔ reach tp t u ∧ u ≠ null ∧ type_of u ≠ some tp) ∧
    (type_of t ≠ some tp → operands tp t = [t]) := by
  obtain ⟨h1, h2⟩ := flatten_into_operands tp t [] hnn hfull
  refine ⟨by simpa [flatten_associative] using h1, h2, mem_operands tp t, ?_⟩
  intro hty
  cases t with
  | null => exact absurd rfl hnn
  | node type rt el l r neg guard_lx =>
    simp only [type_of, ne_eq, Option.some.injEq] at hty
    simp only [operands, if_neg hty]

/-- Witness of C30: the tree `(a AND (b AND c))` with three leaves told apart
by their guard lexemes. -/
theorem flatten_associative_spec_witness :
    flatten_associative etype.AND
      (node etype.AND none none (node etype.NONE none none null null false (1, 1))
        (node etype.AND none none (node etype.NONE none none null null false (2, 2))
          (node etype.NONE none none null null false (3, 3)) false (0, 0)) false (0, 0)) =
      some [node etype.NONE none none null null false (1, 1),
        node etype.NONE none none null null false (2, 2),
        node etype.NONE none none null null false (3, 3)] :=
  (flatten_associative_spec etype.AND
    (node etype.AND none none (node etype.NONE none none null null false (1, 1))
      (node etype.AND none none (node etype.NONE none none null null false (2, 2))
        (node etype.NONE none none null null false (3, 3)) false (0, 0)) false (0, 0))
    (by simp) (by simp [has_children])).1

end raw_form_tree

/-! ## Lists of inputs, rules, productions and the initial union-find: the claims -/

namespace raw_rule

/-- C31 (rule classification): at most one of `is_dnf`, `is_form`, `is_fact`,
`is_goal` holds; for `type = NONE` one of `is_dnf`, `is_form`, `is_fact` holds,
an empty `b` meaning a formula rule when `prft` is set and a fact otherwise;
after `set_prft(f)` the body `b` is empty and `prft = f`, after `set_b(b1)`
`prft` is unset and `b = b1`; both leave the other members as they are. -/
theorem classification (r : raw_rule) (f : raw_form_tree) (b1 : List (List raw_term)) :
    (¬ (is_dnf r = true ∧ is_form r = true) ∧ ¬ (is_dnf r = true ∧ is_fact r = true) ∧
      ¬ (is_dnf r = true ∧ is_goal r = true) ∧ ¬ (is_form r = true ∧ is_fact r = true) ∧
      ¬ (is_form r = true ∧ is_goal r = true) ∧ ¬ (is_fact r = true ∧ is_goal r = true)) ∧
    (r.type = etype.NONE → is_dnf r = true ∨ is_form r = true ∨ is_fact r = true) ∧
    (r.type = etype.NONE → r.b = [] →
      is_dnf r = false ∧ is_form r = r.prft.isSome ∧ is_fact r = !r.prft.isSome) ∧
    (r.type = etype.NONE → r.b ≠ [] →
      is_dnf r = true ∧ is_form r = false ∧ is_fact r = false) ∧
    ((set_prft r f).b = [] ∧ (set_prft r f).prft = some f ∧ (set_prft r f).h = r.h ∧
      (set_prft r f).type = r.type ∧ (set_prft r f).guarding = r.guarding) ∧
    ((set_b r b1).prft = none ∧ (set_b r b1).b = b1 ∧ (set_b r b1).h = r.h ∧
      (set_b r b1).type = r.type ∧ (set_b r b1).guarding = r.guarding) := by
  obtain ⟨h, b, prft, type, guarding⟩ := r
  refine ⟨?_, ?_, ?_, ?_, ⟨rfl, rfl, rfl, rfl, rfl⟩, ⟨rfl, rfl, rfl, rfl, rfl⟩⟩
  · cases type <;> cases prft <;> cases b <;> simp [is_dnf, is_form, is_fact, is_goal]
  · intro ht
    simp only at ht
    subst ht
    cases prft <;> cases b <;> simp [is_dnf, is_form, is_fact]
  · intro ht hb
    simp only at ht hb
    subst ht; subst hb
    cases prft <;> simp [is_dnf, is_form, is_fact]
  · intro ht hb
    simp only at ht hb
    subst ht
    cases b with
    | nil => exact absurd rfl hb
    | cons x xs => simp [is_dnf, is_form, is_fact]

/-- Witness of C31: the default rule is a fact; with a formula set it is a
formula rule. -/
theorem classification_witness :
    is_fact {} = true ∧ is_form (set_prft {} raw_form_tree.null) = true :=
  ⟨by decide,
    ((classification (set_prft {} raw_form_tree.null) raw_form_tree.null []).2.2.1 rfl rfl).2.1⟩

end raw_rule

namespace inputs

theorem chain_snoc (nexts : next_map) (p l : input_ptr) : ∀ (ps : List input_ptr)
    (x : Option input_ptr), is_chain nexts x ps → ps.getLast? = some l → p ∉ ps → ps.Nodup →
    nexts p = none → is_chain (input.set_next nexts l (some p)) x (ps ++ [p]) := by
  intro ps
  induction ps with
  | nil => intro x _ hl; simp at hl
  | cons a rest ih =>
    intro x hch hl hp hnd hnull
    simp only [is_chain] at hch
    obtain ⟨hx, hrest⟩ := hch
    have hpa : p ≠ a := fun e => hp (e ▸ List.mem_cons_self _ _)
    cases rest with
    | nil =>
      simp only [List.getLast?_singleton, Option.some.injEq] at hl
      subst hl
      simp only [List.nil_append, List.cons_append, is_chain, input.set_next, if_true,
        if_neg hpa, hnull, and_self, and_true]
      exact hx
    | cons b rest1 =>
      rw [List.getLast?_cons_cons] at hl
      have hlmem : l ∈ b :: rest1 := List.mem_of_mem_getLast? hl
      have hal : a ≠ l := by
        intro e
        exact (List.nodup_cons.mp hnd).1 (e ▸ hlmem)
      have hnext : input.set_next nexts l (some p) a = nexts a := by
        simp [input.set_next, hal]
      simp only [List.cons_append, is_chain]
      refine ⟨hx, ?_⟩
      have := ih (nexts a) hrest hl (fun h => hp (List.mem_cons_of_mem _ h))
        (List.nodup_cons.mp hnd).2 hnull
      rw [hnext]
      simpa using this

theorem chain_reachable (nexts : next_map) : ∀ (ps : List input_ptr) (x : Option input_ptr)
    (fuel : Nat), is_chain nexts x ps → ps.length ≤ fuel → reachable nexts fuel x = ps := by
  intro ps
  induction ps with
  | nil =>
    intro x fuel h _
    simp only [is_chain] at h
    subst h
    cases fuel <;> rfl
  | cons a rest ih =>
    intro x fuel h hf
    simp only [is_chain] at h
    obtain ⟨hx, hrest⟩ := h
    subst hx
    cases fuel with
    | zero => simp at hf
    | succ fuel =>
      simp only [reachable]
      rw [ih _ _ hrest (by simpa using hf)]

/-- The state after the calls `add(p)` for the inputs of `ps`. -/
theorem run_inv (w : Nat) (nexts : next_map) : ∀ ps : List input_ptr, ps.Nodup →
    (∀ p, p ∈ ps → nexts p = none) →
    (run w nexts ps).1.first_ = ps.head? ∧ (run w nexts ps).1.last_ = ps.getLast? ∧
    (run w nexts ps).1.size_ = ps.length % 2 ^ w ∧
    is_chain (run w nexts ps).2 (run w nexts ps).1.first_ ps ∧
    (∀ q, q ∉ ps → (run w nexts ps).2 q = nexts q) := by
  intro ps
  induction ps using List.reverseRecOn with
  | nil =>
    intro _ _
    exact ⟨rfl, rfl, by simp [run], rfl, fun _ _ => rfl⟩
  | append_singleton ps p ih =>
    intro hnd hnull
    have hnd1 : ps.Nodup := (List.nodup_append.mp hnd).1
    have hp : p ∉ ps := by
      intro h
      exact (List.nodup_append.mp hnd).2.2 h (List.mem_singleton_self p) 
    obtain ⟨i1, i2, i3, i4, i5⟩ := ih hnd1 (fun q hq => hnull q (List.mem_append_left _ hq))
    have hrun : run w nexts (ps ++ [p]) = add w (run w nexts ps) p := by
      simp [run, List.foldl_append]
    rw [hrun]
    have hpn : (run w nexts ps).2 p = none := by
      rw [i5 p hp]
      exact hnull p (List.mem_append_right _ (List.mem_singleton_self p))
    cases hl : (run w nexts ps).1.last_ with
    | none =>
      have hnil : ps = [] := by
        rw [i2] at hl
        cases ps with
        | nil => rfl
        | cons a rest => simp [List.getLast?_eq_getLast] at hl
      subst hnil
      simp only [add, hl, List.nil_append]
      refine ⟨rfl, rfl, ?_, ⟨rfl, hpn⟩, ?_⟩
      · rw [i3]; simp
      · intro q hq
        exact i5 q (by simp)
    | some l =>
      have hne : ps ≠ [] := by
        intro hnil
        rw [i2, hnil] at hl
        simp at hl
      simp only [add, hl]
      refine ⟨?_, ?_, ?_, ?_, ?_⟩
      · rw [i1]
        cases ps with
        | nil => exact absurd rfl hne
        | cons a rest => rfl
      · simp
      · rw [i3]
        simp [Nat.add_mod]
      · exact chain_snoc _ p l ps _ i4 (by rw [← i2]; exact hl) hp hnd1 hpn
      · intro q hq
        have hq1 : q ∉ ps := fun h => hq (List.mem_append_left _ h)
        have hlmem : l ∈ ps := List.mem_of_mem_getLast? (by rw [← i2]; exact hl)
        have hql : q ≠ l := fun e => hq1 (e ▸ hlmem)
        simp only [input.set_next, if_neg hql]
        exact i5 q hq1

/-- C32 (list of inputs), for inputs added without a chain of their own: after
the calls `add(p)` for distinct inputs `ps` whose `next()` is null when they
are added, fewer than `2 ^ w` of them, on an empty `inputs` object, `size()`
is the number of the inputs, which are met from `first()` by following
`next()` in the order they were added and followed by the null pointer;
`last()` is the input added last and its `next()` is null; `first()` is the
input added first, and one more call of `add` leaves it as it is unless no
input has been added yet. For an input added with a non-null `next()` this
fails (`add_with_chain`). -/
theorem list_invariant (w : Nat) (nexts : next_map) (ps : List input_ptr) (hnd : ps.Nodup)
    (hnull : ∀ p, p ∈ ps → input.next nexts p = none) (hw : ps.length < 2 ^ w) :
    size (run w nexts ps).1 = ps.length ∧
    (∀ fuel, ps.length ≤ fuel →
      reachable (run w nexts ps).2 fuel (first (run w nexts ps).1) = ps) ∧
    size (run w nexts ps).1 =
      (reachable (run w nexts ps).2 (ps.length + 1) (first (run w nexts ps).1)).length ∧
    last (run w nexts ps).1 = ps.getLast? ∧
    (∀ l, last (run w nexts ps).1 = some l → input.next (run w nexts ps).2 l = none) ∧
    first (run w nexts ps).1 = ps.head? ∧
    (∀ p, ps ≠ [] → first (add w (run w nexts ps) p).1 = first (run w nexts ps).1) := by
  obtain ⟨i1, i2, i3, i4, i5⟩ := run_inv w nexts ps hnd hnull
  have hsize : size (run w nexts ps).1 = ps.length := by
    unfold size
    rw [i3, Nat.mod_eq_of_lt hw]
  have hreach : ∀ fuel, ps.length ≤ fuel →
      reachable (run w nexts ps).2 fuel (run w nexts ps).1.first_ = ps :=
    fun fuel hf => chain_reachable _ ps _ fuel i4 hf
  refine ⟨hsize, fun fuel hf => hreach fuel hf, ?_, i2, ?_, i1, ?_⟩
  · rw [hsize]
    unfold first
    rw [hreach (ps.length + 1) (Nat.le_succ _)]
  · intro l hl
    unfold last at hl
    rw [i2] at hl
    -- the chain ends behind the last input
    have key : ∀ (qs : List input_ptr) (x : Option input_ptr),
        is_chain (run w nexts ps).2 x qs → qs.getLast? = some l →
        (run w nexts ps).2 l = none := by
      intro qs
      induction qs with
      | nil => intro x _ h; simp at h
      | cons a rest ih =>
        intro x hch hlast
        simp only [is_chain] at hch
        cases rest with
        | nil =>
          simp only [List.getLast?_singleton, Option.some.injEq] at hlast
          subst hlast
          simpa [is_chain] using hch.2
        | cons b rest1 =>
          rw [List.getLast?_cons_cons] at hlast
          exact ih _ hch.2 hlast
    exact key ps _ i4 hl
  · intro p hne
    unfold first
    have : ∃ l, (run w nexts ps).1.last_ = some l := by
      rw [i2]
      cases ps with
      | nil => exact absurd rfl hne
      | cons a rest => exact ⟨_, List.getLast?_eq_getLast _ (by simp)⟩
    obtain ⟨l, hl⟩ := this
    simp only [add, hl]

/-- Witness of C32: three inputs at the addresses 10, 20 and 30. -/
theorem list_invariant_witness :
    size (run 64 (fun _ => none) [10, 20, 30]).1 = 3 ∧
    reachable (run 64 (fun _ => none) [10, 20, 30]).2 4
      (first (run 64 (fun _ => none) [10, 20, 30]).1) = [10, 20, 30] ∧
    last (run 64 (fun _ => none) [10, 20, 30]).1 = some 30 :=
  ⟨(list_invariant 64 (fun _ => none) [10, 20, 30] (by decide) (fun _ _ => rfl) (by decide)).1,
    (list_invariant 64 (fun _ => none) [10, 20, 30] (by decide) (fun _ _ => rfl)
      (by decide)).2.1 4 (by decide),
    (list_invariant 64 (fun _ => none) [10, 20, 30] (by decide) (fun _ _ => rfl)
      (by decide)).2.2.2.1⟩

end inputs

namespace production

/-- What holds of `production::operator<`: for orders of the vectors that are
irreflexive and transitive it is irreflexive and transitive. -/
theorem lt_of_strict (ltp : List elem → List elem → Bool)
    (ltc : List raw_term → List raw_term → Bool)
    (hp1 : ∀ x, ltp x x = false) (hp2 : ∀ x y z, ltp x y = true → ltp y z = true → ltp x z = true)
    (hc2 : ∀ x y z, ltc x y = true → ltc y z = true → ltc x z = true) :
    (∀ a, lt_of ltp ltc a a = false) ∧
    (∀ a b c, lt_of ltp ltc a b = true → lt_of ltp ltc b c = true → lt_of ltp ltc a c = true) := by
  constructor
  · intro a
    simp [lt_of, hp1]
  · intro a b c h1 h2
    simp only [lt_of, Bool.and_eq_true] at h1 h2 ⊢
    exact ⟨hp2 _ _ _ h1.1 h2.1, hc2 _ _ _ h1.2 h2.2⟩

/-- What fails of `production::operator<` for all strict total orders of the
vectors: not being comparable is not transitive. -/
theorem lt_of_not_weak (ltp : List elem → List elem → Bool)
    (ltc : List raw_term → List raw_term → Bool)
    (hp1 : ∀ x, ltp x x = false) (hc1 : ∀ x, ltc x x = false)
    (hp2 : ∀ x y z, ltp x y = true → ltp y z = true → ltp x z = true)
    (hp3 : ∀ x y, ltp x y = true ∨ x = y ∨ ltp y x = true)
    (hc3 : ∀ x y, ltc x y = true ∨ x = y ∨ ltc y x = true) :
    ∃ a b c, lt_of ltp ltc a b = false ∧ lt_of ltp ltc b a = false ∧
      lt_of ltp ltc b c = false ∧ lt_of ltp ltc c b = false ∧ lt_of ltp ltc a c = true := by
  have hasym : ∀ x y, ltp x y = true → ltp y x = false := by
    intro x y h
    cases h2 : ltp y x with
    | false => rfl
    | true => have := hp2 x y x h h2; rw [hp1] at this; cases this
  obtain ⟨x, y, hxy⟩ : ∃ x y, ltp x y = true := by
    rcases hp3 [] [{}] with h | h | h
    · exact ⟨_, _, h⟩
    · simp at h
    · exact ⟨_, _, h⟩
  obtain ⟨u, v, huv⟩ : ∃ u v, ltc u v = true := by
    rcases hc3 [] [{}] with h | h | h
    · exact ⟨_, _, h⟩
    · simp at h
    · exact ⟨_, _, h⟩
  refine ⟨⟨x, u⟩, ⟨y, u⟩, ⟨y, v⟩, ?_, ?_, ?_, ?_, ?_⟩
  · simp [lt_of, hc1]
  · simp [lt_of, hc1]
  · simp [lt_of, hp1]
  · simp [lt_of, hp1]
  · simp [lt_of, hxy, huv]

/-- C36 (`production::operator<`) at the failing input: for the productions
`a = ([], [])`, `b = ([5], [])` and `c = ([5], [t])`, whatever `strncmp` and
the order of `raw_term` are, neither `a < b` nor `b < a`, neither `b < c` nor
`c < b`, and yet `a < c`: not being comparable is not transitive, so the
operator is not a strict weak ordering. -/
theorem lt_not_strict_weak (strncmp : ccs → ccs → Int → Int)
    (ltt : raw_term → raw_term → Bool) (t : raw_term) :
    lt strncmp ltt ⟨[], []⟩ ⟨[{ type := etype.NUM, num := 5 }], []⟩ = false ∧
    lt strncmp ltt ⟨[{ type := etype.NUM, num := 5 }], []⟩ ⟨[], []⟩ = false ∧
    lt strncmp ltt ⟨[{ type := etype.NUM, num := 5 }], []⟩
      ⟨[{ type := etype.NUM, num := 5 }], [t]⟩ = false ∧
    lt strncmp ltt ⟨[{ type := etype.NUM, num := 5 }], [t]⟩
      ⟨[{ type := etype.NUM, num := 5 }], []⟩ = false ∧
    lt strncmp ltt ⟨[], []⟩ ⟨[{ type := etype.NUM, num := 5 }], [t]⟩ = true := by
  refine ⟨?_, ?_, ?_, ?_, ?_⟩ <;> simp [lt, lt_of, vector_lt, elem.lt]

end production

namespace PersistentUnionFind

/-- C37 (initial union-find state): the constructor called with `n ≥ 0` on
empty storages returns; afterwards `parent_s[i] = i`, `link_s[i] = i` and
`hashes_s[i] = 0` for every `0 ≤ i < n`, the three storages have exactly `n`
entries, the hash is 0 and the three versions are fresh roots; and
`PersistentArray::init` on a storage that is not empty returns the null
version and leaves the storage as it is. -/
theorem new_initial (n : int_t) (hn : 0 ≤ n) :
    (∃ uf st, new {} n = some (uf, st) ∧
      st.parent_s.length = n.toNat ∧ st.link_s.length = n.toNat ∧
      st.hashes_s.length = n.toNat ∧
      (∀ i : Nat, (i : Int) < n → st.parent_s[i]? = some (i : Int) ∧
        st.link_s[i]? = some (i : Int) ∧ st.hashes_s[i]? = some 0) ∧
      uf.hash = 0 ∧ uf.arr_pt = sppa.node (-1) (-1) sppa.null ∧
      uf.link_pt = sppa.node (-1) (-1) sppa.null ∧
      uf.hash_pt = sppa.node (-1) (-1) sppa.null) ∧
    (∀ (arr : List int_t) (m : int_t) (f : int_t → int_t), arr ≠ [] →
      PersistentArray.init arr m f = some (sppa.null, arr)) := by
  have hn2 : ¬ n < 0 := by unfold int_t at *; omega
  constructor
  · refine ⟨⟨sppa.node (-1) (-1) sppa.null, sppa.node (-1) (-1) sppa.null,
        sppa.node (-1) (-1) sppa.null, 0⟩,
      ⟨List.map (fun i : Nat => (i : Int)) (List.range n.toNat),
        List.map (fun i : Nat => (i : Int)) (List.range n.toNat),
        List.map (fun _ : Nat => (0 : Int)) (List.range n.toNat)⟩,
      ?_, ?_, ?_, ?_, ?_, rfl, rfl, rfl, rfl⟩
    · simp only [new, PersistentArray.init, ne_eq, not_true_eq_false, if_false, if_neg hn2]
    · simp
    · simp
    · simp
    · intro i hi
      have hi2 : i < n.toNat := by unfold int_t at *; omega
      simp [List.getElem?_map, List.getElem?_range hi2, List.getElem?_replicate, hi2]
  · intro arr m f harr
    simp [PersistentArray.init, harr]

/-- Witness of C37: the union-find of 3 elements. -/
theorem new_initial_witness :
    new {} 3 = some
      (⟨sppa.node (-1) (-1) sppa.null, sppa.node (-1) (-1) sppa.null,
        sppa.node (-1) (-1) sppa.null, 0⟩, ⟨[0, 1, 2], [0, 1, 2], [0, 0, 0]⟩) ∧
    ∃ uf st, new {} 3 = some (uf, st) ∧ st.parent_s.length = (3 : Int).toNat :=
  ⟨by decide,
    (new_initial 3 (by decide)).1.imp (fun _ h => h.imp (fun _ h1 => ⟨h1.1, h1.2.1⟩))⟩

end PersistentUnionFind

/-! ## The forest after a call: children, earlier calls and empty alternatives -/

namespace earley

/-- C33 (the forest is closed under children) at the failing input: for
`S → A d | ε`, `A → S c` on "cd" `recognize` returns true, the root `(S, 0, 2)`
has the packing `[A(0,1), d(1,2)]`, and the child `(A, 0, 1)` is a key of
`pfgraph` whose packing set is empty. -/
theorem child_without_packing :
    verdict (recognize (new g_Ad) "cd") = outcome.ret true ∧
    packings (recognize (new g_Ad) "cd") (nd 0 0 2) = some [[nd 1 0 1, tm 'd' 1 2]] ∧
    packings (recognize (new g_Ad) "cd") (nd 1 0 1) = some [] := by
  refine ⟨by decide, by decide, by decide⟩

/-- C34 (independence of earlier calls) at the failing input: for `S → X Y`,
`X → a | ε`, `Y → a | b Y`, the call `recognize("ba")` on a new recognizer
stores the one packing `[X(0,0), Y(0,2)]` for the root and has no key
`(X, 0, 1)`; after `recognize("aa")` on the same object the call
`recognize("ba")` returns the same verdict but stores the second packing
`[X(0,1), Y(1,2)]` for the root as well and has the key `(X, 0, 1)`, with no
packing: `citem` still holds the completed items of the chart of "aa". -/
theorem recognize_depends_on_history :
    verdict (recognize (new g_XY) "ba") = outcome.ret true ∧
    verdict (recognize (state_after (recognize (new g_XY) "aa") (new g_XY)) "ba") =
      outcome.ret true ∧
    packings (recognize (new g_XY) "ba") (nd 0 0 2) = some [[nd 1 0 0, nd 2 0 2]] ∧
    packings (recognize (state_after (recognize (new g_XY) "aa") (new g_XY)) "ba") (nd 0 0 2) =
      some [[nd 1 0 0, nd 2 0 2], [nd 1 0 1, nd 2 1 2]] ∧
    packings (recognize (new g_XY) "ba") (nd 1 0 1) = none ∧
    packings (recognize (state_after (recognize (new g_XY) "aa") (new g_XY)) "ba") (nd 1 0 1) =
      some [] ∧
    (⟨1, 1, 0, 2⟩ : item) ∈ (state_after (recognize (new g_XY) "aa") (new g_XY)).citem ∧
    (⟨1, 1, 0, 2⟩ : item) ∉
      chart_items (chart (new g_XY).G (new g_XY).start (new g_XY).nullables (cstr "ba")) := by
  refine ⟨by decide, by decide, by decide, by decide, by decide, by decide, by decide,
    by decide⟩

/-- C35 (`curchd.back()` is defined) at the failing input: for the grammar
whose only alternative of `S` is the empty list of strings the production is
`[S]`, its seed item `(0, 0, 0, 1)` is completed and in the chart of "", and
the call of `sbl_chd_forest` for it reaches the end-of-rhs test with `curchd`
empty and reads `back()` of the empty vector; so does `recognize("")`. -/
theorem back_of_empty_prefix :
    (new g_none).G = [[lit.of_n 0]] ∧
    (⟨0, 0, 0, 1⟩ : item) ∈
      chart_items (chart (new g_none).G (new g_none).start (new g_none).nullables (cstr "")) ∧
    completed (new g_none).G ⟨0, 0, 0, 1⟩ = true ∧
    (P (new g_none).G 0).length ≤ ([] : List lit).length + 1 ∧
    sbl_chd_forest (new g_none).G [⟨0, 0, 0, 1⟩] (cstr "") ⟨0, 0, 0, 1⟩ [] 0 [] =
      outcome.throws exn.undefined_back ∧
    recognize (new g_none) "" = outcome.throws exn.undefined_back := by
  refine ⟨by decide, by decide, by decide, by decide, by decide, by decide⟩

end earley

/-! ## Children of stored packings are keys -/

namespace earley

theorem isSome_of_values {pf pf1 : ptree_t}
    (h : ∀ k ps, map_find k pf = some ps → map_find k pf1 = some ps) (k : lit)
    (hk : (map_find k pf).isSome = true) : (map_find k pf1).isSome = true := by
  cases hf : map_find k pf with
  | none => rw [hf] at hk; cases hk
  | some ps => rw [h k ps hf]; rfl

theorem kids_keys_mono {pf pf1 : ptree_t}
    (h : ∀ k ps, map_find k pf = some ps → map_find k pf1 = some ps) (ps : List (List lit))
    (hk : kids_keys pf ps) : kids_keys pf1 ps :=
  fun pack hp ch hch hnt => isSome_of_values h ch (hk pack hp ch hch hnt)

theorem grows_closed_refl (pf : ptree_t) : grows_closed pf pf :=
  ⟨fun _ _ h => h, fun _ _ h => Or.inl h⟩

theorem grows_closed_trans {a b c : ptree_t} (h1 : grows_closed a b) (h2 : grows_closed b c) :
    grows_closed a c := by
  refine ⟨fun k ps h => h2.1 k ps (h1.1 k ps h), ?_⟩
  intro k ps h
  rcases h2.2 k ps h with h3 | h3
  · rcases h1.2 k ps h3 with h4 | h4
    · exact Or.inl h4
    · exact Or.inr (kids_keys_mono h2.1 ps h4)
  · exact Or.inr h3

/-- A call of `forest` that returns, for a non-terminal node with a completed
item, leaves the node as a key. -/
theorem forest_makes_key (G : List (List lit)) (citem : List item) (inputstr : List Char)
    (fuel : Nat) (pf : ptree_t) (nxt : lit) (r : Bool × ptree_t)
    (h : forest G citem inputstr fuel pf nxt = outcome.ret r) (hnt : nxt.nt = true)
    (hne : find_all G citem nxt.from_ nxt.n nxt.to_ ≠ []) :
    (map_find nxt r.2).isSome = true := by
  cases fuel with
  | zero => simp [forest] at h
  | succ fuel =>
    cases hvis : map_find nxt pf with
    | some x =>
      simp only [forest, hnt, hvis, Bool.not_true, Bool.false_eq_true, if_false,
        Option.isSome_some, if_true, outcome.ret.injEq] at h
      subst h
      simp only
      rw [hvis]
      rfl
    | none =>
      rw [map_find_isSome_iff]
      exact (forest_root_key G citem inputstr fuel pf nxt r hnt hvis hne h).2

/-- The non-terminal children of a packing of a completed item have completed
items. -/
theorem packing_kids_items (G : List (List lit)) (citem : List item) (inputstr : List Char)
    (cur : item) (pack : List lit) (h : packing_of G citem inputstr cur pack) (ch : lit)
    (hch : ch ∈ pack) (hnt : ch.nt = true) :
    find_all G citem ch.from_ ch.n ch.to_ ≠ [] := by
  obtain ⟨sym, _, hok⟩ := walk_child _ _ _ _ _ _ _ _ h.2 ch hch
  obtain ⟨v, v1, v2, v3, v4, _⟩ := (child_ok_cases hok).2 hnt
  intro hnil
  have : v ∈ find_all G citem ch.from_ ch.n ch.to_ :=
    (mem_find_all G citem ch.from_ ch.n ch.to_ v).2 ⟨v1, v2, v4, v3⟩
  rw [hnil] at this
  simp at this

theorem forest_children_kids (G : List (List lit)) (citem : List item)
    (call : ptree_t → lit → outcome (Bool × ptree_t))
    (hT : ∀ pf nxt r, call pf nxt = outcome.ret r → grows_closed pf r.2)
    (hR : ∀ pf nxt r, call pf nxt = outcome.ret r → nxt.nt = true →
      find_all G citem nxt.from_ nxt.n nxt.to_ ≠ [] → (map_find nxt r.2).isSome = true) :
    ∀ (amb : List (List lit)) (pf pf2 : ptree_t),
      forest_children call pf amb = outcome.ret pf2 →
      grows_closed pf pf2 ∧
      ∀ pack, pack ∈ amb → ∀ ch, ch ∈ pack → ch.nt = true →
        find_all G citem ch.from_ ch.n ch.to_ ≠ [] → (map_find ch pf2).isSome = true := by
  have inner : ∀ (l : List lit) (pfa pfb : ptree_t),
      outcome.foldl (fun pf1 nxt => outcome.bind (call pf1 nxt) (fun r => outcome.ret r.2))
        pfa l = outcome.ret pfb →
      grows_closed pfa pfb ∧
      ∀ ch, ch ∈ l → ch.nt = true → find_all G citem ch.from_ ch.n ch.to_ ≠ [] →
        (map_find ch pfb).isSome = true := by
    intro l
    induction l with
    | nil =>
      intro pfa pfb h
      simp only [outcome.foldl, outcome.ret.injEq] at h
      subst h
      exact ⟨grows_closed_refl _, fun ch hch => by simp at hch⟩
    | cons nxt l ih =>
      intro pfa pfb h
      simp only [outcome.foldl] at h
      rw [outcome.bind_eq_ret] at h
      obtain ⟨pfm, hm, hrest⟩ := h
      rw [outcome.bind_eq_ret] at hm
      obtain ⟨r1, hr1, hr2⟩ := hm
      simp only [outcome.ret.injEq] at hr2
      subst hr2
      obtain ⟨i1, i2⟩ := ih _ _ hrest
      refine ⟨grows_closed_trans (hT _ _ _ hr1) i1, ?_⟩
      intro ch hch hnt hne
      rcases List.mem_cons.mp hch with rfl | hch
      · exact isSome_of_values i1.1 ch (hR _ _ _ hr1 hnt hne)
      · exact i2 ch hch hnt hne
  intro amb
  induction amb with
  | nil =>
    intro pf pf2 h
    simp only [forest_children, outcome.foldl, outcome.ret.injEq] at h
    subst h
    exact ⟨grows_closed_refl _, fun pack hp => by simp at hp⟩
  | cons aset amb ih =>
    intro pf pf2 h
    simp only [forest_children, outcome.foldl] at h
    rw [outcome.bind_eq_ret] at h
    obtain ⟨pfm, hm, hrest⟩ := h
    obtain ⟨j1, j2⟩ := inner aset pf pfm hm
    obtain ⟨i1, i2⟩ := ih pfm pf2 hrest
    refine ⟨grows_closed_trans j1 i1, ?_⟩
    intro pack hp ch hch hnt hne
    rcases List.mem_cons.mp hp with rfl | hp
    · exact isSome_of_values i1.1 ch (j2 ch hch hnt hne)
    · exact i2 pack hp ch hch hnt hne

/-- Every call of `forest` keeps the entries of `pfgraph`, and the
non-terminal children of the packings of a new entry are keys when the call
returns. -/
theorem forest_kids (G : List (List lit)) (citem : List item) (inputstr : List Char) :
    ∀ fuel pf root r, forest G citem inputstr fuel pf root = outcome.ret r →
      grows_closed pf r.2 := by
  intro fuel
  induction fuel with
  | zero => intro pf root r h; simp [forest] at h
  | succ fuel ih =>
    intro pf root r h
    simp only [forest] at h
    split at h
    · simp only [outcome.ret.injEq] at h; subst h; exact grows_closed_refl _
    · rename_i hnt
      have hnt2 : root.nt = true := by simpa using hnt
      split at h
      · simp only [outcome.ret.injEq] at h; subst h; exact grows_closed_refl _
      · rename_i hvis
        have hnone : map_find root pf = none := by
          cases hf : map_find root pf with
          | none => rfl
          | some x => rw [hf] at hvis; simp at hvis
        rw [outcome.bind_eq_ret] at h
        obtain ⟨st, hst, hr⟩ := h
        simp only [outcome.ret.injEq] at hr
        subst hr
        have hinv := outcome.foldl_inv _
          (fun st : ptree_t × List (List lit) =>
            (∀ k ps, map_find k pf = some ps → map_find k st.1 = some ps) ∧
            (∀ k ps, k ≠ root → map_find k st.1 = some ps → map_find k pf = some ps ∨
              kids_keys st.1 ps) ∧
            (map_find root st.1 = none ∨
              (map_find root st.1 = some st.2 ∧ kids_keys st.1 st.2)) ∧
            kids_items G citem st.2) _ ?_ _ _
          ⟨fun _ _ h => h, fun _ _ _ h => Or.inl h, Or.inl hnone,
            fun pack hp => by simp at hp⟩ hst
        · obtain ⟨i1, i2, i3, _⟩ := hinv
          refine ⟨i1, ?_⟩
          intro k ps hk
          by_cases hkr : k = root
          · subst hkr
            rcases i3 with h3 | h3
            · rw [h3] at hk; cases hk
            · rw [h3.1] at hk
              simp only [Option.some.injEq] at hk
              subst hk
              exact Or.inr h3.2
          · exact i2 k ps hkr hk
        · intro st1 cur st2 hcur hst1 hstep
          obtain ⟨i1, i2, _, i4⟩ := hst1
          unfold forest_item at hstep
          rw [outcome.bind_eq_ret] at hstep
          obtain ⟨ambset, hamb, hstep⟩ := hstep
          rw [outcome.bind_eq_ret] at hstep
          obtain ⟨pf2, hpf2, hst2⟩ := hstep
          simp only [outcome.ret.injEq] at hst2
          subst hst2
          rw [(node_of_find_all hnt2 hcur).1] at hpf2
          have hitems : kids_items G citem ambset := by
            intro pack hp ch hch hnt
            rcases sbl_packing_of G citem inputstr cur st1.2 ambset hamb pack hp with h1 | h1
            · exact i4 pack h1 ch hch hnt
            · exact packing_kids_items G citem inputstr cur pack h1 ch hch hnt
          obtain ⟨c1, c2⟩ := forest_children_kids G citem _ ih
            (fun pfa nxt ra hcall hn hne =>
              forest_makes_key G citem inputstr fuel pfa nxt ra hcall hn hne)
            ambset _ pf2 hpf2
          have hval : ∀ k ps, map_find k st1.1 = some ps → k ≠ root →
              map_find k pf2 = some ps := by
            intro k ps hk hkr
            apply c1.1
            rw [map_find_assign, if_neg hkr]
            exact hk
          have hkeys : ∀ k, (map_find k st1.1).isSome = true → (map_find k pf2).isSome = true := by
            intro k hk
            by_cases hkr : k = root
            · subst hkr
              exact isSome_of_values c1.1 k (by rw [map_find_assign, if_pos rfl]; rfl)
            · cases hf : map_find k st1.1 with
              | none => rw [hf] at hk; cases hk
              | some ps => rw [hval k ps hf hkr]; rfl
          refine ⟨?_, ?_, ?_, hitems⟩
          · intro k ps hk
            have hkr : k ≠ root := by
              intro e; rw [e, hnone] at hk; cases hk
            exact hval k ps (i1 k ps hk) hkr
          · intro k ps hkr hk
            rcases c1.2 k ps hk with h3 | h3
            · rw [map_find_assign, if_neg hkr] at h3
              rcases i2 k ps hkr h3 with h4 | h4
              · exact Or.inl h4
              · right
                intro pack hp ch hch hnt
                exact hkeys ch (h4 pack hp ch hch hnt)
            · exact Or.inr h3
          · right
            refine ⟨c1.1 _ _ (by rw [map_find_assign, if_pos rfl]), ?_⟩
            intro pack hp ch hch hnt
            exact c2 pack hp ch hch hnt (hitems pack hp ch hch hnt)

/-- After `recognize` on a new recognizer every non-terminal child of a stored
packing is a key of `pfgraph`. -/
theorem children_are_keys (g : List (String × List (List String))) (s : String) (k : lit)
    (ps : List (List lit)) (pack : List lit) (ch : lit)
    (h : packings (recognize (new g) s) k = some ps) (hp : pack ∈ ps) (hch : ch ∈ pack)
    (hnt : ch.nt = true) : (packings (recognize (new g) s) ch).isSome = true := by
  cases hr : recognize (new g) s with
  | ret x =>
    rw [hr] at h
    simp only [packings] at h ⊢
    unfold recognize at hr
    rw [outcome.bind_eq_ret] at hr
    obtain ⟨c, _, hr⟩ := hr
    rw [outcome.bind_eq_ret] at hr
    obtain ⟨r, hf, hr⟩ := hr
    simp only [outcome.ret.injEq] at hr
    subst hr
    simp only at h ⊢
    have hk := forest_kids _ _ _ _ _ _ _ hf
    rcases hk.2 k ps h with h1 | h1
    · simp [map_find] at h1
    · exact h1 pack hp ch hch hnt
  | throws e => rw [hr] at h; simp [packings] at h
  | diverge => rw [hr] at h; simp [packings] at h

end earley

/-! ## Reading the last child of a walk -/

namespace outcome

theorem bind_ne_throws {α β : Type} {x : outcome α} {f : α → outcome β} (e : exn)
    (hx : x ≠ throws e) (hf : ∀ a, x = ret a → f a ≠ throws e) : bind x f ≠ throws e := by
  cases x with
  | ret a => exact hf a rfl
  | throws e1 =>
    simp only [bind, ne_eq, throws.injEq] at hx ⊢
    exact hx
  | diverge => simp [bind]

theorem foldl_ne_throws {α β : Type} (f : β → α → outcome β) (e : exn) (l : List α)
    (step : ∀ b a, a ∈ l → f b a ≠ throws e) : ∀ b, foldl f b l ≠ throws e := by
  induction l with
  | nil => intro b; simp [foldl]
  | cons a l ih =>
    intro b
    simp only [foldl]
    exact bind_ne_throws e (step b a (List.mem_cons_self _ _))
      (fun b1 _ => ih (fun b a ha => step b a (List.mem_cons_of_mem _ ha)) b1)

end outcome

namespace earley

theorem enc_rhs_ne_nil (names : List String) (d : dict) (y : List String) (hy : y ≠ []) :
    enc_rhs names d y ≠ [] := by
  cases y with
  | nil => exact absurd rfl hy
  | cons s y =>
    simp only [enc_rhs, ne_eq, List.append_eq_nil, not_and]
    intro h
    exfalso
    unfold enc_sym at h
    split at h
    · simp at h
    · split at h
      · simp at h
      · rename_i hs
        simp only [List.map_eq_nil_iff] at h
        exact hs h

theorem encode_spec_length (names : List String) (d : dict) :
    ∀ g : List (String × List (List String)), (∀ x, x ∈ g → ∀ y, y ∈ x.2 → y ≠ []) →
    ∀ p, p ∈ encode_spec names d g → 2 ≤ p.length := by
  intro g
  induction g with
  | nil => intro _ p hp; simp [encode_spec] at hp
  | cons x g ih =>
    intro hg p hp
    simp only [encode_spec, List.mem_append, List.mem_map] at hp
    rcases hp with ⟨y, hy, rfl⟩ | hp
    · have := enc_rhs_ne_nil names d y (hg x (List.mem_cons_self _ _) y hy)
      have hpos : 0 < (enc_rhs names d y).length := List.length_pos.mpr this
      simp only [enc_alt, List.length_cons]
      omega
    · exact ih (fun x1 hx1 => hg x1 (List.mem_cons_of_mem _ hx1)) p hp

/-- A grammar in which no alternative is the empty list is encoded by
productions of at least two literals. -/
theorem new_G_length (g : List (String × List (List String)))
    (hg : ∀ x, x ∈ g → ∀ y, y ∈ x.2 → y ≠ []) : ∀ p, p ∈ (new g).G → 2 ≤ p.length := by
  obtain ⟨_, _, h3⟩ := mk_G_enc (g.map Prod.fst) g [] []
  obtain ⟨p1, _, _⟩ := dict_get_spec (mk_G (g.map Prod.fst) g [] []).2 "S"
  have hd : (new g).d = (dict.get (mk_G (g.map Prod.fst) g [] []).2 "S").2 := rfl
  have hG : (new g).G = encode_spec (g.map Prod.fst) (new g).d g := by
    have := h3 (new g).d (by rw [hd]; exact p1)
    simpa using this
  intro p hp
  rw [hG] at hp
  exact encode_spec_length _ _ g hg p hp

/-- For a production of at least two literals, or with a child in `curchd`
already, `sbl_chd_forest` does not read `back()` of an empty vector. -/
theorem sbl_no_back (G : List (List lit)) (citem : List item) (inputstr : List Char)
    (eitem : item) : ∀ (m : Nat) (curchd : List lit) (xfrom : Nat) (amb : List (List lit)),
    m = (P G eitem.prod).length - (curchd.length + 1) →
    (2 ≤ (P G eitem.prod).length ∨ curchd ≠ []) →
    sbl_chd_forest_aux G citem inputstr eitem m curchd xfrom amb ≠
      outcome.throws exn.undefined_back := by
  intro m
  induction m with
  | zero =>
    intro curchd xfrom amb hm h2
    have hne : curchd ≠ [] := by
      rcases h2 with h2 | h2
      · intro hnil
        rw [hnil] at hm
        simp at hm
        omega
      · exact h2
    simp only [sbl_chd_forest_aux]
    cases hb : curchd.getLast? with
    | none =>
      rw [List.getLast?_eq_none_iff] at hb
      exact absurd hb hne
    | some b =>
      simp only
      split <;> simp
  | succ m ih =>
    intro curchd xfrom amb hm _
    have hrec : ∀ (child : lit) (x1 : Nat) (a : List (List lit)),
        sbl_chd_forest_aux G citem inputstr eitem m (curchd ++ [child]) x1 a ≠
          outcome.throws exn.undefined_back := by
      intro child x1 a
      exact ih _ _ _ (by simp; omega) (Or.inr (by simp))
    simp only [sbl_chd_forest_aux]
    split
    · split
      · exact hrec _ _ _
      · split
        · simp
        · split
          · exact hrec _ _ _
          · simp
    · apply outcome.foldl_ne_throws
      intro b a _
      split
      · simp
      · exact hrec _ _ _

theorem forest_children_no_back (call : ptree_t → lit → outcome (Bool × ptree_t))
    (hcall : ∀ pf nxt, call pf nxt ≠ outcome.throws exn.undefined_back)
    (pf : ptree_t) (ambset : List (List lit)) :
    forest_children call pf ambset ≠ outcome.throws exn.undefined_back := by
  unfold forest_children
  apply outcome.foldl_ne_throws
  intro pfa aset _
  apply outcome.foldl_ne_throws
  intro pfc nxt _
  exact outcome.bind_ne_throws _ (hcall pfc nxt) (fun _ _ => by simp)

/-- When every completed item belongs to a production of at least two
literals, `forest` does not read `back()` of an empty vector. -/
theorem forest_no_back (G : List (List lit)) (citem : List item) (inputstr : List Char)
    (hlen : ∀ cur, cur ∈ citem → 2 ≤ (P G cur.prod).length) :
    ∀ fuel pf root,
      forest G citem inputstr fuel pf root ≠ outcome.throws exn.undefined_back := by
  intro fuel
  induction fuel with
  | zero => intro pf root; simp [forest]
  | succ fuel ih =>
    intro pf root
    simp only [forest]
    split
    · simp
    · split
      · simp
      · refine outcome.bind_ne_throws _ ?_ (fun _ _ => by simp)
        apply outcome.foldl_ne_throws
        intro st cur hcur
        unfold forest_item
        refine outcome.bind_ne_throws _ ?_ ?_
        · unfold sbl_chd_forest
          exact sbl_no_back G citem inputstr cur _ [] cur.from_ st.2 rfl
            (Or.inl (hlen cur (find_all_mem hcur).1))
        · intro ambset _
          exact outcome.bind_ne_throws _ (forest_children_no_back _ ih _ _)
            (fun _ _ => by simp)

/-- For a grammar in which no alternative is the empty list of strings,
`recognize` on a new recognizer never reads `back()` of an empty vector. -/
theorem recognize_no_back (g : List (String × List (List String)))
    (hg : ∀ x, x ∈ g → ∀ y, y ∈ x.2 → y ≠ []) (s : String) :
    recognize (new g) s ≠ outcome.throws exn.undefined_back := by
  obtain ⟨c, hc⟩ := chart_returns (new g).G (new g).start (new g).nullables (cstr s)
    (wf_new g) (sound_new g) (cstr_no_nul s)
  have hgood := chart_good _ _ _ _ (wf_new g) (sound_new g) (cstr_no_nul s) c hc
  unfold recognize
  rw [hc]
  simp only [outcome.bind]
  have hlen : ∀ cur, cur ∈ citem_of (new g) c.S → 2 ≤ (P (new g).G cur.prod).length := by
    intro cur hcur
    rw [mem_citem_of] at hcur
    have hnil : (new g).citem = [] := rfl
    rw [hnil] at hcur
    simp only [List.not_mem_nil, false_or] at hcur
    have hp := (hgood.1 cur hcur.1).2.2.1
    exact new_G_length g hg _ (P_mem _ _ hp)
  have := forest_no_back (new g).G (citem_of (new g) c.S) (cstr s) hlen
    ((citem_of (new g) c.S).length + 1) [] (root_of (new g) (cstr s).length)
  cases hf : forest (new g).G (citem_of (new g) c.S) (cstr s)
      ((citem_of (new g) c.S).length + 1) [] (root_of (new g) (cstr s).length) with
  | ret r => simp
  | throws e =>
    simp only [ne_eq, outcome.throws.injEq]
    intro he
    rw [hf, he] at this
    exact this rfl
  | diverge => simp

end earley

/-! ## Fixed-width hashes, field ranges, added chains and calls on a used recognizer -/

theorem int_t.wrap_eq (w : Nat) (x : Int) (hw : 0 < w) (h0 : 0 ≤ x) (h1 : x < 2 ^ (w - 1)) :
    int_t.wrap w x = x := by
  unfold int_t.wrap
  have e : (2 : Int) ^ w = 2 * 2 ^ (w - 1) := by
    obtain ⟨k, rfl⟩ : ∃ k, w = k + 1 := ⟨w - 1, by omega⟩
    rw [Nat.add_sub_cancel, pow_succ, mul_comm]
  rw [e]
  generalize (2 : Int) ^ (w - 1) = p at *
  have h := Int.emod_eq_of_lt (show 0 ≤ x + p by omega) (show x + p < 2 * p by omega)
  rw [h]
  exact Int.add_sub_cancel x p

/-- While neither square and not the sum leaves the range of an `int_t` of `w`
bits, the machine result of `hash_set` is the exact one. -/
theorem PersistentUnionFind.hash_set_w_exact (w : Nat) (x y x_hash y_hash : int_t) (hw : 0 < w)
    (hx : x_hash = 0 → x * x < 2 ^ (w - 1)) (hy : y_hash = 0 → y * y < 2 ^ (w - 1))
    (h0 : 0 ≤ PersistentUnionFind.hash_set x y x_hash y_hash)
    (h1 : PersistentUnionFind.hash_set x y x_hash y_hash < 2 ^ (w - 1)) :
    PersistentUnionFind.hash_set_w w x y x_hash y_hash =
      PersistentUnionFind.hash_set x y x_hash y_hash := by
  have e1 : (if x_hash = 0 then int_t.wrap w (x * x) else x_hash) =
      (if x_hash = 0 then x * x else x_hash) := by
    split
    · rename_i h
      exact int_t.wrap_eq w _ hw (mul_self_nonneg x) (hx h)
    · rfl
  have e2 : (if y_hash = 0 then int_t.wrap w (y * y) else y_hash) =
      (if y_hash = 0 then y * y else y_hash) := by
    split
    · rename_i h
      exact int_t.wrap_eq w _ hw (mul_self_nonneg y) (hy h)
    · rfl
  unfold PersistentUnionFind.hash_set_w
  rw [e1, e2]
  exact int_t.wrap_eq w _ hw h0 h1

/-- On an `int_t` of `w` bits the sum of two values that are not negative is 0
only when both are 0, also when the sum wraps. -/
theorem poset.wrapped_sum_zero (w : Nat) (a b : Int) (hw : 0 < w) (ha0 : 0 ≤ a)
    (ha : a < 2 ^ (w - 1)) (hb0 : 0 ≤ b) (hb : b < 2 ^ (w - 1))
    (h : int_t.wrap w (a + b) = 0) : a = 0 ∧ b = 0 := by
  unfold int_t.wrap at h
  have e : (2 : Int) ^ w = 2 * 2 ^ (w - 1) := by
    obtain ⟨k, rfl⟩ : ∃ k, w = k + 1 := ⟨w - 1, by omega⟩
    rw [Nat.add_sub_cancel, pow_succ, mul_comm]
  rw [e] at h
  generalize (2 : Int) ^ (w - 1) = p at *
  have h2 : (a + b + p) % (2 * p) = p := by
    have h3 : (a + b + p) % (2 * p) - p = (0 : Int) := h
    omega
  by_cases hlt : a + b < p
  · have h4 := Int.emod_eq_of_lt (show 0 ≤ a + b + p by omega) (show a + b + p < 2 * p by omega)
    omega
  · have h5 : a + b + p = (a + b - p) + 1 * (2 * p) := by omega
    rw [h5, Int.add_mul_emod_self] at h2
    have h4 := Int.emod_eq_of_lt (show 0 ≤ a + b - p by omega) (show a + b - p < 2 * p by omega)
    omega

namespace uf_model

theorem sumsq_filter_le (p : Nat → Bool) (l : List Nat) : sumsq (l.filter p) ≤ sumsq l := by
  induction l with
  | nil => exact Nat.le_refl _
  | cons a l ih =>
    simp only [sumsq] at ih ⊢
    cases hp : p a <;> simp [List.filter_cons, hp] <;> omega

theorem sumsq_pos (l : List Nat) (hnd : l.Nodup) (hlen : 2 ≤ l.length) : 0 < sumsq l := by
  match l, hnd, hlen with
  | a :: b :: rest, hnd, _ =>
    have hab : a ≠ b := by
      intro e
      subst e
      simp at hnd
    have ha := sq_le_sumsq (a :: b :: rest) a (by simp)
    have hb := sq_le_sumsq (a :: b :: rest) b (by simp)
    rcases Nat.eq_zero_or_pos a with h | h
    · have hb0 : 0 < b := by omega
      have := Nat.mul_pos hb0 hb0
      omega
    · have := Nat.mul_pos h h
      omega

/-- In a state in normal form `hash_set` returns the sum of the squares of the
members of the two classes. -/
theorem hash_set_classes (n : Nat) (t : uf_model) (a b : Nat) (hinv : inv n t) (ha : a < n)
    (hb : b < n) :
    PersistentUnionFind.hash_set (t.find a) (t.find b) (t.hashes (t.find a))
        (t.hashes (t.find b)) =
      ((sumsq (cls t n (t.find a)) + sumsq (cls t n (t.find b)) : Nat) : Int) := by
  have hxa : t.find a < n := lt_of_le_of_lt (hinv.1 a) ha
  have hyb : t.find b < n := lt_of_le_of_lt (hinv.1 b) hb
  have hrx : t.find (t.find a) = t.find a := hinv.2.1 a
  have hry : t.find (t.find b) = t.find b := hinv.2.1 b
  have hhx : t.hashes (t.find a) = (class_hash t n (t.find a) : Int) :=
    hinv.2.2.1 _ hxa hrx
  have hhy : t.hashes (t.find b) = (class_hash t n (t.find b) : Int) :=
    hinv.2.2.1 _ hyb hry
  unfold PersistentUnionFind.hash_set
  rw [hhx, hhy, ← hash_term t n _ hxa hrx, ← hash_term t n _ hyb hry]
  push_cast
  simp only [Nat.cast_eq_zero]

/-- The squares of the members of two classes sum to at most the squares of
all elements. -/
theorem sumsq_classes_le (n : Nat) (t : uf_model) (x y : Nat) (hne : x ≠ y) :
    sumsq (cls t n x) + sumsq (cls t n y) ≤ sumsq (List.range n) := by
  have h := sumsq_filter_or (fun b => decide (t.find b = x)) (fun b => decide (t.find b = y))
    (List.range n) (fun b hb => by
      simp only [decide_eq_true_eq] at hb
      exact hne (hb.1.symm.trans hb.2))
  unfold cls
  rw [← h]
  exact sumsq_filter_le _ _

/-- While the squares of all elements sum to less than `2 ^ (w - 1)`, the
machine result of `hash_set` in a state in normal form is the exact one. -/
theorem hash_set_w_classes (w n : Nat) (t : uf_model) (a b : Nat) (hw : 0 < w)
    (hbd : sumsq (List.range n) < 2 ^ (w - 1)) (hinv : inv n t) (ha : a < n) (hb : b < n)
    (hne : t.find a ≠ t.find b) :
    PersistentUnionFind.hash_set_w w (t.find a) (t.find b) (t.hashes (t.find a))
        (t.hashes (t.find b)) =
      PersistentUnionFind.hash_set (t.find a) (t.find b) (t.hashes (t.find a))
        (t.hashes (t.find b)) := by
  have hxa : t.find a < n := lt_of_le_of_lt (hinv.1 a) ha
  have hyb : t.find b < n := lt_of_le_of_lt (hinv.1 b) hb
  have hcast : ((sumsq (List.range n) : Nat) : Int) < 2 ^ (w - 1) := by exact_mod_cast hbd
  have hsq : ∀ x : Nat, x < n → int_t.wrap w ((x : Int) * (x : Int)) = (x : Int) * (x : Int) := by
    intro x hx
    have h1 := sq_le_sumsq (List.range n) x (List.mem_range.mpr hx)
    have h2 : ((x * x : Nat) : Int) ≤ ((sumsq (List.range n) : Nat) : Int) := by
      exact_mod_cast h1
    apply int_t.wrap_eq w _ hw
    · exact mul_self_nonneg _
    · push_cast at h2
      exact lt_of_le_of_lt h2 hcast
  have hsum := sumsq_classes_le n t (t.find a) (t.find b) hne
  have hsum2 : ((sumsq (cls t n (t.find a)) + sumsq (cls t n (t.find b)) : Nat) : Int) ≤
      ((sumsq (List.range n) : Nat) : Int) := by exact_mod_cast hsum
  unfold PersistentUnionFind.hash_set_w
  rw [hsq _ hxa, hsq _ hyb]
  show int_t.wrap w (PersistentUnionFind.hash_set (t.find a) (t.find b) (t.hashes (t.find a))
    (t.hashes (t.find b))) = _
  rw [hash_set_classes n t a b hinv ha hb]
  apply int_t.wrap_eq w _ hw
  · exact Int.natCast_nonneg _
  · exact lt_of_le_of_lt hsum2 hcast

theorem merge_w_eq (w n : Nat) (t : uf_model) (a b : Nat) (hw : 0 < w)
    (hbd : sumsq (List.range n) < 2 ^ (w - 1)) (hinv : inv n t) (ha : a < n) (hb : b < n) :
    merge_w w t a b = merge t a b := by
  unfold merge_w merge
  by_cases h : t.find a = t.find b
  · simp only [if_pos h]
  · simp only [if_neg h, PersistentUnionFind.merged_w, PersistentUnionFind.merged,
      hash_set_w_classes w n t a b hw hbd hinv ha hb h]

theorem foldl_w_eq (w n : Nat) (hw : 0 < w) (hbd : sumsq (List.range n) < 2 ^ (w - 1))
    (ms : List (Nat × Nat)) (t : uf_model) (hinv : inv n t)
    (h : ∀ m ∈ ms, m.1 < n ∧ m.2 < n) :
    ms.foldl (fun t m => merge_w w t m.1 m.2) t = ms.foldl (fun t m => merge t m.1 m.2) t := by
  induction ms generalizing t with
  | nil => rfl
  | cons m ms ih =>
    have hm := h m (List.mem_cons_self _ _)
    simp only [List.foldl_cons]
    rw [merge_w_eq w n t m.1 m.2 hw hbd hinv hm.1 hm.2]
    exact ih _ (inv_merge n t m.1 m.2 hinv hm.1 hm.2)
      (fun q hq => h q (List.mem_cons_of_mem _ hq))

/-- While the squares of all elements sum to less than `2 ^ (w - 1)`, the
merges on an `int_t` of `w` bits compute what the exact ones do. -/
theorem run_w_eq (w n : Nat) (hw : 0 < w) (hbd : sumsq (List.range n) < 2 ^ (w - 1))
    (ms : List (Nat × Nat)) (h : ∀ m ∈ ms, m.1 < n ∧ m.2 < n) : run_w w ms = run ms :=
  foldl_w_eq w n hw hbd ms init (inv_init n) h

/-- In a state in normal form the stored hash of a root is 0 exactly when the
root is the only member of its class. -/
theorem hashes_zero_iff (n : Nat) (t : uf_model) (hinv : inv n t) (r : Nat) (hr : r < n)
    (hroot : t.find r = r) :
    t.hashes r = 0 ↔ ∀ i, i < n → t.find i = r → i = r := by
  rw [hinv.2.2.1 r hr hroot]
  have hmem : r ∈ cls t n r := (mem_cls t n r r).mpr ⟨hr, hroot⟩
  have hnd : (cls t n r).Nodup := (List.nodup_range n).filter _
  constructor
  · intro h0 i hi hfi
    have h0n : class_hash t n r = 0 := by exact_mod_cast h0
    have him : i ∈ cls t n r := (mem_cls t n r i).mpr ⟨hi, hfi⟩
    by_cases hlen : (cls t n r).length ≤ 1
    · have e := eq_singleton_of_short _ r hlen hmem
      rw [e] at him
      exact List.mem_singleton.mp him
    · unfold class_hash at h0n
      rw [if_neg hlen] at h0n
      have := sumsq_pos _ hnd (by omega)
      omega
  · intro hall
    have hsub : cls t n r ⊆ [r] := by
      intro b hb
      have hb2 := (mem_cls t n r b).mp hb
      exact List.mem_singleton.mpr (hall b hb2.1 hb2.2)
    have hlen : (cls t n r).length ≤ 1 := by
      simpa using (List.subperm_of_subset hnd hsub).length_le
    simp [class_hash, hlen]

theorem find_merge_w_lt (w : Nat) (t : uf_model) (a b x y : Nat) (hx : t.find a = x)
    (hy : t.find b = y) (hlt : x < y) (i : Nat) :
    (merge_w w t a b).find i = if t.find i = y then x else t.find i := by
  unfold merge_w
  rw [hx, hy, if_neg (Nat.ne_of_lt hlt)]
  simp only [Nat.max_eq_right (Nat.le_of_lt hlt), Nat.min_eq_left (Nat.le_of_lt hlt)]

/-- C11 (normal-form key) without overflow: on an `int_t` of `w` bits, two
sequences of merges over the elements `0 .. n-1` whose squares sum to less
than `2 ^ (w - 1)`, each started from the all-singletons state with every hash
0, that produce the same partition yield the same global hash, and the same
stored hash at every root. -/
theorem normal_form_key_bounded (w n : Nat) (ms1 ms2 : List (Nat × Nat)) (hw : 0 < w)
    (hbd : sumsq (List.range n) < 2 ^ (w - 1))
    (h1 : ∀ m ∈ ms1, m.1 < n ∧ m.2 < n) (h2 : ∀ m ∈ ms2, m.1 < n ∧ m.2 < n)
    (hp : ∀ i, i < n → ∀ j, j < n →
      ((run_w w ms1).find i = (run_w w ms1).find j ↔
        (run_w w ms2).find i = (run_w w ms2).find j)) :
    (run_w w ms1).hash = (run_w w ms2).hash ∧
    ∀ r, r < n → (run_w w ms1).find r = r → (run_w w ms1).hashes r = (run_w w ms2).hashes r := by
  rw [run_w_eq w n hw hbd ms1 h1, run_w_eq w n hw hbd ms2 h2] at hp ⊢
  exact hash_eq_of_partition n (run ms1) (run ms2) (inv_run n ms1 h1) (inv_run n ms2 h2) hp

/-- Witness of C11: on 5 elements and 32 bits, `merge(0,1); merge(2,3);
merge(1,2)` and `merge(3,2); merge(0,1); merge(1,3)` give the same partition
and the same hash, which is 14. -/
theorem normal_form_key_bounded_witness :
    (run_w 32 [(0, 1), (2, 3), (1, 2)]).hash = (run_w 32 [(3, 2), (0, 1), (1, 3)]).hash ∧
    (run_w 32 [(0, 1), (2, 3), (1, 2)]).hash = 14 :=
  ⟨(normal_form_key_bounded 32 5 [(0, 1), (2, 3), (1, 2)] [(3, 2), (0, 1), (1, 3)] (by decide)
    (by decide) (by decide) (by decide) (by decide)).1, by decide⟩

/-- Counterexample to C11 as stated: on an `int_t` of 32 bits the merges
`(32768, 98304); (32768, 163840); (32768, 229376); (1, 32768)` and
`(1, 32768); (1, 98304); (1, 163840); (1, 229376)` give the same roots, so the
same partition, and the global hashes 1073741825 and 1: the four squares sum
to `2 ^ 32`, so the class of 32768 has the stored hash 0 and is counted as the
singleton of its root. -/
theorem normal_form_key_overflow :
    (∀ i, (run_w 32 [(32768, 98304), (32768, 163840), (32768, 229376), (1, 32768)]).find i =
      (run_w 32 [(1, 32768), (1, 98304), (1, 163840), (1, 229376)]).find i) ∧
    (run_w 32 [(32768, 98304), (32768, 163840), (32768, 229376), (1, 32768)]).hash =
      1073741825 ∧
    (run_w 32 [(1, 32768), (1, 98304), (1, 163840), (1, 229376)]).hash = 1 ∧
    (run_w 32 [(32768, 98304), (32768, 163840), (32768, 229376)]).hashes 32768 = 0 := by
  refine ⟨?_, by decide, by decide, by decide⟩
  have a1 := find_merge_w_lt 32 init 32768 98304 32768 98304 (by decide) (by decide) (by decide)
  have a2 := find_merge_w_lt 32 (merge_w 32 init 32768 98304) 32768 163840 32768 163840
    (by decide) (by decide) (by decide)
  have a3 := find_merge_w_lt 32 (merge_w 32 (merge_w 32 init 32768 98304) 32768 163840)
    32768 229376 32768 229376 (by decide) (by decide) (by decide)
  have a4 := find_merge_w_lt 32
    (merge_w 32 (merge_w 32 (merge_w 32 init 32768 98304) 32768 163840) 32768 229376)
    1 32768 1 32768 (by decide) (by decide) (by decide)
  have b1 := find_merge_w_lt 32 init 1 32768 1 32768 (by decide) (by decide) (by decide)
  have b2 := find_merge_w_lt 32 (merge_w 32 init 1 32768) 1 98304 1 98304
    (by decide) (by decide) (by decide)
  have b3 := find_merge_w_lt 32 (merge_w 32 (merge_w 32 init 1 32768) 1 98304)
    1 163840 1 163840 (by decide) (by decide) (by decide)
  have b4 := find_merge_w_lt 32
    (merge_w 32 (merge_w 32 (merge_w 32 init 1 32768) 1 98304) 1 163840)
    1 229376 1 229376 (by decide) (by decide) (by decide)
  intro i
  simp only [run_w, List.foldl]
  rw [a4, a3, a2, a1, b4, b3, b2, b1]
  simp only [init]
  split_ifs <;> omega

end uf_model

namespace PersistentUnionFind

/-- C12 (merge hash formula) on an `int_t` of `w` bits: the union-find built
by the merge constructor has `hash = h_old xor hash_x xor hash_y xor
hash_set(x, y, hash_x, hash_y)` and keeps the three pointers it is given;
`hash_set` adds two contributions, the square of the root for a class whose
stored hash is 0 and the stored hash otherwise, the squares and the sum being
machine results; and after merges over the elements `0 .. n-1` whose squares
sum to less than `2 ^ (w - 1)`, the stored hash of a root is 0 exactly when
its class is a singleton. -/
theorem merged_hash_fixed_width (w n : Nat) (ms : List (Nat × Nat)) (hw : 0 < w)
    (hbd : uf_model.sumsq (List.range n) < 2 ^ (w - 1))
    (h : ∀ m ∈ ms, m.1 < n ∧ m.2 < n)
    (a_ptr l_ptr h_ptr : sppa) (h_old x y hash_x hash_y : int_t) :
    (merged_w w a_ptr l_ptr h_ptr h_old x y hash_x hash_y).hash =
      Int.xor (Int.xor (Int.xor h_old hash_x) hash_y) (hash_set_w w x y hash_x hash_y) ∧
    (merged_w w a_ptr l_ptr h_ptr h_old x y hash_x hash_y).arr_pt = a_ptr ∧
    (merged_w w a_ptr l_ptr h_ptr h_old x y hash_x hash_y).link_pt = l_ptr ∧
    (merged_w w a_ptr l_ptr h_ptr h_old x y hash_x hash_y).hash_pt = h_ptr ∧
    hash_set_w w x y hash_x hash_y =
      int_t.wrap w ((if hash_x = 0 then int_t.wrap w (x * x) else hash_x) +
        (if hash_y = 0 then int_t.wrap w (y * y) else hash_y)) ∧
    (∀ r, r < n → (uf_model.run_w w ms).find r = r →
      ((uf_model.run_w w ms).hashes r = 0 ↔
        ∀ i, i < n → (uf_model.run_w w ms).find i = r → i = r)) := by
  refine ⟨rfl, rfl, rfl, rfl, rfl, ?_⟩
  rw [uf_model.run_w_eq w n hw hbd ms h]
  intro r hr hroot
  exact uf_model.hashes_zero_iff n _ (uf_model.inv_run n ms h) r hr hroot

/-- Witness of C12: on 32 bits, merging the class of root 0 with stored hash 5
into the singleton 3 from the global hash 5; after `merge(0,1); merge(2,3)` on
5 elements the root 4 is alone in its class and its stored hash is 0. -/
theorem merged_hash_fixed_width_witness :
    (merged_w 32 sppa.null sppa.null sppa.null 5 0 3 5 0).hash = 14 ∧
    ((uf_model.run_w 32 [(0, 1), (2, 3)]).hashes 4 = 0 ↔
      ∀ i, i < 5 → (uf_model.run_w 32 [(0, 1), (2, 3)]).find i = 4 → i = 4) :=
  ⟨by decide,
    (merged_hash_fixed_width 32 5 [(0, 1), (2, 3)] (by decide) (by decide) (by decide)
      sppa.null sppa.null sppa.null 5 0 3 5 0).2.2.2.2.2 4 (by decide) (by decide)⟩

/-- Counterexample to C12 as stated: on an `int_t` of 32 bits, after the
merges `(32768, 98304); (32768, 163840); (32768, 229376)` the class of the
root 32768 has four members and the stored hash 0, and `hash_set` counts it as
the square of its root; and `hash_set(46341, 0, 0, 0)` is `-2147479015`, not
the sum of the two squares. -/
theorem stored_hash_zero_not_singleton :
    (uf_model.run_w 32 [(32768, 98304), (32768, 163840), (32768, 229376)]).find 32768 = 32768 ∧
    (uf_model.run_w 32 [(32768, 98304), (32768, 163840), (32768, 229376)]).find 98304 = 32768 ∧
    (uf_model.run_w 32 [(32768, 98304), (32768, 163840), (32768, 229376)]).find 163840 =
      32768 ∧
    (uf_model.run_w 32 [(32768, 98304), (32768, 163840), (32768, 229376)]).find 229376 =
      32768 ∧
    (uf_model.run_w 32 [(32768, 98304), (32768, 163840), (32768, 229376)]).hashes 32768 = 0 ∧
    hash_set_w 32 1 32768 0
      ((uf_model.run_w 32 [(32768, 98304), (32768, 163840), (32768, 229376)]).hashes 32768) =
      1 * 1 + 32768 * 32768 ∧
    hash_set_w 32 46341 0 0 0 = -2147479015 ∧
    hash_set_w 32 46341 0 0 0 ≠ 46341 * 46341 + 0 * 0 := by
  refine ⟨by decide, by decide, by decide, by decide, by decide, by decide, by decide,
    by decide⟩

end PersistentUnionFind

namespace poset

/-- Counterexample to C16 as stated: for the field values `eqs = 1`,
`imps = -1`, `vars = 1` the test `eqs + imps == 0` succeeds and `only_vars`
holds, while neither `eqs` nor `imps` is 0. -/
theorem only_vars_negative_imps :
    only_vars { eqs := 1, imps := -1, vars := 1 } = true ∧
    ({ eqs := 1, imps := -1, vars := 1 } : poset).eqs ≠ 0 ∧
    ({ eqs := 1, imps := -1, vars := 1 } : poset).imps ≠ 0 := by
  refine ⟨by decide, by decide, by decide⟩

end poset

namespace inputs

/-- Counterexample to C32 as stated: the input at the address 10 is added
while its `next()` is the input at 20; `add` does not look at `next()`, so
`size()` is 1 while two inputs are met from `first()`, and `next()` of
`last()` is not null. -/
theorem add_with_chain :
    size (run 64 (fun p => if p = 10 then some 20 else none) [10]).1 = 1 ∧
    first (run 64 (fun p => if p = 10 then some 20 else none) [10]).1 = some 10 ∧
    last (run 64 (fun p => if p = 10 then some 20 else none) [10]).1 = some 10 ∧
    (∀ fuel, reachable (run 64 (fun p => if p = 10 then some 20 else none) [10]).2 (fuel + 2)
      (first (run 64 (fun p => if p = 10 then some 20 else none) [10]).1) = [10, 20]) ∧
    input.next (run 64 (fun p => if p = 10 then some 20 else none) [10]).2 10 = some 20 := by
  refine ⟨by decide, by decide, by decide, ?_, by decide⟩
  intro fuel
  cases fuel <;> rfl

end inputs

namespace earley

/-- C27 (non-terminal children of a packing) at the failing input: for
`S → X Y`, `X → a | ε`, `Y → a | b Y`, in the call `recognize("ba")` after
`recognize("aa")` on the same object, `sbl_chd_forest` for the completed item
`(2, S → X Y ., 0, 3)` produces the packing `[X(0,1), Y(1,2)]`, which is
stored for the root, and the chart of "ba", which is the `S` of the object
after the call, has no completed item with left-hand side `X`, `from = 0` and
`set = 1`. -/
theorem child_without_chart_item :
    (state_after (recognize (state_after (recognize (new g_XY) "aa") (new g_XY)) "ba")
        (new g_XY)).S =
      chart_items (chart (new g_XY).G (new g_XY).start (new g_XY).nullables (cstr "ba")) ∧
    sbl_chd_forest (new g_XY).G
        (state_after (recognize (state_after (recognize (new g_XY) "aa") (new g_XY)) "ba")
          (new g_XY)).citem
        (cstr "ba") ⟨2, 0, 0, 3⟩ [] 0 [] =
      outcome.ret [[nd 1 0 0, nd 2 0 2], [nd 1 0 1, nd 2 1 2]] ∧
    packings (recognize (state_after (recognize (new g_XY) "aa") (new g_XY)) "ba") (nd 0 0 2) =
      some [[nd 1 0 0, nd 2 0 2], [nd 1 0 1, nd 2 1 2]] ∧
    (nd 1 0 1).nt = true ∧
    (∀ v, v ∈ chart_items (chart (new g_XY).G (new g_XY).start (new g_XY).nullables
        (cstr "ba")) →
      ¬ (completed (new g_XY).G v = true ∧ v.prod ∈ nts (new g_XY).G (lit.of_n 1) ∧
        v.from_ = 0 ∧ v.set = 1)) := by
  refine ⟨by decide, by decide, by decide, by decide, by decide⟩

/-- C28 (all alternatives are stored on the first visit) at the failing input:
for `S → X Y`, `X → Z | ε`, `Z → a`, `Y → a | b Y`, after `recognize("aa")` the
call `recognize("ba")` on the same object stores the packing set `{[Z(0,1)]}`
for the key `(X, 0, 1)`; the chart of "ba" has no completed item with
left-hand side `X`, `from = 0` and `set = 1`, so the union over these items is
empty, and a new recognizer has no such key. -/
theorem packing_without_chart_item :
    packings (recognize (state_after (recognize (new g_XZ) "aa") (new g_XZ)) "ba") (nd 1 0 1) =
      some [[nd 3 0 1]] ∧
    (∀ v, v ∈ chart_items (chart (new g_XZ).G (new g_XZ).start (new g_XZ).nullables
        (cstr "ba")) →
      ¬ (completed (new g_XZ).G v = true ∧ v.prod ∈ nts (new g_XZ).G (lit.of_n 1) ∧
        v.from_ = 0 ∧ v.set = 1)) ∧
    all_packings (new g_XZ).G
      (citem_of (new g_XZ)
        (chart_items (chart (new g_XZ).G (new g_XZ).start (new g_XZ).nullables (cstr "ba"))))
      (cstr "ba") (nd 1 0 1) = outcome.ret [] ∧
    packings (recognize (new g_XZ) "ba") (nd 1 0 1) = none ∧
    (⟨1, 1, 0, 2⟩ : item) ∈ (state_after (recognize (new g_XZ) "aa") (new g_XZ)).citem ∧
    (⟨1, 1, 0, 2⟩ : item) ∉
      chart_items (chart (new g_XZ).G (new g_XZ).start (new g_XZ).nullables (cstr "ba")) := by
  refine ⟨by decide, by decide, by decide, by decide, by decide, by decide⟩

end earley
